import Mathlib

/-!
Verification development for the mongorepo single-collection repository
(`index.js` of the repository, here `src/unnamed/part_002`, together with its
event-data classes under `lib/`).

The development shallowly embeds:
* the JSON-like documents the repository manipulates (`Val`),
* the document differencer (external `deep-diff` dependency, modelled from the
  spec, sections 3 and 4.3),
* the update-set compiler `_makeUpdateSet` (source lines 356-404),
* the path/pointer utilities (`setTimestampForAllPointers`, source lines 36-51,
  json-ptr `set` modelled from the spec, section 4.1),
* the repository facade operations `create`, `batchCreate`, `getById`, `update`
  and the error translator `translateDbError`, with the asynchronous callback
  discipline embedded as explicit outcome values and emitted-event lists.

Machine model conventions: scalars are opaque `prim` payloads compared by
equality; JS `Date` values are `date` payloads (always truthy); the clock is an
explicit argument threaded to the operation, read once where the source calls
`moment.utc().toDate()` / `new Date()`.
-/

namespace Mongorepo

/-- A JSON-like document value: opaque scalar, date, array, or object.
Objects are association lists in key encounter order, mirroring JS objects
(whose keys are unique; well-formedness is stated separately as `goodVal`). -/
inductive Val where
  | prim : String → Val
  | date : String → Val
  | arr : List Val → Val
  | obj : List (String × Val) → Val

mutual

/-- Structural (deep, order-sensitive) equality test on values. -/
def beqVal : Val → Val → Bool
  | .prim a, .prim b => a == b
  | .date a, .date b => a == b
  | .arr l, .arr r => beqValList l r
  | .obj l, .obj r => beqValPairs l r
  | _, _ => false

def beqValList : List Val → List Val → Bool
  | [], [] => true
  | a :: l, b :: r => beqVal a b && beqValList l r
  | _, _ => false

def beqValPairs : List (String × Val) → List (String × Val) → Bool
  | [], [] => true
  | (k1, a) :: l, (k2, b) :: r => k1 == k2 && beqVal a b && beqValPairs l r
  | _, _ => false

end

mutual

theorem beqVal_refl : ∀ v : Val, beqVal v v = true
  | .prim _ => by simp [beqVal]
  | .date _ => by simp [beqVal]
  | .arr l => by simp [beqVal, beqValList_refl l]
  | .obj l => by simp [beqVal, beqValPairs_refl l]

theorem beqValList_refl : ∀ l : List Val, beqValList l l = true
  | [] => rfl
  | v :: t => by simp [beqValList, beqVal_refl v, beqValList_refl t]

theorem beqValPairs_refl : ∀ l : List (String × Val), beqValPairs l l = true
  | [] => rfl
  | (k, v) :: t => by simp [beqValPairs, beqVal_refl v, beqValPairs_refl t]

end

mutual

theorem eq_of_beqVal : ∀ {a b : Val}, beqVal a b = true → a = b
  | .prim a, .prim b, h => by
    simp [beqVal] at h; simp [h]
  | .date a, .date b, h => by
    simp [beqVal] at h; simp [h]
  | .arr l, .arr r, h => by
    simp only [beqVal] at h
    simp [eq_of_beqValList h]
  | .obj l, .obj r, h => by
    simp only [beqVal] at h
    simp [eq_of_beqValPairs h]
  | .prim _, .date _, h => by simp [beqVal] at h
  | .prim _, .arr _, h => by simp [beqVal] at h
  | .prim _, .obj _, h => by simp [beqVal] at h
  | .date _, .prim _, h => by simp [beqVal] at h
  | .date _, .arr _, h => by simp [beqVal] at h
  | .date _, .obj _, h => by simp [beqVal] at h
  | .arr _, .prim _, h => by simp [beqVal] at h
  | .arr _, .date _, h => by simp [beqVal] at h
  | .arr _, .obj _, h => by simp [beqVal] at h
  | .obj _, .prim _, h => by simp [beqVal] at h
  | .obj _, .date _, h => by simp [beqVal] at h
  | .obj _, .arr _, h => by simp [beqVal] at h

theorem eq_of_beqValList : ∀ {l r : List Val}, beqValList l r = true → l = r
  | [], [], _ => rfl
  | a :: l, b :: r, h => by
    simp only [beqValList, Bool.and_eq_true] at h
    rw [eq_of_beqVal h.1, eq_of_beqValList h.2]
  | [], _ :: _, h => by simp [beqValList] at h
  | _ :: _, [], h => by simp [beqValList] at h

theorem eq_of_beqValPairs : ∀ {l r : List (String × Val)}, beqValPairs l r = true → l = r
  | [], [], _ => rfl
  | (k1, a) :: l, (k2, b) :: r, h => by
    simp only [beqValPairs, Bool.and_eq_true, beq_iff_eq] at h
    rw [h.1.1, eq_of_beqVal h.1.2, eq_of_beqValPairs h.2]
  | [], _ :: _, h => by simp [beqValPairs] at h
  | _ :: _, [], h => by simp [beqValPairs] at h

end

instance : BEq Val := ⟨beqVal⟩

instance : LawfulBEq Val where
  eq_of_beq h := eq_of_beqVal h
  rfl := beqVal_refl _

instance : DecidableEq Val := fun a b =>
  if h : beqVal a b = true then .isTrue (eq_of_beqVal h)
  else .isFalse (fun he => h (he ▸ beqVal_refl a))

namespace Val

/-- JS truthiness of a value, under the scalar encoding: the empty string
encodes a falsy scalar; dates, arrays and objects are always truthy. -/
def truthy : Val → Bool
  | .prim s => !(s = "" || s = "0" || s = "false" || s = "null" || s = "undefined")
  | .date _ => true
  | .arr _ => true
  | .obj _ => true

end Val

/-- First-match association-list lookup, the JS object property read. -/
def lookupKey {α : Type} : List (String × α) → String → Option α
  | [], _ => none
  | (k, v) :: t, k2 => if k2 = k then some v else lookupKey t k2

/-- JS object property write: overwrite the existing key in place, else append. -/
def objInsert {α : Type} : List (String × α) → String → α → List (String × α)
  | [], k, v => [(k, v)]
  | (k1, w) :: t, k, v => if k = k1 then (k1, v) :: t else (k1, w) :: objInsert t k v

/-- JS `delete obj[k]`: drop the entry with the given key. -/
def objRemove {α : Type} : List (String × α) → String → List (String × α)
  | [], _ => []
  | (k1, w) :: t, k => if k = k1 then t else (k1, w) :: objRemove t k

/-- Property read on a document value (`doc[k]`); non-objects have no fields. -/
def fieldGet (v : Val) (k : String) : Option Val :=
  match v with
  | .obj l => lookupKey l k
  | _ => none

/-- JS truthiness of `doc[k]`: absent fields are `undefined`, hence falsy. -/
def fieldTruthy (v : Val) (k : String) : Bool :=
  (fieldGet v k).elim false Val.truthy

/-- Property write on a document value; non-objects are left unchanged. -/
def fieldSet (v : Val) (k : String) (w : Val) : Val :=
  match v with
  | .obj l => .obj (objInsert l k w)
  | other => other

theorem lookupKey_objInsert_self {α : Type} (l : List (String × α)) (k : String) (v : α) :
    lookupKey (objInsert l k v) k = some v := by
  induction l with
  | nil => simp [objInsert, lookupKey]
  | cons h t ih =>
    obtain ⟨k1, w⟩ := h
    by_cases hk : k = k1
    · simp [objInsert, hk, lookupKey]
    · simp [objInsert, hk, lookupKey, ih]

theorem lookupKey_objInsert_ne {α : Type} (l : List (String × α)) (k k2 : String) (v : α)
    (h : k2 ≠ k) : lookupKey (objInsert l k v) k2 = lookupKey l k2 := by
  induction l with
  | nil => simp [objInsert, lookupKey, h]
  | cons hd t ih =>
    obtain ⟨k1, w⟩ := hd
    by_cases hk : k = k1
    · subst hk
      simp [objInsert, lookupKey, h]
    · by_cases hk2 : k2 = k1
      · simp [objInsert, hk, lookupKey, hk2]
      · simp [objInsert, hk, lookupKey, hk2, ih]

/-! ### Decimal rendering and parsing of array indices

The source renders array indices into update-set paths with JS string
conversion (`path.join('.') + '.' + changes[i].index`); update paths are read
back by the store by splitting on `.` and parsing decimal segments. -/

/-- The decimal digit character for `d < 10`. -/
def digitChar10 (d : Nat) : Char :=
  match d with
  | 0 => '0' | 1 => '1' | 2 => '2' | 3 => '3' | 4 => '4'
  | 5 => '5' | 6 => '6' | 7 => '7' | 8 => '8' | _ => '9'

/-- Fuel-driven decimal rendering (most significant digit first). -/
def decStrCore : Nat → Nat → List Char
  | 0, _ => []
  | fuel + 1, n =>
    if n < 10 then [digitChar10 n]
    else decStrCore fuel (n / 10) ++ [digitChar10 (n % 10)]

/-- Decimal rendering of a natural number, as JS `String(n)` produces. -/
def decStr (n : Nat) : String := ⟨decStrCore (n + 1) n⟩

/-- Decimal digit test. -/
def isDigitCh (c : Char) : Bool := '0' ≤ c && c ≤ '9'

/-- Numeric value of a digit character. -/
def digitVal (c : Char) : Nat := c.toNat - 48

/-- Parse a string as a (nonempty, all-digits) decimal index, as the store
interprets numeric path segments addressing array elements. -/
def parseIdx (s : String) : Option Nat :=
  if s.data ≠ [] && s.data.all isDigitCh then
    some (s.data.foldl (fun a c => a * 10 + digitVal c) 0)
  else none

theorem digitVal_digitChar10 {d : Nat} (h : d < 10) : digitVal (digitChar10 d) = d := by
  interval_cases d <;> rfl

theorem isDigitCh_digitChar10 {d : Nat} (h : d < 10) : isDigitCh (digitChar10 d) = true := by
  interval_cases d <;> rfl

theorem digitChar10_ne_dot {d : Nat} : digitChar10 d ≠ '.' := by
  unfold digitChar10
  split <;> simp

theorem decStrCore_spec : ∀ fuel n, n ≤ fuel →
    (decStrCore (fuel + 1) n ≠ [] ∧ (decStrCore (fuel + 1) n).all isDigitCh = true ∧
     ∀ a : Nat, (decStrCore (fuel + 1) n).foldl (fun a c => a * 10 + digitVal c) a =
       a * 10 ^ (decStrCore (fuel + 1) n).length + n) := by
  intro fuel
  induction fuel with
  | zero =>
    intro n hn
    interval_cases n
    refine ⟨by simp [decStrCore], by decide, ?_⟩
    intro a
    simp [decStrCore, digitVal, digitChar10]
  | succ f ih =>
    intro n hn
    by_cases h10 : n < 10
    · refine ⟨by simp [decStrCore, h10], ?_, ?_⟩
      · simp [decStrCore, h10, isDigitCh_digitChar10 h10]
      · intro a
        simp [decStrCore, h10, digitVal_digitChar10 h10]
    · have hd : n / 10 ≤ f := by
        have h1 : n / 10 < n := Nat.div_lt_self (by omega) (by omega)
        omega
      obtain ⟨hne, hdig, hfold⟩ := ih (n / 10) hd
      have hstep : decStrCore (f + 1 + 1) n = decStrCore (f + 1) (n / 10) ++ [digitChar10 (n % 10)] := by
        simp [decStrCore, h10]
      refine ⟨by simp [hstep], ?_, ?_⟩
      · simp only [hstep, List.all_append, hdig]
        simp [isDigitCh_digitChar10 (Nat.mod_lt n (by omega))]
      · intro a
        rw [hstep, List.foldl_append, hfold a, List.length_append]
        simp only [List.length_singleton, List.foldl_cons, List.foldl_nil]
        rw [digitVal_digitChar10 (Nat.mod_lt n (by omega))]
        rw [pow_succ]
        have := Nat.div_add_mod n 10
        ring_nf
        omega

theorem parseIdx_decStr (n : Nat) : parseIdx (decStr n) = some n := by
  obtain ⟨hne, hdig, hfold⟩ := decStrCore_spec n n le_rfl
  simp only [parseIdx, decStr]
  rw [if_pos (by simp [hne, hdig])]
  have := hfold 0
  simp only [Nat.zero_mul, Nat.zero_add] at this
  simp [this]

theorem decStr_dotFree (n : Nat) : '.' ∉ (decStr n).data := by
  obtain ⟨_, hdig, _⟩ := decStrCore_spec n n le_rfl
  simp only [decStr]
  intro hmem
  have := List.all_eq_true.mp hdig _ hmem
  simp [isDigitCh] at this

theorem decStr_injective {m n : Nat} (h : decStr m = decStr n) : m = n := by
  have hm := parseIdx_decStr m
  have hn := parseIdx_decStr n
  rw [h, hn] at hm
  exact (Option.some_injective _ hm).symm

/-! ### Joining and splitting dotted paths -/

/-- Join character lists with a dot between consecutive parts (JS `join('.')`). -/
def joinDotsChars : List (List Char) → List Char
  | [] => []
  | [p] => p
  | p :: rest => p ++ '.' :: joinDotsChars rest

/-- Split a character list at every dot. -/
def splitDotsChars : List Char → List (List Char)
  | [] => [[]]
  | c :: rest =>
    if c = '.' then [] :: splitDotsChars rest
    else
      match splitDotsChars rest with
      | s :: ss => (c :: s) :: ss
      | [] => [[c]]

/-- Join string path segments with dots, modelling JS `Array.join('.')`. -/
def joinDots (ss : List String) : String := ⟨joinDotsChars (ss.map String.data)⟩

/-- Split a dotted path into segments, as the store interprets update paths. -/
def splitPath (s : String) : List String := (splitDotsChars s.data).map String.mk

theorem splitDotsChars_ne_nil (cs : List Char) : splitDotsChars cs ≠ [] := by
  induction cs with
  | nil => simp [splitDotsChars]
  | cons c rest ih =>
    by_cases h : c = '.'
    · simp [splitDotsChars, h]
    · simp only [splitDotsChars, h, if_false]
      cases hr : splitDotsChars rest with
      | nil => simp
      | cons s ss => simp

theorem splitDotsChars_no_dot (p : List Char) (hp : '.' ∉ p) : splitDotsChars p = [p] := by
  induction p with
  | nil => rfl
  | cons c rest ih =>
    have hc : c ≠ '.' := fun he => hp (he ▸ List.mem_cons_self c rest)
    have hrest : '.' ∉ rest := fun hm => hp (List.mem_cons_of_mem c hm)
    simp [splitDotsChars, hc, ih hrest]

theorem splitDotsChars_append (p xs : List Char) (hp : '.' ∉ p) :
    splitDotsChars (p ++ '.' :: xs) = p :: splitDotsChars xs := by
  induction p with
  | nil => simp [splitDotsChars]
  | cons c rest ih =>
    have hc : c ≠ '.' := fun he => hp (he ▸ List.mem_cons_self c rest)
    have hrest : '.' ∉ rest := fun hm => hp (List.mem_cons_of_mem c hm)
    have h1 : splitDotsChars ((c :: rest) ++ '.' :: xs) =
        match splitDotsChars (rest ++ '.' :: xs) with
        | s :: ss => (c :: s) :: ss
        | [] => [[c]] := by
      rw [List.cons_append]
      simp only [splitDotsChars, hc, if_false]
    rw [h1, ih hrest]

theorem splitDotsChars_joinDotsChars : ∀ ps : List (List Char), ps ≠ [] →
    (∀ p ∈ ps, '.' ∉ p) → splitDotsChars (joinDotsChars ps) = ps := by
  intro ps
  induction ps with
  | nil => intro h; exact absurd rfl h
  | cons p rest ih =>
    intro _ hdot
    cases rest with
    | nil =>
      exact splitDotsChars_no_dot p (hdot p (List.mem_cons_self p []))
    | cons q rest2 =>
      have hj : joinDotsChars (p :: q :: rest2) = p ++ '.' :: joinDotsChars (q :: rest2) := rfl
      rw [hj, splitDotsChars_append p _ (hdot p (List.mem_cons_self p _))]
      rw [ih (by simp) (fun x hx => hdot x (List.mem_cons_of_mem p hx))]

theorem string_mk_data (s : String) : String.mk s.data = s := rfl

/-- A path segment containing no dot. -/
def dotFreeStr (s : String) : Bool := decide ('.' ∉ s.data)

theorem splitPath_joinDots (ss : List String) (hne : ss ≠ [])
    (hdot : ∀ s ∈ ss, dotFreeStr s = true) : splitPath (joinDots ss) = ss := by
  simp only [splitPath, joinDots]
  rw [splitDotsChars_joinDotsChars (ss.map String.data) (by simpa using hne)]
  · rw [List.map_map]
    have : (String.mk ∘ String.data) = id := by
      funext s; exact string_mk_data s
    rw [this, List.map_id]
  · intro p hp
    obtain ⟨s, hs, rfl⟩ := List.mem_map.mp hp
    have := hdot s hs
    simpa [dotFreeStr] using this

/-! ### Well-formed documents

JS objects cannot carry two properties of the same name, so the association
lists representing them are constrained to unique keys (`wfVal`). Dot-free
field names (`dotFreeVal`) are tracked separately: MongoDB update paths join
nested field names with dots, so dotted field names are only relevant to the
round-trip analysis. -/

/-- Unique-membership test for key lists. -/
def listNodupStr : List String → Bool
  | [] => true
  | k :: t => !(t.contains k) && listNodupStr t

/-- The keys of an object entry list, in order. -/
def keysOf {α : Type} (l : List (String × α)) : List String := l.map Prod.fst

mutual

/-- Every object in the value has unique keys. -/
def wfVal : Val → Bool
  | .prim _ => true
  | .date _ => true
  | .arr l => wfValList l
  | .obj l => listNodupStr (keysOf l) && wfValPairs l

def wfValList : List Val → Bool
  | [] => true
  | v :: t => wfVal v && wfValList t

def wfValPairs : List (String × Val) → Bool
  | [] => true
  | (_, v) :: t => wfVal v && wfValPairs t

end

mutual

/-- Every field name in the value is dot-free. -/
def dotFreeVal : Val → Bool
  | .prim _ => true
  | .date _ => true
  | .arr l => dotFreeValList l
  | .obj l => (keysOf l).all dotFreeStr && dotFreeValPairs l

def dotFreeValList : List Val → Bool
  | [] => true
  | v :: t => dotFreeVal v && dotFreeValList t

def dotFreeValPairs : List (String × Val) → Bool
  | [] => true
  | (_, v) :: t => dotFreeVal v && dotFreeValPairs t

end

theorem lookupKey_of_mem_nodup {α : Type} {l : List (String × α)} {k : String} {v : α}
    (hnd : listNodupStr (keysOf l) = true) (hmem : (k, v) ∈ l) :
    lookupKey l k = some v := by
  induction l with
  | nil => simp at hmem
  | cons h t ih =>
    obtain ⟨k1, w⟩ := h
    simp only [keysOf, List.map_cons, listNodupStr, Bool.and_eq_true,
      Bool.not_eq_true'] at hnd
    rcases List.mem_cons.mp hmem with heq | hmem2
    · rw [Prod.mk.injEq] at heq
      obtain ⟨rfl, rfl⟩ := heq
      simp [lookupKey]
    · have hk : k ≠ k1 := by
        rintro rfl
        have hmemk : k ∈ List.map Prod.fst t := List.mem_map.mpr ⟨(k, v), hmem2, rfl⟩
        have hcont : (List.map Prod.fst t).contains k = true :=
          List.elem_eq_true_of_mem hmemk
        rw [hnd.1] at hcont
        exact Bool.false_ne_true hcont
      simp only [lookupKey, hk, if_false]
      exact ih hnd.2 hmem2

theorem mem_of_lookupKey {α : Type} {l : List (String × α)} {k : String} {v : α}
    (h : lookupKey l k = some v) : (k, v) ∈ l := by
  induction l with
  | nil => simp [lookupKey] at h
  | cons hd t ih =>
    obtain ⟨k1, w⟩ := hd
    by_cases hk : k = k1
    · subst hk
      simp only [lookupKey, eq_self_iff_true, if_true, Option.some.injEq] at h
      subst h
      exact List.mem_cons_self _ _
    · simp only [lookupKey, hk, if_false] at h
      exact List.mem_cons_of_mem _ (ih h)

theorem lookupKey_isSome_iff {α : Type} {l : List (String × α)} {k : String} :
    (lookupKey l k).isSome = true ↔ k ∈ keysOf l := by
  induction l with
  | nil => simp [lookupKey, keysOf]
  | cons hd t ih =>
    obtain ⟨k1, w⟩ := hd
    by_cases hk : k = k1
    · subst hk
      simp [lookupKey, keysOf]
    · simp [lookupKey, hk, keysOf, ih, keysOf]

theorem lookupKey_eq_none_iff {α : Type} {l : List (String × α)} {k : String} :
    lookupKey l k = none ↔ k ∉ keysOf l := by
  rw [← lookupKey_isSome_iff]
  cases h : lookupKey l k <;> simp [h]

/-! ### Deep (structural, key-order-insensitive) document equality

The update-diff round trip restores the updated document only up to the
ordering of object keys, so the comparison is by key lookup, exactly the
"deep-equal" of the spec (section 8). -/

/-- Every key of `r` is also a key of `l`. -/
def keysIncl (r l : List (String × Val)) : Bool :=
  (keysOf r).all (fun k => (lookupKey l k).isSome)

mutual

/-- Deep equality: order-insensitive on object keys, positional on arrays. -/
def deepEq : Val → Val → Bool
  | .prim a, .prim b => a == b
  | .date a, .date b => a == b
  | .arr l, .arr r => deepEqList l r
  | .obj l, .obj r => deepEqSub l r && keysIncl r l
  | _, _ => false

def deepEqList : List Val → List Val → Bool
  | [], [] => true
  | a :: l, b :: r => deepEq a b && deepEqList l r
  | _, _ => false

/-- Each entry of the first list deep-matches the looked-up value in `r`. -/
def deepEqSub : List (String × Val) → List (String × Val) → Bool
  | [], _ => true
  | (k, v) :: l, r =>
    (match lookupKey r k with
     | some w => deepEq v w
     | none => false) && deepEqSub l r

end

mutual

theorem deepEq_refl : ∀ v : Val, wfVal v = true → deepEq v v = true
  | .prim _, _ => by simp [deepEq]
  | .date _, _ => by simp [deepEq]
  | .arr l, h => by
    simp only [wfVal] at h
    simp [deepEq, deepEqList_refl l h]
  | .obj l, h => by
    simp only [wfVal, Bool.and_eq_true] at h
    simp only [deepEq, Bool.and_eq_true]
    refine ⟨deepEqSub_refl l l h.2 ?_, ?_⟩
    · intro p hp
      exact lookupKey_of_mem_nodup h.1 (by simpa using hp)
    · simp only [keysIncl, List.all_eq_true]
      intro k hk
      simp [lookupKey_isSome_iff.mpr hk]

theorem deepEqList_refl : ∀ l : List Val, wfValList l = true → deepEqList l l = true
  | [], _ => rfl
  | v :: t, h => by
    simp only [wfValList, Bool.and_eq_true] at h
    simp [deepEqList, deepEq_refl v h.1, deepEqList_refl t h.2]

theorem deepEqSub_refl : ∀ l r : List (String × Val), wfValPairs l = true →
    (∀ p ∈ l, lookupKey r p.1 = some p.2) → deepEqSub l r = true
  | [], _, _, _ => rfl
  | (k, v) :: t, r, h, hl => by
    simp only [wfValPairs, Bool.and_eq_true] at h
    have hk := hl (k, v) (List.mem_cons_self _ _)
    simp only [deepEqSub, hk, Bool.and_eq_true]
    exact ⟨deepEq_refl v h.1, deepEqSub_refl t r h.2 (fun p hp => hl p (List.mem_cons_of_mem _ hp))⟩

end

/-! ### Change records and the document differencer

Modelled from the spec: the differencer is the external `deep-diff` dependency
(`deep.observableDiff`, consumed by `_makeUpdateSet`, source lines 356-363),
whose code is not part of this repository. It is modelled from spec sections
3 and 4.3: change records are
`... kind: Added or Edited or Deleted or ArrayChange, path, previousValue,
newValue, arrayIndex ...`; traversal is depth-first, keys in encounter order
of the updated document, then keys of the original absent from the updated
document as deletions; sequences compare positionally with array
Added/Deleted beyond the common length; an optional filter predicate
`(path, key)` skips subtrees. Per the spec's record shape, `previousValue`
(`lhs`) and `newValue` (`rhs`) sit on the record itself, also for
array-change records; array-change records additionally carry the index and
the item sub-record whose `kind` the compiler inspects. -/

/-- Change-record kinds: `N`ew, `E`dited, `D`eleted, `A`rray change. -/
inductive CKind where
  | N | E | D | A
deriving DecidableEq, Repr

/-- The nested item of an array-change record. -/
structure AItem where
  kind : CKind
  lhs : Option Val
  rhs : Option Val
deriving DecidableEq

/-- One change record of the differencer. -/
structure Change where
  kind : CKind
  path : List String
  lhs : Option Val
  rhs : Option Val
  index : Option Nat
  item : Option AItem
deriving DecidableEq

/-- Record for a key present only in the updated document. -/
def newChange (p : List String) (w : Val) : Change := ⟨.N, p, none, some w, none, none⟩

/-- Record for a key present only in the original document. -/
def delChange (p : List String) (v : Val) : Change := ⟨.D, p, some v, none, none, none⟩

/-- Record for a value edited in place. -/
def editChange (p : List String) (v w : Val) : Change := ⟨.E, p, some v, some w, none, none⟩

/-- Record for an element added past the original array's length. -/
def arrAddChange (p : List String) (i : Nat) (w : Val) : Change :=
  ⟨.A, p, none, some w, some i, some ⟨.N, none, some w⟩⟩

/-- Record for an element of the original array past the updated array's length. -/
def arrDelChange (p : List String) (i : Nat) (v : Val) : Change :=
  ⟨.A, p, some v, none, some i, some ⟨.D, some v, none⟩⟩

/-- The differencer's filter hook: a predicate on (path, key). -/
abbrev DiffFilter := List String → String → Bool

/-- Deletion records for keys of the original object absent from the updated one. -/
def diffObjDel (f : DiffFilter) (path : List String) :
    List (String × Val) → List (String × Val) → List Change
  | [], _ => []
  | (k, v) :: rest, r =>
    (if f path k then []
     else match lookupKey r k with
          | some _ => []
          | none => [delChange (path ++ [k]) v]) ++ diffObjDel f path rest r

/-- Array-deletion records for the tail of the original array. -/
def diffArrDel (path : List String) : Nat → List Val → List Change
  | _, [] => []
  | i, v :: l => arrDelChange path i v :: diffArrDel path (i + 1) l

mutual

/-- The differencer walk over a pair of values (spec, section 4.3). -/
def diffVal (f : DiffFilter) (path : List String) : Val → Val → List Change
  | .obj l, .obj r => diffObjAdd f path l r ++ diffObjDel f path l r
  | .arr l, .arr r => diffArr f path 0 l r
  | a, b => if beqVal a b then [] else [editChange path a b]

/-- Walk of the updated object's keys in encounter order: recurse on common
keys, report keys absent from the original as `New`. -/
def diffObjAdd (f : DiffFilter) (path : List String) (l : List (String × Val)) :
    List (String × Val) → List Change
  | [] => []
  | (k, w) :: rest =>
    (if f path k then []
     else match lookupKey l k with
          | some v => diffVal f (path ++ [k]) v w
          | none => [newChange (path ++ [k]) w]) ++ diffObjAdd f path l rest

/-- Positional walk over arrays: recurse at common indices, array-Add past the
original's length, array-Delete past the updated one's length. -/
def diffArr (f : DiffFilter) (path : List String) (i : Nat) :
    List Val → List Val → List Change
  | [], [] => []
  | v :: l, w :: r =>
    (if f path (decStr i) then [] else diffVal f (path ++ [decStr i]) v w) ++
      diffArr f path (i + 1) l r
  | [], w :: r => arrAddChange path i w :: diffArr f path (i + 1) [] r
  | v :: l, [] => diffArrDel path i (v :: l)

end

/-- The repository's default `_filterUpdatedProperties` hook (source line 338):
never filters anything. -/
def filterUpdatedProperties : DiffFilter := fun _ _ => false

/-! ### The update-set compiler `_makeUpdateSet` (source lines 356-404) -/

/-- A compiled update set: the `$set` and `$unset` mappings, each absent when
no change of its kind was seen (the source creates `edited`/`removed` lazily
and only copies them onto the result when defined). Removal markers are the
literal `1` the source stores. -/
structure UpdateSet where
  set : Option (List (String × Val))
  unset : Option (List (String × Nat))
deriving DecidableEq

/-- The empty update set `res = ... the empty object ...`. -/
def emptyUpdateSet : UpdateSet := ⟨none, none⟩

/-- The dotted path key the source computes for one change record:
`changes[i].path.join('.')`, with `+ '.' + changes[i].index` for array
changes. -/
def chKey (c : Change) : String :=
  match c.kind, c.index with
  | .A, some i => joinDots c.path ++ "." ++ decStr i
  | _, _ => joinDots c.path

/-- One iteration of the source's loop over change records: array changes with
item kind Edited or New are assignments of the record's `rhs` at the indexed
path, other array changes are removals there; plain Edited/New records are
assignments at the joined path, Deleted records removals (marker `1`). -/
def updStep (acc : Option (List (String × Val)) × Option (List (String × Nat)))
    (c : Change) : Option (List (String × Val)) × Option (List (String × Nat)) :=
  match c.kind with
  | .A =>
    if (c.item.map AItem.kind = some .E) ∨ (c.item.map AItem.kind = some .N) then
      (some (objInsert (acc.1.getD []) (chKey c) (c.rhs.getD (Val.prim "undefined"))), acc.2)
    else
      (acc.1, some (objInsert (acc.2.getD []) (chKey c) 1))
  | .E =>
    (some (objInsert (acc.1.getD []) (chKey c) (c.rhs.getD (Val.prim "undefined"))), acc.2)
  | .N =>
    (some (objInsert (acc.1.getD []) (chKey c) (c.rhs.getD (Val.prim "undefined"))), acc.2)
  | .D =>
    (acc.1, some (objInsert (acc.2.getD []) (chKey c) 1))

/-- `_makeUpdateSet(orig, updated)` (source lines 356-404): diff the two data
models with the `_filterUpdatedProperties` hook (default: no filtering), then
fold the change records into the `$set`/`$unset` mappings. -/
def makeUpdateSet (orig updated : Val) : UpdateSet :=
  let acc := (diffVal filterUpdatedProperties [] orig updated).foldl updStep (none, none)
  ⟨acc.1, acc.2⟩

/-! ### Applying an update set

This is the application semantics named by the round-trip property: assign to
each path of the `$set` mapping its value, and remove each path of the
`$unset` mapping. Paths are the dotted MongoDB update paths: split on dots,
each segment selecting an object field, or, on an array, the decimal element
index; assignment to the index one past the end appends, as a MongoDB `$set`
on that path grows the array; removal drops the object field, or removes the
array element at the index. Removals are applied after assignments (the two
maps of the update set are disjoint phases), in reverse emission order so
that the trailing array indices produced by a shrink are removed from the
back. -/

/-- Build the nested containers for the remainder of a path (object fields,
as MongoDB creates intermediate documents). -/
def mkPath : List String → Val → Val
  | [], v => v
  | k :: rest, v => .obj [(k, mkPath rest v)]

mutual

/-- Assign `v` at the split path inside a value. -/
def setSeg : Val → List String → Val → Val
  | _, [], v => v
  | .obj l, k :: rest, v => .obj (objSetPath l k rest v)
  | .arr l, k :: rest, v =>
    match parseIdx k with
    | some i => .arr (arrSetPath l i rest v)
    | none => .arr l
  | x, _ :: _, _ => x

/-- Assign below key `k`: in place on an existing key, else append. -/
def objSetPath : List (String × Val) → String → List String → Val → List (String × Val)
  | [], k, rest, v => [(k, mkPath rest v)]
  | (k1, w) :: t, k, rest, v =>
    if k = k1 then (k1, setSeg w rest v) :: t
    else (k1, w) :: objSetPath t k rest v

/-- Assign below array index `i`; index = length appends, larger indices pad
with nulls as MongoDB does. -/
def arrSetPath : List Val → Nat → List String → Val → List Val
  | [], i, rest, v => List.replicate i (Val.prim "null") ++ [mkPath rest v]
  | w :: t, 0, rest, v => setSeg w rest v :: t
  | w :: t, n + 1, rest, v => w :: arrSetPath t n rest v

end

mutual

/-- Remove the field or element at the split path inside a value. -/
def unsetSeg : Val → List String → Val
  | v, [] => v
  | .obj l, [k] => .obj (objRemove l k)
  | .arr l, [k] =>
    (match parseIdx k with
     | some i => .arr (l.eraseIdx i)
     | none => .arr l)
  | .obj l, k :: k2 :: rest => .obj (objUnsetPath l k (k2 :: rest))
  | .arr l, k :: k2 :: rest =>
    (match parseIdx k with
     | some i => .arr (arrUnsetPath l i (k2 :: rest))
     | none => .arr l)
  | x, _ :: _ => x

/-- Descend below key `k` for a removal deeper in the value. -/
def objUnsetPath : List (String × Val) → String → List String → List (String × Val)
  | [], _, _ => []
  | (k1, w) :: t, k, rest =>
    if k = k1 then (k1, unsetSeg w rest) :: t
    else (k1, w) :: objUnsetPath t k rest

/-- Descend below array index `i` for a removal deeper in the value. -/
def arrUnsetPath : List Val → Nat → List String → List Val
  | [], _, _ => []
  | w :: t, 0, rest => unsetSeg w rest :: t
  | w :: t, n + 1, rest => w :: arrUnsetPath t n rest

end

/-- Apply all assignments of a `$set` mapping, in order. -/
def applySets (d : Val) (sets : List (String × Val)) : Val :=
  sets.foldl (fun acc kv => setSeg acc (splitPath kv.1) kv.2) d

/-- Apply all removals of an `$unset` mapping, in reverse emission order. -/
def applyUnsets (d : Val) (unsets : List (String × Nat)) : Val :=
  unsets.reverse.foldl (fun acc kv => unsetSeg acc (splitPath kv.1)) d

/-- Apply a compiled update set to a document: assignments, then removals. -/
def applyUpdateSet (d : Val) (u : UpdateSet) : Val :=
  applyUnsets (applySets d (u.set.getD [])) (u.unset.getD [])

/-! ### Errors and error translation (`translateDbError`, source lines 478-486) -/

/-- A backing-store error: a bare string, or an error object with a message
(`(typeof err === 'string') ? err : err.message`). -/
inductive DbErr where
  | str : String → DbErr
  | objErr : String → DbErr
deriving DecidableEq

/-- The message text the source extracts from a backing-store error. -/
def DbErr.message : DbErr → String
  | .str s => s
  | .objErr m => m

/-- Front-of-list pattern match. -/
def frontMatch : List Char → List Char → Bool
  | [], _ => true
  | _ :: _, [] => false
  | p :: ps, h :: hs => p == h && frontMatch ps hs

/-- Index of the first occurrence of a pattern. -/
def firstOcc (pat : List Char) : List Char → Option Nat
  | [] => if frontMatch pat [] then some 0 else none
  | c :: t => if frontMatch pat (c :: t) then some 0 else (firstOcc pat t).map (· + 1)

/-- JS `String.prototype.indexOf`: first occurrence index, `-1` when absent. -/
def jsIndexOf (s pat : String) : Int :=
  match firstOcc pat.data s.data with
  | some n => (n : Int)
  | none => -1

/-- Errors delivered to completion callbacks. -/
inductive ErrV where
  | hook : String → ErrV
  | notFound : String → ErrV
  | conflict : String → ErrV
  | db : DbErr → ErrV
  | batch : List (Nat × Val × String) → ErrV
deriving DecidableEq

/-- The message of the `_conflictError` the source constructs. -/
def conflictMessage : String := "Creating the resource would cause a conflict on the server."

/-- `translateDbError` (source lines 478-486): rewrite an error whose message
has `'duplicate key error'` at an index strictly greater than zero into the
repository's conflict error; return every other error unchanged. -/
def translateDbError (e : DbErr) : ErrV :=
  if jsIndexOf e.message "duplicate key error" > 0 then .conflict conflictMessage
  else .db e

/-! ### Repository configuration, pointers and timestamps -/

/-- Repository construction options, restricted to the default hook
implementations the prototype installs: the identity accessor is the
property-name accessor `_makeModelIdAccessorForPropertyName` builds (option
`id`, default `_id`); `validate` is the caller-overridable hook (default:
always succeeds, i.e. `fun _ => none`); `_transformModel`/`_transformData`
are the default identities. Timestamp pointer lists are `none` when not
configured (`prepareJsonPointers` returns `undefined` for an absent or empty
option). -/
structure RepoCfg where
  idField : String
  descriptiveName : String
  timestampOnCreate : Option (List (List String))
  timestampOnUpdate : Option (List (List String))
  validate : Val → Option String

/-- The default `_dataIdFromModel` accessor: read the configured identity
property off the model (source lines 159-166). -/
def dataIdFromModel (cfg : RepoCfg) (model : Val) : Option Val :=
  fieldGet model cfg.idField

/-- Modelled from the spec: `Pointer.set` of the external json-ptr dependency
(spec, section 4.1) — navigate the path segments, creating intermediate
containers as needed, and assign the leaf. The navigation semantics coincide
with dotted-update-path assignment. -/
def ptrSet (doc : Val) (ptr : List String) (v : Val) : Val := setSeg doc ptr v

/-- `setValueForAllPointers` (source lines 36-44): assign one value through
every pointer of the list; no-op when the pointer list is absent. -/
def setValueForAllPointers (obj : Val) (pointers : Option (List (List String))) (val : Val) : Val :=
  match pointers with
  | none => obj
  | some ps => ps.foldl (fun acc p => ptrSet acc p val) obj

/-- `setTimestampForAllPointers` (source lines 46-51): read the clock once
(`moment.utc().toDate()`, the explicit `now` argument) and assign that one
instant through every pointer. -/
def setTimestampForAllPointers (obj : Val) (pointers : Option (List (List String))) (now : String) : Val :=
  match pointers with
  | none => obj
  | some ps => setValueForAllPointers obj (some ps) (.date now)

/-- `_beforeCreateDataModel` (source lines 305-311). -/
def beforeCreateDataModel (cfg : RepoCfg) (data : Val) (now : String) : Val :=
  setTimestampForAllPointers data cfg.timestampOnCreate now

/-- `_beforeUpdateDataModel` (source lines 326-332). -/
def beforeUpdateDataModel (cfg : RepoCfg) (data : Val) (now : String) : Val :=
  setTimestampForAllPointers data cfg.timestampOnUpdate now

/-! ### Events, writes, stores, callback outcomes -/

/-- Payloads of emitted lifecycle events (the `lib/` event-data classes). -/
inductive EventPayload where
  | created : Val → Val → EventPayload
  | batchCreated : List (Val × Val) → EventPayload
  | updated : Val → UpdateSet → Nat → EventPayload
  | fetched : Val → Val → EventPayload
deriving DecidableEq

/-- An emitted event: the `emit` name together with the payload. -/
structure Event where
  name : String
  payload : EventPayload
deriving DecidableEq

/-- A write issued to the backing collection. -/
inductive WriteOp where
  | insert : List Val → WriteOp
  | updateW : Val → UpdateSet → WriteOp
deriving DecidableEq

/-- The backing collection: a list of stored documents. -/
abbrev Store := List Val

/-- `findOne(given _id filter)`: the first document whose `_id` equals the id. -/
def findById (store : Store) (idv : Val) : Option Val :=
  store.find? (fun d => fieldGet d "_id" == some idv)

/-- One invocation of a completion callback `(err, result)`. -/
structure CbCall (α : Type) where
  err : Option ErrV
  res : Option α
deriving DecidableEq

/-- Outcome of one repository operation: the completion-callback invocation
(`none` when the code path throws before ever calling it), the events emitted,
the writes issued, and the resulting store. -/
structure OpOut (α : Type) where
  cb : Option (CbCall α)
  events : List Event
  writes : List WriteOp
  store : Store

/-! ### Not-found handlers -/

/-- Rendering of an identity value in `util.format('%s', ...)` error text. -/
def showForMessage : Option Val → String
  | some (.prim s) => s
  | some (.date s) => s
  | some (.arr _) => "[array]"
  | some (.obj _) => "[object Object]"
  | none => "undefined"

/-- The message of the default `_notFoundError`
(`format('%s not found: %s.', ...)`, source line 423). -/
def notFoundMessage (cfg : RepoCfg) (idv : Option Val) : String :=
  cfg.descriptiveName ++ " not found: " ++ showForMessage idv ++ "."

/-- How a not-found condition reaches the caller: the error delivered through
the callback, or a crash (the code path throws and no callback runs). -/
inductive NfDelivery where
  | delivered : ErrV → NfDelivery
  | crashed : NfDelivery
deriving DecidableEq

/-- Default `_objectNotFound` (source lines 420-427): with a callback in the
callback slot it delivers the `_notFoundError`; with the slot undefined, the
attempted invocation `callback(new self._notFoundError(...))` throws. -/
def objectNotFound (cfg : RepoCfg) (idv : Option Val) (hasCallback : Bool) : NfDelivery :=
  if hasCallback then .delivered (.notFound (notFoundMessage cfg idv)) else .crashed

/-- Default `_objectNotFoundOnUpdate` (source lines 440-447): the source runs
`self._objectNotFound(self._dataIdFromModel(model, callback))` — the caller's
callback is passed as a second argument to the identity accessor (which
ignores it) instead of to `_objectNotFound`, so the handler runs with its
callback parameter undefined. -/
def objectNotFoundOnUpdate (cfg : RepoCfg) (model : Val) : NfDelivery :=
  objectNotFound cfg (dataIdFromModel cfg model) false

/-! ### Repository operations -/

/-- `getById` (source lines 502-518): `findOne` on the identity; absent
documents go through `_objectNotFound` (with the callback), found documents
are transformed (default: identity), a `fetched` event is emitted and the
model returned. Backing-store read errors are not modelled (the store model
is total). -/
def getById (cfg : RepoCfg) (store : Store) (idv : Val) : OpOut Val :=
  match findById store idv with
  | none =>
    match objectNotFound cfg (some idv) true with
    | .delivered e => ⟨some ⟨some e, none⟩, [], [], store⟩
    | .crashed => ⟨none, [], [], store⟩
  | some data =>
    ⟨some ⟨none, some data⟩, [⟨"fetched", .fetched idv data⟩], [], store⟩

/-- The `_id`-defaulting step shared by `create` and `batchCreate` (source
lines 613-618 and 668-673): when the data model has no truthy `_id`, read the
identity accessor and, if its value is truthy, assign it to `_id`. Under the
default `_transformModel` the accessor reads the same (already
timestamp-mutated) object. -/
def assignIdStep (cfg : RepoCfg) (data : Val) : Val :=
  if fieldTruthy data "_id" then data
  else
    match dataIdFromModel cfg data with
    | some idv => if idv.truthy then fieldSet data "_id" idv else data
    | none => data

/-- Result object of a driver `update`, as the source reads it (`res.n`,
`res.ok`). -/
structure UpdRes where
  ok : Nat
  n : Nat
deriving DecidableEq

/-- `create` (source lines 603-634): validate, transform (default identity,
so the data model aliases the caller's model), inject create timestamps,
default the `_id`, insert, emit `created`, return the transformed result.
`callerModel` is the caller-visible state of the supplied model object after
the call (the alias target). When the created id is falsy the
`CreatedEventData` assertion throws after the insert and no callback runs.
Insert errors (duplicate keys) are not modelled; the store accepts the
document. -/
def create (cfg : RepoCfg) (store : Store) (model : Val) (now : String) :
    OpOut Val × Val :=
  match cfg.validate model with
  | some e => (⟨some ⟨some (.hook e), none⟩, [], [], store⟩, model)
  | none =>
    let data := beforeCreateDataModel cfg model now
    let data2 := assignIdStep cfg data
    let store2 := store ++ [data2]
    match dataIdFromModel cfg data2 with
    | some idv =>
      if idv.truthy then
        (⟨some ⟨none, some data2⟩, [⟨"created", .created idv data2⟩],
          [.insert [data2]], store2⟩, data2)
      else (⟨none, [], [.insert [data2]], store2⟩, data2)
    | none => (⟨none, [], [.insert [data2]], store2⟩, data2)

/-- `batchCreate` (source lines 649-710): validate every model (the default
and typical hooks call back synchronously, so completion order is index
order); when any model is invalid, the whole array of
`(index, model, error)` records is passed as the callback's error and
nothing is written; otherwise all transformed models are inserted as one
batch, one `created`-named event carrying the batch payload is emitted, and
the created models are returned. -/
def batchCreate (cfg : RepoCfg) (store : Store) (models : List Val) (now : String) :
    OpOut (List Val) :=
  let invalid := (models.enum).filterMap
    (fun p => (cfg.validate p.2).map (fun e => (p.1, p.2, e)))
  if invalid.isEmpty then
    let valid := models.map (fun m => assignIdStep cfg (beforeCreateDataModel cfg m now))
    let store2 := store ++ valid
    if valid.all (fun d => (dataIdFromModel cfg d).elim false Val.truthy) then
      let pairs := valid.map (fun d => ((dataIdFromModel cfg d).getD (.prim "undefined"), d))
      ⟨some ⟨none, some valid⟩, [⟨"created", .batchCreated pairs⟩], [.insert valid], store2⟩
    else ⟨none, [], [.insert valid], store2⟩
  else ⟨some ⟨some (.batch invalid), none⟩, [], [], store⟩

/-- Injection of update timestamps into the `$set` object (source lines
748-751): each `_timestampOnUpdate` pointer is `set` on the `$set` mapping
itself, with one `new Date()` (the `now2` argument). -/
def injectPtrs (m : List (String × Val)) (ps : List (List String)) (v : Val) :
    List (String × Val) :=
  match ps.foldl (fun acc p => setSeg acc p v) (Val.obj m) with
  | .obj m2 => m2
  | _ => m

/-- `update` (source lines 724-776): validate, transform (default identity),
inject update timestamps into the updated model (`now1`), fetch the stored
document by identity; absent documents go through `_objectNotFoundOnUpdate`
(which, as modelled above, crashes); otherwise compile the update set; when
it has neither `$set` nor `$unset`, call back with no arguments and issue no
write and no event; otherwise inject update timestamps into `$set` (`now2`),
write the partial update, emit `updated` and call back with the driver
result. -/
def update (cfg : RepoCfg) (store : Store) (model : Val) (now1 now2 : String) :
    OpOut UpdRes :=
  match cfg.validate model with
  | some e => ⟨some ⟨some (.hook e), none⟩, [], [], store⟩
  | none =>
    let updated := beforeUpdateDataModel cfg model now1
    let idv := (dataIdFromModel cfg model).getD (.prim "undefined")
    match findById store idv with
    | none =>
      match objectNotFoundOnUpdate cfg model with
      | .delivered e => ⟨some ⟨some e, none⟩, [], [], store⟩
      | .crashed => ⟨none, [], [], store⟩
    | some data =>
      let changes := makeUpdateSet data updated
      if changes.set.isSome || changes.unset.isSome then
        let changes2 :=
          match cfg.timestampOnUpdate with
          | some ps => { changes with set := some (injectPtrs (changes.set.getD []) ps (.date now2)) }
          | none => changes
        let newDoc := applyUpdateSet data changes2
        let store2 := store.map (fun d => if fieldGet d "_id" == some idv then newDoc else d)
        ⟨some ⟨none, some ⟨1, 1⟩⟩, [⟨"updated", .updated idv changes2 1⟩],
          [.updateW idv changes2], store2⟩
      else ⟨some ⟨none, none⟩, [], [], store⟩

/-! ### Pattern-occurrence lemmas for `translateDbError` -/

/-- Occurrence of a pattern at index `n` of a character list: the spec-side
notion of the message containing the pattern. -/
def occursAtL (pat hay : List Char) (n : Nat) : Prop :=
  pat = (hay.drop n).take pat.length

theorem frontMatch_iff (pat : List Char) : ∀ hay : List Char,
    (frontMatch pat hay = true ↔ pat = hay.take pat.length) := by
  induction pat with
  | nil => intro hay; simp [frontMatch]
  | cons p ps ih =>
    intro hay
    cases hay with
    | nil => simp [frontMatch]
    | cons h hs =>
      simp only [frontMatch, Bool.and_eq_true, beq_iff_eq, ih hs, List.length_cons,
        List.take_succ_cons, List.cons.injEq]

theorem firstOcc_some_occursAt {pat : List Char} : ∀ {hay : List Char} {n : Nat},
    firstOcc pat hay = some n → occursAtL pat hay n := by
  intro hay
  induction hay with
  | nil =>
    intro n h
    simp only [firstOcc] at h
    split at h
    · rename_i hf
      have hn : (0 : Nat) = n := Option.some_inj.mp h
      subst hn
      simpa [occursAtL, List.drop_nil] using (frontMatch_iff pat []).mp hf
    · exact absurd h (by simp)
  | cons c t ih =>
    intro n h
    by_cases hf : frontMatch pat (c :: t) = true
    · rw [firstOcc, if_pos hf] at h
      obtain rfl : (0 : Nat) = n := Option.some_inj.mp h
      simpa [occursAtL] using (frontMatch_iff pat (c :: t)).mp hf
    · rw [firstOcc, if_neg hf] at h
      obtain ⟨m, hm, rfl⟩ := Option.map_eq_some'.mp h
      have := ih hm
      simpa [occursAtL] using this

theorem firstOcc_none_not_occursAt {pat : List Char} : ∀ {hay : List Char},
    firstOcc pat hay = none → ∀ n, ¬ occursAtL pat hay n := by
  intro hay
  induction hay with
  | nil =>
    intro h n hocc
    simp only [firstOcc] at h
    split at h
    · exact absurd h (by simp)
    · rename_i hf
      exact hf ((frontMatch_iff pat []).mpr (by simpa [occursAtL] using hocc))
  | cons c t ih =>
    intro h n hocc
    by_cases hf : frontMatch pat (c :: t) = true
    · rw [firstOcc, if_pos hf] at h
      exact absurd h (by simp)
    · rw [firstOcc, if_neg hf] at h
      have ht : firstOcc pat t = none := by
        cases hft : firstOcc pat t with
        | none => rfl
        | some m => rw [hft] at h; exact absurd h (by simp)
      cases n with
      | zero =>
        exact hf ((frontMatch_iff pat (c :: t)).mpr (by simpa [occursAtL] using hocc))
      | succ m =>
        exact ih ht m (by simpa [occursAtL] using hocc)

theorem firstOcc_pos_not_occursAt_zero {pat hay : List Char} {n : Nat}
    (h : firstOcc pat hay = some n) (hn : 0 < n) : ¬ occursAtL pat hay 0 := by
  intro hocc
  cases hay with
  | nil =>
    simp only [firstOcc] at h
    split at h
    · have : (0 : Nat) = n := Option.some_inj.mp h
      omega
    · exact absurd h (by simp)
  | cons c t =>
    by_cases hf : frontMatch pat (c :: t) = true
    · rw [firstOcc, if_pos hf] at h
      have : (0 : Nat) = n := Option.some_inj.mp h
      omega
    · exact hf ((frontMatch_iff pat (c :: t)).mpr (by simpa [occursAtL] using hocc))

theorem firstOcc_isSome_of_occursAt {pat hay : List Char} {n : Nat}
    (h : occursAtL pat hay n) : ∃ m, firstOcc pat hay = some m := by
  cases hfo : firstOcc pat hay with
  | some m => exact ⟨m, rfl⟩
  | none => exact absurd h (firstOcc_none_not_occursAt hfo n)

/-! ### Claim theorems -/

/-- A plain repository configuration: default identity property `_id`, default
descriptive name, no timestamp pointers, default always-succeeding validate. -/
def cfgPlain : RepoCfg := ⟨"_id", "Domain model", none, none, fun _ => none⟩

/-- The original document of the spec's scenario (section 8). -/
def scenarioOrig : Val :=
  .obj [("_id", .prim "1"), ("a", .prim "num1"), ("arr", .arr [.prim "num1", .prim "num2"])]

/-- The updated document of the spec's scenario. -/
def scenarioUpd : Val :=
  .obj [("_id", .prim "1"), ("arr", .arr [.prim "num1", .prim "num2", .prim "num3"])]

/-- Claim C2: on the scenario pair, `_makeUpdateSet` produces assignments
exactly at path `arr.2` with the added element, removals exactly at path `a`
with the literal removal marker `1` (not a value payload), and applying the
update set to the original yields a document deep-equal to the updated one. -/
theorem c2_scenario_update_set :
    makeUpdateSet scenarioOrig scenarioUpd =
      ⟨some [("arr.2", .prim "num3")], some [("a", 1)]⟩ ∧
    deepEq (applyUpdateSet scenarioOrig (makeUpdateSet scenarioOrig scenarioUpd))
      scenarioUpd = true :=
  ⟨rfl, rfl⟩

/-- Claim C3: on an absent identity, `getById` delivers the repository's
not-found error to the callback and emits no `fetched` event; but `update` on
an absent identity never invokes the caller's callback at all: the default
`_objectNotFoundOnUpdate` passes the callback to the identity accessor
instead of to `_objectNotFound` (source line 443), so the inner handler's
callback parameter is undefined and invoking it throws. The first conjunct
is the behavior the claim correctly describes for `getById`; the second
exhibits the divergence on `update` at the failing input. -/
theorem c3_not_found_paths :
    getById cfgPlain [] (.prim "42") =
      ⟨some ⟨some (.notFound "Domain model not found: 42."), none⟩, [], [], []⟩ ∧
    update cfgPlain [] (.obj [("_id", .prim "42"), ("a", .prim "1")]) "t1" "t2" =
      ⟨none, [], [], []⟩ :=
  ⟨rfl, rfl⟩

/-- Claim C8, counterexample: a backing-store error whose message starts with
the duplicate-key pattern (occurrence index 0) is passed through unchanged,
although the message contains the pattern — the source tests
`indexOf(...) > 0`, not `>= 0`. -/
theorem c8_counterexample :
    translateDbError (DbErr.objErr "duplicate key error E11000") =
      .db (DbErr.objErr "duplicate key error E11000") ∧
    occursAtL "duplicate key error".data "duplicate key error E11000".data 0 :=
  ⟨rfl, rfl⟩

/-- Claim C8 as amended: `translateDbError` returns the repository's conflict
error exactly when the message (of the error object, or the error itself when
it is a string) contains the `'duplicate key error'` pattern somewhere other
than at the very start (first occurrence at a strictly positive index), and
returns the original error unchanged in every other case. -/
theorem c8_translate_characterization (e : DbErr) :
    (translateDbError e = .conflict conflictMessage ↔
      ((∃ n, occursAtL "duplicate key error".data e.message.data n) ∧
        ¬ occursAtL "duplicate key error".data e.message.data 0)) ∧
    (translateDbError e ≠ .conflict conflictMessage → translateDbError e = .db e) := by
  unfold translateDbError jsIndexOf
  cases hfo : firstOcc "duplicate key error".data e.message.data with
  | none =>
    simp only [hfo]
    rw [if_neg (by norm_num)]
    refine ⟨⟨fun h => absurd h (by simp), fun hr => ?_⟩, fun _ => rfl⟩
    obtain ⟨⟨n, hn⟩, _⟩ := hr
    exact absurd hn (firstOcc_none_not_occursAt hfo n)
  | some n =>
    simp only [hfo]
    by_cases hn : 0 < n
    · rw [if_pos (by exact_mod_cast hn)]
      refine ⟨⟨fun _ => ⟨⟨n, firstOcc_some_occursAt hfo⟩,
        firstOcc_pos_not_occursAt_zero hfo hn⟩, fun _ => rfl⟩, fun hne => absurd rfl hne⟩
    · have hn0 : n = 0 := by omega
      subst hn0
      rw [if_neg (by exact_mod_cast hn)]
      refine ⟨⟨fun h => absurd h (by simp), fun ⟨_, h0⟩ =>
        absurd (firstOcc_some_occursAt hfo) h0⟩, fun _ => rfl⟩

/-- Claim C8 witness: the characterization applied to a message carrying the
pattern after a driver prefix. -/
theorem c8_translate_witness :
    (translateDbError (DbErr.objErr "E11000 duplicate key error index 1") =
        .conflict conflictMessage ↔
      ((∃ n, occursAtL "duplicate key error".data
          (DbErr.objErr "E11000 duplicate key error index 1").message.data n) ∧
        ¬ occursAtL "duplicate key error".data
          (DbErr.objErr "E11000 duplicate key error index 1").message.data 0)) ∧
    (translateDbError (DbErr.objErr "E11000 duplicate key error index 1") ≠
        .conflict conflictMessage →
      translateDbError (DbErr.objErr "E11000 duplicate key error index 1") =
        .db (DbErr.objErr "E11000 duplicate key error index 1")) :=
  c8_translate_characterization (DbErr.objErr "E11000 duplicate key error index 1")

/-- The claim's reading of "reporting zero affected": the callback is invoked
without error and with a result value whose affected count is zero. -/
def reportsZeroAffected (o : OpOut UpdRes) : Prop :=
  ∃ r : UpdRes, o.cb = some ⟨none, some r⟩ ∧ r.n = 0

/-- A stored document used by the no-op-update scenario. -/
def c4doc : Val := .obj [("_id", .prim "7"), ("f", .prim "v")]

/-- Claim C4, counterexample: an update with no field differences issues no
write and no event, but the source runs `callback()` with no arguments — the
callback receives no result value at all, so no zero affected count is
reported. -/
theorem c4_counterexample :
    (update cfgPlain [c4doc] c4doc "t1" "t2").cb = some ⟨none, none⟩ ∧
    (update cfgPlain [c4doc] c4doc "t1" "t2").writes = [] ∧
    (update cfgPlain [c4doc] c4doc "t1" "t2").events = [] ∧
    ¬ reportsZeroAffected (update cfgPlain [c4doc] c4doc "t1" "t2") := by
  refine ⟨rfl, rfl, rfl, ?_⟩
  rintro ⟨r, hr, -⟩
  have hcb : (update cfgPlain [c4doc] c4doc "t1" "t2").cb = some ⟨none, none⟩ := rfl
  rw [hcb] at hr
  simp at hr

/-- Claim C4 as amended: for every update call in which the compiled update
set is empty, no write is issued, no event is emitted, the store is
unchanged, and the completion callback is invoked successfully with no
arguments (no error and also no result value — in particular no affected
count). -/
theorem c4_noop_update (cfg : RepoCfg) (store : Store) (model data : Val)
    (now1 now2 : String)
    (hval : cfg.validate model = none)
    (hfind : findById store ((dataIdFromModel cfg model).getD (.prim "undefined")) = some data)
    (hempty : makeUpdateSet data (beforeUpdateDataModel cfg model now1) = emptyUpdateSet) :
    update cfg store model now1 now2 = ⟨some ⟨none, none⟩, [], [], store⟩ := by
  unfold update
  rw [hval]
  simp only [hfind, hempty, emptyUpdateSet]
  simp

/-- Claim C4 witness: the amended no-op-update behavior at the concrete
scenario document. -/
theorem c4_noop_update_witness :
    cfgPlain.validate c4doc = none ∧
    findById [c4doc] ((dataIdFromModel cfgPlain c4doc).getD (.prim "undefined")) = some c4doc ∧
    makeUpdateSet c4doc (beforeUpdateDataModel cfgPlain c4doc "t1") = emptyUpdateSet ∧
    update cfgPlain [c4doc] c4doc "t1" "t2" = ⟨some ⟨none, none⟩, [], [], [c4doc]⟩ :=
  ⟨rfl, rfl, rfl, c4_noop_update cfgPlain [c4doc] c4doc c4doc "t1" "t2" rfl rfl rfl⟩

/-- Claim C7: when at least one model of a batch fails validation, the
completion callback receives as its error the aggregated records — exactly
one `(index, model, error)` record per invalid model — and nothing is
written: no insert reaches the collection, no event is emitted and the store
is untouched, for every model of the batch. -/
theorem c7_batch_validation_aborts (cfg : RepoCfg) (store : Store)
    (models : List Val) (now : String)
    (h : ∃ m ∈ models, cfg.validate m ≠ none) :
    ∃ errs, batchCreate cfg store models now =
        ⟨some ⟨some (.batch errs), none⟩, [], [], store⟩ ∧
      ∀ i m e, (i, m, e) ∈ errs ↔ (models[i]? = some m ∧ cfg.validate m = some e) := by
  refine ⟨(models.enum).filterMap
    (fun p => (cfg.validate p.2).map (fun e => (p.1, p.2, e))), ?_, ?_⟩
  · have hne : ((models.enum).filterMap
        (fun p => (cfg.validate p.2).map (fun e => (p.1, p.2, e)))).isEmpty = false := by
      obtain ⟨m, hm, hv⟩ := h
      obtain ⟨i, hi⟩ := List.mem_iff_getElem?.mp hm
      obtain ⟨e, he⟩ := Option.ne_none_iff_exists'.mp hv
      have hmem : (i, m, e) ∈ (models.enum).filterMap
          (fun p => (cfg.validate p.2).map (fun e => (p.1, p.2, e))) :=
        List.mem_filterMap.mpr ⟨(i, m), List.mk_mem_enum_iff_getElem?.mpr hi, by simp [he]⟩
      cases hl : (models.enum).filterMap
          (fun p => (cfg.validate p.2).map (fun e => (p.1, p.2, e))) with
      | nil => rw [hl] at hmem; simp at hmem
      | cons a t => simp [List.isEmpty]
    unfold batchCreate
    simp only [hne, Bool.false_eq_true, if_false]
  · intro i m e
    rw [List.mem_filterMap]
    constructor
    · rintro ⟨⟨j, m2⟩, hmem, hf⟩
      simp only [Option.map_eq_some'] at hf
      obtain ⟨e2, he2, heq⟩ := hf
      simp only [Prod.mk.injEq] at heq
      obtain ⟨rfl, rfl, rfl⟩ := heq
      exact ⟨List.mk_mem_enum_iff_getElem?.mp hmem, he2⟩
    · rintro ⟨hget, hval⟩
      exact ⟨(i, m), List.mk_mem_enum_iff_getElem?.mpr hget, by simp [hval]⟩

/-- A repository configuration whose validate hook rejects models carrying a
truthy `bad` field. -/
def cfgReject : RepoCfg := ⟨"_id", "Domain model", none, none,
  fun v => if fieldTruthy v "bad" then some "rejected" else none⟩

/-- A valid model for the batch scenarios. -/
def mOk : Val := .obj [("_id", .prim "g1")]

/-- An invalid model for the batch scenarios. -/
def mBad : Val := .obj [("_id", .prim "g2"), ("bad", .prim "yes")]

/-- Claim C7 witness: a batch with one valid and one invalid model aborts with
the aggregated error and writes nothing. -/
theorem c7_batch_validation_aborts_witness :
    (∃ m ∈ [mOk, mBad], cfgReject.validate m ≠ none) ∧
    ∃ errs, batchCreate cfgReject [] [mOk, mBad] "t" =
        ⟨some ⟨some (.batch errs), none⟩, [], [], []⟩ ∧
      ∀ i m e, (i, m, e) ∈ errs ↔ ([mOk, mBad][i]? = some m ∧ cfgReject.validate m = some e) :=
  ⟨⟨mBad, by decide, by decide⟩,
   c7_batch_validation_aborts cfgReject [] [mOk, mBad] "t" ⟨mBad, by decide, by decide⟩⟩

/-- The model of the batch-event scenario. -/
def c9model : Val := .obj [("_id", .prim "b1")]

/-- Claim C9, counterexample: a successful batchCreate emits zero events named
`batchCreated`; its single event is emitted under the name `created`,
carrying the batch payload. -/
theorem c9_counterexample :
    ((batchCreate cfgPlain [] [c9model] "t").events.countP
      (fun ev => ev.name == "batchCreated")) = 0 ∧
    (batchCreate cfgPlain [] [c9model] "t").events =
      [⟨"created", .batchCreated [(.prim "b1", c9model)]⟩] :=
  ⟨rfl, rfl⟩

/-- Claim C9 as amended: every successful batchCreate call emits exactly one
event, whose payload is the batch shape carrying one `(id, model)`
Created-shaped record per inserted item — but the event is emitted under the
name `created` (as the source's class documentation declares the `created`
event of type `CreatedEventData|BatchCreatedEventData`), not under the name
`batchCreated`. -/
theorem c9_batch_event_shape (cfg : RepoCfg) (store : Store) (models : List Val)
    (now : String)
    (hval : ∀ m ∈ models, cfg.validate m = none)
    (hids : ∀ m ∈ models,
      (dataIdFromModel cfg (assignIdStep cfg (beforeCreateDataModel cfg m now))).elim
        false Val.truthy = true) :
    ∃ pairs : List (Val × Val),
      (batchCreate cfg store models now).events = [⟨"created", .batchCreated pairs⟩] ∧
      (batchCreate cfg store models now).writes = [.insert (pairs.map Prod.snd)] ∧
      (batchCreate cfg store models now).cb = some ⟨none, some (pairs.map Prod.snd)⟩ ∧
      pairs.length = models.length ∧
      ∀ p ∈ pairs, p.1 = (dataIdFromModel cfg p.2).getD (.prim "undefined") := by
  have hinv : ((models.enum).filterMap
      (fun p => (cfg.validate p.2).map (fun e => (p.1, p.2, e)))) = [] := by
    rw [List.filterMap_eq_nil_iff]
    intro p hp
    have hm : p.2 ∈ models := by
      have := List.mk_mem_enum_iff_getElem?.mp (show (p.1, p.2) ∈ models.enum from hp)
      exact List.mem_iff_getElem?.mpr ⟨p.1, this⟩
    rw [hval p.2 hm]
    rfl
  have hall : (models.map (fun m => assignIdStep cfg (beforeCreateDataModel cfg m now))).all
      (fun d => (dataIdFromModel cfg d).elim false Val.truthy) = true := by
    rw [List.all_map, List.all_eq_true]
    intro m hm
    exact hids m hm
  refine ⟨(models.map (fun m => assignIdStep cfg (beforeCreateDataModel cfg m now))).map
    (fun d => ((dataIdFromModel cfg d).getD (.prim "undefined"), d)), ?_⟩
  unfold batchCreate
  simp only [hinv, List.isEmpty_nil, if_true, hall]
  refine ⟨by simp, by simp [List.map_map], by simp [List.map_map], by simp, ?_⟩
  intro p hp
  obtain ⟨d, hd, rfl⟩ := List.mem_map.mp hp
  rfl

/-- Claim C9 witness: the amended event shape at a concrete one-model batch. -/
theorem c9_batch_event_shape_witness :
    ∃ pairs : List (Val × Val),
      (batchCreate cfgPlain [] [c9model] "t").events = [⟨"created", .batchCreated pairs⟩] ∧
      (batchCreate cfgPlain [] [c9model] "t").writes = [.insert (pairs.map Prod.snd)] ∧
      (batchCreate cfgPlain [] [c9model] "t").cb = some ⟨none, some (pairs.map Prod.snd)⟩ ∧
      pairs.length = [c9model].length ∧
      ∀ p ∈ pairs, p.1 = (dataIdFromModel cfgPlain p.2).getD (.prim "undefined") :=
  c9_batch_event_shape cfgPlain [] [c9model] "t" (by decide) (by decide)

/-! ### Timestamp-injection lemmas (claims C6 and C10) -/

theorem contains_false_not_mem {l : List String} {a : String}
    (h : l.contains a = false) : a ∉ l := by
  intro hm
  have h2 : l.contains a = true := List.elem_eq_true_of_mem hm
  rw [h] at h2
  exact Bool.false_ne_true h2

theorem objSetPath_nil (l : List (String × Val)) (k : String) (v : Val) :
    objSetPath l k [] v = objInsert l k v := by
  induction l with
  | nil => rfl
  | cons hd t ih =>
    obtain ⟨k1, w⟩ := hd
    by_cases hk : k = k1
    · simp [objSetPath, objInsert, hk, mkPath, setSeg]
    · simp [objSetPath, objInsert, hk, ih]

theorem tsFold (fields : List String) (l : List (String × Val)) (v : Val) :
    setValueForAllPointers (.obj l) (some (fields.map (fun f => [f]))) v =
      .obj (fields.foldl (fun acc g => objInsert acc g v) l) := by
  induction fields generalizing l with
  | nil => rfl
  | cons f rest ih =>
    have hstep : ptrSet (Val.obj l) [f] v = .obj (objInsert l f v) := by
      simp [ptrSet, setSeg, objSetPath_nil]
    simp only [setValueForAllPointers, List.map_cons, List.foldl_cons] at *
    rw [hstep]
    exact ih (objInsert l f v)

theorem lookup_tsfold_not_mem {fields : List String} {g : String} (v : Val)
    (hg : g ∉ fields) : ∀ l : List (String × Val),
    lookupKey (fields.foldl (fun acc f => objInsert acc f v) l) g = lookupKey l g := by
  induction fields with
  | nil => intro l; rfl
  | cons f rest ih =>
    intro l
    have hgf : g ≠ f := fun he => hg (he ▸ List.mem_cons_self f rest)
    have hgr : g ∉ rest := fun hm => hg (List.mem_cons_of_mem f hm)
    simp only [List.foldl_cons]
    rw [ih hgr (objInsert l f v), lookupKey_objInsert_ne l f g v hgf]

theorem lookup_tsfold_mem {fields : List String} {f : String} (v : Val)
    (hnd : listNodupStr fields = true) (hf : f ∈ fields) :
    ∀ l : List (String × Val),
    lookupKey (fields.foldl (fun acc g => objInsert acc g v) l) f = some v := by
  induction fields with
  | nil => exact absurd hf (by simp)
  | cons g rest ih =>
    intro l
    simp only [listNodupStr, Bool.and_eq_true, Bool.not_eq_true'] at hnd
    simp only [List.foldl_cons]
    rcases List.mem_cons.mp hf with rfl | hfr
    · rw [lookup_tsfold_not_mem v (contains_false_not_mem hnd.1) (objInsert l f v),
        lookupKey_objInsert_self]
    · exact ih hnd.2 hfr (objInsert l g v)

theorem create_snd (cfg : RepoCfg) (store : Store) (model : Val) (now : String)
    (hval : cfg.validate model = none) :
    (create cfg store model now).2 = assignIdStep cfg (beforeCreateDataModel cfg model now) := by
  simp only [create, hval]
  cases hd : dataIdFromModel cfg (assignIdStep cfg (beforeCreateDataModel cfg model now)) with
  | none => simp [hd]
  | some idv => cases htr : idv.truthy <;> simp [hd, htr]

/-- Claim C6: on a repository configured with create-timestamp pointers to
distinct fields, one clock instant (the `now` argument, read once where the
source calls `moment.utc().toDate()`) is written through every pointer, so
every pointed-to field of the inserted document — which, under the default
transform, is the caller's own object — holds the identical `date now`
value. -/
theorem c6_create_timestamps (idf dn : String) (tsU : Option (List (List String)))
    (vhook : Val → Option String) (fields : List String) (store : Store)
    (entries : List (String × Val)) (now : String) (f : String)
    (hnd : listNodupStr fields = true)
    (hlen : 2 ≤ fields.length)
    (hval : vhook (.obj entries) = none)
    (hf : f ∈ fields) :
    fieldGet (create ⟨idf, dn, some (fields.map (fun g => [g])), tsU, vhook⟩
      store (.obj entries) now).2 f = some (.date now) := by
  rw [create_snd _ store (.obj entries) now hval]
  have hdata : beforeCreateDataModel
      ⟨idf, dn, some (fields.map (fun g => [g])), tsU, vhook⟩ (.obj entries) now =
      .obj (fields.foldl (fun acc g => objInsert acc g (Val.date now)) entries) := by
    unfold beforeCreateDataModel setTimestampForAllPointers
    exact tsFold fields entries (Val.date now)
  rw [hdata]
  have hlook : lookupKey (fields.foldl (fun acc g => objInsert acc g (Val.date now)) entries) f
      = some (Val.date now) := lookup_tsfold_mem (Val.date now) hnd hf entries
  unfold assignIdStep
  cases hid : fieldTruthy
      (Val.obj (fields.foldl (fun acc g => objInsert acc g (Val.date now)) entries)) "_id" with
  | true =>
    simp only [if_true]
    exact hlook
  | false =>
    have hne : f ≠ "_id" := by
      rintro rfl
      rw [show fieldTruthy
          (Val.obj (fields.foldl (fun acc g => objInsert acc g (Val.date now)) entries)) "_id"
          = true by simp [fieldTruthy, fieldGet, hlook, Val.truthy]] at hid
      exact Bool.false_ne_true hid.symm
    simp only [Bool.false_eq_true, if_false]
    cases hacc : dataIdFromModel ⟨idf, dn, some (fields.map (fun g => [g])), tsU, vhook⟩
        (Val.obj (fields.foldl (fun acc g => objInsert acc g (Val.date now)) entries)) with
    | none =>
      simp only [fieldGet]
      exact hlook
    | some idv =>
      cases htr : idv.truthy with
      | true =>
        simp only [htr, eq_self_iff_true, if_true, fieldSet, fieldGet]
        rw [lookupKey_objInsert_ne _ _ _ _ hne]
        exact hlook
      | false =>
        simp only [htr, Bool.false_eq_true, if_false, fieldGet]
        exact hlook

/-- Claim C6 witness: a repository with pointers to `createdAt` and
`updatedAt` gives both fields the identical instant on one create call. -/
theorem c6_create_timestamps_witness :
    listNodupStr ["createdAt", "updatedAt"] = true ∧
    2 ≤ (["createdAt", "updatedAt"] : List String).length ∧
    fieldGet (create ⟨"_id", "Domain model", some ((["createdAt", "updatedAt"] : List String).map (fun g => [g])),
        none, fun _ => none⟩ [] (.obj [("name", .prim "x")]) "T").2 "createdAt" = some (.date "T") ∧
    fieldGet (create ⟨"_id", "Domain model", some ((["createdAt", "updatedAt"] : List String).map (fun g => [g])),
        none, fun _ => none⟩ [] (.obj [("name", .prim "x")]) "T").2 "updatedAt" = some (.date "T") :=
  ⟨by decide, by decide,
   c6_create_timestamps "_id" "Domain model" none (fun _ => none) ["createdAt", "updatedAt"]
     [] [("name", .prim "x")] "T" "createdAt" (by decide) (by decide) rfl (by decide),
   c6_create_timestamps "_id" "Domain model" none (fun _ => none) ["createdAt", "updatedAt"]
     [] [("name", .prim "x")] "T" "updatedAt" (by decide) (by decide) rfl (by decide)⟩

/-- Claim C10: under the default `_transformModel` (identity), the data model
is the caller's own object, so the mutations `create` performs before the
insert are visible on the caller's model — the second component of `create`'s
result is that caller-visible object. Every configured create-timestamp field
is written into it, and when the object lacks an `_id` field and the identity
accessor (read, as in the source, off the already-timestamped object) yields
a truthy value, an `_id` field holding that value is added to it. -/
theorem c10_create_mutates_caller (idf dn : String) (tsU : Option (List (List String)))
    (vhook : Val → Option String) (fields : List String) (store : Store)
    (entries : List (String × Val)) (now : String) (f : String) (idv : Val)
    (hnd : listNodupStr fields = true)
    (hval : vhook (.obj entries) = none)
    (hnoid : lookupKey entries "_id" = none)
    (hidnf : "_id" ∉ fields)
    (hf : f ∈ fields)
    (hacc : fieldGet (beforeCreateDataModel ⟨idf, dn, some (fields.map (fun g => [g])), tsU, vhook⟩
      (.obj entries) now) idf = some idv)
    (htr : idv.truthy = true) :
    fieldGet (create ⟨idf, dn, some (fields.map (fun g => [g])), tsU, vhook⟩
        store (.obj entries) now).2 f = some (.date now) ∧
    fieldGet (create ⟨idf, dn, some (fields.map (fun g => [g])), tsU, vhook⟩
        store (.obj entries) now).2 "_id" = some idv := by
  rw [create_snd _ store (.obj entries) now hval]
  have hdata : beforeCreateDataModel
      ⟨idf, dn, some (fields.map (fun g => [g])), tsU, vhook⟩ (.obj entries) now =
      .obj (fields.foldl (fun acc g => objInsert acc g (Val.date now)) entries) := by
    unfold beforeCreateDataModel setTimestampForAllPointers
    exact tsFold fields entries (Val.date now)
  rw [hdata] at hacc ⊢
  have hlook : lookupKey (fields.foldl (fun acc g => objInsert acc g (Val.date now)) entries) f
      = some (Val.date now) := lookup_tsfold_mem (Val.date now) hnd hf entries
  have hnolook : lookupKey (fields.foldl (fun acc g => objInsert acc g (Val.date now)) entries) "_id"
      = none := by
    rw [lookup_tsfold_not_mem (Val.date now) hidnf entries]
    exact hnoid
  have hfid : f ≠ "_id" := by
    rintro rfl
    rw [hlook] at hnolook
    exact absurd hnolook (by simp)
  unfold assignIdStep
  rw [show fieldTruthy
      (Val.obj (fields.foldl (fun acc g => objInsert acc g (Val.date now)) entries)) "_id"
      = false by simp [fieldTruthy, fieldGet, hnolook]]
  simp only [Bool.false_eq_true, if_false]
  rw [show dataIdFromModel ⟨idf, dn, some (fields.map (fun g => [g])), tsU, vhook⟩
      (Val.obj (fields.foldl (fun acc g => objInsert acc g (Val.date now)) entries)) = some idv
    from hacc]
  simp only [htr, eq_self_iff_true, if_true, fieldSet, fieldGet]
  exact ⟨by rw [lookupKey_objInsert_ne _ _ _ _ hfid]; exact hlook,
    lookupKey_objInsert_self _ _ _⟩

/-- Claim C10 witness: a create call on a model without `_id` whose `slug`
property is the configured identity writes both the timestamp field and the
`_id` field into the caller's object. -/
theorem c10_create_mutates_caller_witness :
    lookupKey [("slug", Val.prim "s9")] "_id" = none ∧
    fieldGet (create ⟨"slug", "Domain model", some (((["createdAt"] : List String)).map (fun g => [g])),
        none, fun _ => none⟩ [] (.obj [("slug", .prim "s9")]) "T").2 "createdAt" = some (.date "T") ∧
    fieldGet (create ⟨"slug", "Domain model", some (((["createdAt"] : List String)).map (fun g => [g])),
        none, fun _ => none⟩ [] (.obj [("slug", .prim "s9")]) "T").2 "_id" = some (.prim "s9") :=
  ⟨rfl,
   (c10_create_mutates_caller "slug" "Domain model" none (fun _ => none) ["createdAt"]
     [] [("slug", .prim "s9")] "T" "createdAt" (.prim "s9") (by decide) rfl rfl (by decide)
     (by decide) rfl (by decide)).1,
   (c10_create_mutates_caller "slug" "Domain model" none (fun _ => none) ["createdAt"]
     [] [("slug", .prim "s9")] "T" "createdAt" (.prim "s9") (by decide) rfl rfl (by decide)
     (by decide) rfl (by decide)).2⟩

/-! ### Diff lemmas: identical values produce no change records -/

theorem contains_eq_false_of_not_mem {l : List String} {a : String} (h : a ∉ l) :
    l.contains a = false := by
  cases hc : l.contains a with
  | false => rfl
  | true => exact absurd (List.mem_of_elem_eq_true hc) h

theorem listNodupStr_append {xs ys : List String} (h : listNodupStr (xs ++ ys) = true) :
    listNodupStr xs = true ∧ listNodupStr ys = true ∧ ∀ a ∈ xs, a ∉ ys := by
  induction xs with
  | nil => exact ⟨rfl, h, by simp⟩
  | cons c t ih =>
    simp only [List.cons_append, listNodupStr, Bool.and_eq_true, Bool.not_eq_true'] at h
    obtain ⟨hc, hrest⟩ := h
    obtain ⟨h1, h2, h3⟩ := ih hrest
    have hcmem := contains_false_not_mem hc
    refine ⟨?_, h2, ?_⟩
    · simp only [listNodupStr, Bool.and_eq_true, Bool.not_eq_true']
      exact ⟨contains_eq_false_of_not_mem (fun hm => hcmem (List.mem_append_left ys hm)), h1⟩
    · intro a ha
      rcases List.mem_cons.mp ha with rfl | hat
      · exact fun hm => hcmem (List.mem_append_right t hm)
      · exact h3 a hat

theorem wfValPairs_append {l1 l2 : List (String × Val)} :
    wfValPairs (l1 ++ l2) = true ↔ wfValPairs l1 = true ∧ wfValPairs l2 = true := by
  induction l1 with
  | nil => simp [wfValPairs]
  | cons hd t ih =>
    obtain ⟨k, v⟩ := hd
    simp [wfValPairs, ih, and_assoc]

theorem lookupKey_append_left {α : Type} {l1 l2 : List (String × α)} {k : String}
    (h : k ∈ keysOf l1) : lookupKey (l1 ++ l2) k = lookupKey l1 k := by
  induction l1 with
  | nil => simp [keysOf] at h
  | cons hd t ih =>
    obtain ⟨k1, w⟩ := hd
    by_cases hk : k = k1
    · simp [lookupKey, hk]
    · simp only [keysOf, List.map_cons, List.mem_cons] at h
      rcases h with h | h
      · exact absurd h hk
      · simp only [List.cons_append, lookupKey, hk, if_false]
        exact ih h

theorem lookupKey_append_right {α : Type} {l1 l2 : List (String × α)} {k : String}
    (h : k ∉ keysOf l1) : lookupKey (l1 ++ l2) k = lookupKey l2 k := by
  induction l1 with
  | nil => rfl
  | cons hd t ih =>
    obtain ⟨k1, w⟩ := hd
    simp only [keysOf, List.map_cons, List.mem_cons, not_or] at h
    simp only [List.cons_append, lookupKey, h.1, if_false]
    exact ih h.2

theorem diffObjDel_eq_nil (f : DiffFilter) (path : List String)
    (l r : List (String × Val)) (h : ∀ p ∈ l, (lookupKey r p.1).isSome = true) :
    diffObjDel f path l r = [] := by
  induction l with
  | nil => rfl
  | cons hd t ih =>
    obtain ⟨k, v⟩ := hd
    have hk := h (k, v) (List.mem_cons_self _ _)
    simp only at hk
    cases hlk : lookupKey r k with
    | none => rw [hlk] at hk; simp at hk
    | some w =>
      simp only [diffObjDel, hlk]
      rw [ih (fun p hp => h p (List.mem_cons_of_mem _ hp))]
      simp

mutual

theorem diffVal_self (f : DiffFilter) : ∀ (path : List String) (v : Val),
    wfVal v = true → diffVal f path v v = []
  | _, .prim _, _ => by simp [diffVal, beqVal]
  | _, .date _, _ => by simp [diffVal, beqVal]
  | path, .arr l, h => by
    simp only [wfVal] at h
    simp only [diffVal]
    exact diffArr_self f path 0 l h
  | path, .obj l, h => by
    simp only [wfVal, Bool.and_eq_true] at h
    simp only [diffVal]
    rw [diffObjAdd_self f path l l h.2 (fun q hq => lookupKey_of_mem_nodup h.1 hq),
      diffObjDel_eq_nil f path l l (fun q hq => by
        rw [lookupKey_of_mem_nodup h.1 hq]; rfl)]
    rfl

theorem diffObjAdd_self (f : DiffFilter) : ∀ (path : List String)
    (l r : List (String × Val)), wfValPairs r = true →
    (∀ q ∈ r, lookupKey l q.1 = some q.2) → diffObjAdd f path l r = []
  | _, _, [], _, _ => rfl
  | path, l, (k, w) :: rest, h, hl => by
    simp only [wfValPairs, Bool.and_eq_true] at h
    have h1 : lookupKey l k = some w := hl (k, w) (List.mem_cons_self _ _)
    simp only [diffObjAdd, h1,
      diffObjAdd_self f path l rest h.2 (fun q hq => hl q (List.mem_cons_of_mem _ hq)),
      diffVal_self f (path ++ [k]) w h.1]
    simp

theorem diffArr_self (f : DiffFilter) : ∀ (path : List String) (i : Nat) (l : List Val),
    wfValList l = true → diffArr f path i l l = []
  | _, _, [], _ => rfl
  | path, i, v :: t, h => by
    simp only [wfValList, Bool.and_eq_true] at h
    simp only [diffArr, diffVal_self f (path ++ [decStr i]) v h.1,
      diffArr_self f path (i + 1) t h.2]
    simp

end

theorem diffObjAdd_append (f : DiffFilter) (path : List String) (l : List (String × Val)) :
    ∀ r1 r2 : List (String × Val),
    diffObjAdd f path l (r1 ++ r2) = diffObjAdd f path l r1 ++ diffObjAdd f path l r2 := by
  intro r1
  induction r1 with
  | nil => intro r2; rfl
  | cons hd t ih =>
    intro r2
    obtain ⟨k, w⟩ := hd
    simp only [List.cons_append, diffObjAdd, List.append_eq, ih, List.append_assoc]

/-- Difference of two objects identical outside a single shared key: exactly
the records of the recursion into that key's values. -/
theorem diff_single_entry (k : String) (vA vB : Val) (pre post : List (String × Val))
    (hnodup : listNodupStr (keysOf pre ++ k :: keysOf post) = true)
    (hwfpre : wfValPairs pre = true) (hwfpost : wfValPairs post = true) :
    diffVal filterUpdatedProperties []
      (.obj (pre ++ (k, vA) :: post)) (.obj (pre ++ (k, vB) :: post)) =
    diffVal filterUpdatedProperties [k] vA vB := by
  obtain ⟨hndpre, hndrest, hdisj⟩ := listNodupStr_append hnodup
  have hkpost : k ∉ keysOf post := by
    simp only [listNodupStr, Bool.and_eq_true, Bool.not_eq_true'] at hndrest
    exact contains_false_not_mem hndrest.1
  have hndpost : listNodupStr (keysOf post) = true := by
    simp only [listNodupStr, Bool.and_eq_true] at hndrest
    exact hndrest.2
  have hkpre : k ∉ keysOf pre := fun hm => (hdisj k hm) (List.mem_cons_self _ _)
  have hlookpre : ∀ q ∈ pre, lookupKey (pre ++ (k, vA) :: post) q.1 = some q.2 := by
    rintro ⟨qk, qv⟩ hq
    have hqk : qk ∈ keysOf pre := List.mem_map.mpr ⟨(qk, qv), hq, rfl⟩
    rw [lookupKey_append_left hqk]
    exact lookupKey_of_mem_nodup hndpre hq
  have hlookk : lookupKey (pre ++ (k, vA) :: post) k = some vA := by
    rw [lookupKey_append_right hkpre]
    simp [lookupKey]
  have hlookpost : ∀ q ∈ post, lookupKey (pre ++ (k, vA) :: post) q.1 = some q.2 := by
    rintro ⟨qk, qv⟩ hq
    have hqk : qk ∈ keysOf post := List.mem_map.mpr ⟨(qk, qv), hq, rfl⟩
    have hq1 : qk ∉ keysOf pre := fun hm => (hdisj qk hm) (List.mem_cons_of_mem k hqk)
    have hq2 : qk ≠ k := fun he => hkpost (he ▸ hqk)
    rw [lookupKey_append_right hq1]
    simp only [lookupKey, hq2, if_false]
    exact lookupKey_of_mem_nodup hndpost hq
  have hdel : diffObjDel filterUpdatedProperties [] (pre ++ (k, vA) :: post)
      (pre ++ (k, vB) :: post) = [] := by
    apply diffObjDel_eq_nil
    intro p hp
    obtain ⟨pk, pv⟩ := p
    rcases List.mem_append.mp hp with hp1 | hp2
    · have hpk : pk ∈ keysOf pre := List.mem_map.mpr ⟨(pk, pv), hp1, rfl⟩
      rw [show ((pk, pv).1 : String) = pk from rfl, lookupKey_append_left hpk,
        lookupKey_of_mem_nodup hndpre hp1]
      rfl
    · rcases List.mem_cons.mp hp2 with heq | hp3
      · rw [Prod.mk.injEq] at heq
        have hpkk : pk = k := heq.1
        rw [show ((pk, pv).1 : String) = pk from rfl, hpkk, lookupKey_append_right hkpre]
        simp [lookupKey]
      · have hpk : pk ∈ keysOf post := List.mem_map.mpr ⟨(pk, pv), hp3, rfl⟩
        have hp1 : pk ∉ keysOf pre := fun hm => (hdisj pk hm) (List.mem_cons_of_mem k hpk)
        have hp2ne : pk ≠ k := fun he => hkpost (he ▸ hpk)
        rw [show ((pk, pv).1 : String) = pk from rfl, lookupKey_append_right hp1]
        simp only [lookupKey, hp2ne, if_false]
        rw [lookupKey_of_mem_nodup hndpost hp3]
        rfl
  have hsplit : (pre ++ (k, vB) :: post) = pre ++ ([(k, vB)] ++ post) := by simp
  simp only [diffVal, hdel, List.append_nil]
  rw [hsplit, diffObjAdd_append, diffObjAdd_append]
  rw [diffObjAdd_self filterUpdatedProperties [] _ pre hwfpre hlookpre,
    diffObjAdd_self filterUpdatedProperties [] _ post hwfpost hlookpost]
  simp only [List.nil_append, List.append_nil, diffObjAdd, hlookk, filterUpdatedProperties]
  simp

/-- The dotted key of an array-change record below a top-level field. -/
theorem chKey_arr_single (k : String) (i : Nat) (v : Val) :
    chKey (arrDelChange [k] i v) = k ++ "." ++ decStr i ∧
    chKey (arrAddChange [k] i v) = k ++ "." ++ decStr i := by
  constructor <;>
    simp only [chKey, arrDelChange, arrAddChange, joinDots, List.map_cons, List.map_nil,
      joinDotsChars]

theorem append_dot_one (k : String) : k ++ "." ++ "1" = k ++ ".1" := by
  cases k with
  | mk d =>
    show String.mk ((d ++ ['.']) ++ ['1']) = String.mk (d ++ ['.', '1'])
    rw [List.append_assoc]
    rfl

theorem updStep_arrDel (acc : Option (List (String × Val)) × Option (List (String × Nat)))
    (p : List String) (i : Nat) (v : Val) :
    updStep acc (arrDelChange p i v) =
      (acc.1, some (objInsert (acc.2.getD []) (chKey (arrDelChange p i v)) 1)) := rfl

theorem updStep_arrAdd (acc : Option (List (String × Val)) × Option (List (String × Nat)))
    (p : List String) (i : Nat) (v : Val) :
    updStep acc (arrAddChange p i v) =
      (some (objInsert (acc.1.getD []) (chKey (arrAddChange p i v)) v), acc.2) := rfl

/-- Claim C5: a top-level array field shrinking from `[x, y]` to `[x]`
compiles to exactly one removal at the index-level path `k.1` — the whole
array is not reassigned (the `$set` mapping is absent altogether) — and the
field growing from `[x]` to `[x, y]` compiles to exactly one assignment of
`y` at that same index-level path (with no removal). -/
theorem c5_array_index_ops (k : String) (x y : Val) (pre post : List (String × Val))
    (hnodup : listNodupStr (keysOf pre ++ k :: keysOf post) = true)
    (hwfpre : wfValPairs pre = true) (hwfpost : wfValPairs post = true)
    (hwfx : wfVal x = true) :
    makeUpdateSet (.obj (pre ++ (k, .arr [x, y]) :: post))
      (.obj (pre ++ (k, .arr [x]) :: post)) = ⟨none, some [(k ++ ".1", 1)]⟩ ∧
    makeUpdateSet (.obj (pre ++ (k, .arr [x]) :: post))
      (.obj (pre ++ (k, .arr [x, y]) :: post)) = ⟨some [(k ++ ".1", y)], none⟩ := by
  have hkey1 : chKey (arrDelChange [k] 1 y) = k ++ ".1" := by
    rw [(chKey_arr_single k 1 y).1, show (decStr 1 : String) = "1" by rfl, append_dot_one]
  have hkey2 : chKey (arrAddChange [k] 1 y) = k ++ ".1" := by
    rw [(chKey_arr_single k 1 y).2, show (decStr 1 : String) = "1" by rfl, append_dot_one]
  have hshrink : diffVal filterUpdatedProperties [k] (.arr [x, y]) (.arr [x]) =
      [arrDelChange [k] 1 y] := by
    simp only [diffVal, diffArr, diffArrDel, filterUpdatedProperties]
    rw [diffVal_self filterUpdatedProperties ([k] ++ [decStr 0]) x hwfx]
    simp
  have hgrow : diffVal filterUpdatedProperties [k] (.arr [x]) (.arr [x, y]) =
      [arrAddChange [k] 1 y] := by
    simp only [diffVal, diffArr, diffArrDel, filterUpdatedProperties]
    rw [diffVal_self filterUpdatedProperties ([k] ++ [decStr 0]) x hwfx]
    simp
  constructor
  · unfold makeUpdateSet
    rw [diff_single_entry k (.arr [x, y]) (.arr [x]) pre post hnodup hwfpre hwfpost, hshrink]
    simp only [List.foldl_cons, List.foldl_nil, updStep_arrDel, hkey1]
    rfl
  · unfold makeUpdateSet
    rw [diff_single_entry k (.arr [x]) (.arr [x, y]) pre post hnodup hwfpre hwfpost, hgrow]
    simp only [List.foldl_cons, List.foldl_nil, updStep_arrAdd, hkey2]
    rfl

/-- Claim C5 witness: the index-level removal and assignment at a concrete
field and elements. -/
theorem c5_array_index_ops_witness :
    makeUpdateSet (.obj [("arrayField", .arr [.prim "x", .prim "y"])])
      (.obj [("arrayField", .arr [.prim "x"])]) = ⟨none, some [("arrayField.1", 1)]⟩ ∧
    makeUpdateSet (.obj [("arrayField", .arr [.prim "x"])])
      (.obj [("arrayField", .arr [.prim "x", .prim "y"])]) =
      ⟨some [("arrayField.1", .prim "y")], none⟩ :=
  c5_array_index_ops "arrayField" (.prim "x") (.prim "y") [] []
    (by decide) rfl rfl rfl

/-! ### The update-diff round trip (claim C1)

Strategy: work first at the level of segment paths (lists of path segments,
array indices rendered with `decStr`), where the compiled update set is read
off the change records by `segAssign`/`segRemove`; prove the round trip for
that segment-level view by structural induction; then bridge to the real
`makeUpdateSet`/`applyUpdateSet`, whose keys are the dot-joined strings,
using that all paths produced by diffing two dot-free-keyed documents are
nonempty, dot-free, and pairwise distinct. -/

/-- Prefix every record's path (the differencer's path accumulation). -/
def shiftC (p : List String) (c : Change) : Change :=
  { c with path := p ++ c.path }

/-- The full segment path a record addresses: the record path, extended with
the decimal index for array changes. -/
def fullSeg (c : Change) : List String :=
  match c.kind, c.index with
  | .A, some i => c.path ++ [decStr i]
  | _, _ => c.path

/-- The assignment a record contributes (mirroring `updStep`'s `$set` cases),
as a segment path. -/
def segAssign (c : Change) : Option (List String × Val) :=
  match c.kind with
  | .A =>
    if (c.item.map AItem.kind = some .E) ∨ (c.item.map AItem.kind = some .N) then
      some (fullSeg c, c.rhs.getD (Val.prim "undefined"))
    else none
  | .E => some (c.path, c.rhs.getD (Val.prim "undefined"))
  | .N => some (c.path, c.rhs.getD (Val.prim "undefined"))
  | .D => none

/-- The removal a record contributes (mirroring `updStep`'s `$unset` cases),
as a segment path. -/
def segRemove (c : Change) : Option (List String) :=
  match c.kind with
  | .A =>
    if (c.item.map AItem.kind = some .E) ∨ (c.item.map AItem.kind = some .N) then none
    else some (fullSeg c)
  | .D => some c.path
  | _ => none

/-- All assignments of a change list, in emission order. -/
def segAssignments (cs : List Change) : List (List String × Val) := cs.filterMap segAssign

/-- All removals of a change list, in emission order. -/
def segRemovals (cs : List Change) : List (List String) := cs.filterMap segRemove

/-- Apply segment-path assignments in order. -/
def applySetsSeg (d : Val) (sas : List (List String × Val)) : Val :=
  sas.foldl (fun acc pv => setSeg acc pv.1 pv.2) d

/-- Apply segment-path removals in the order given. -/
def applyRemSegF (d : Val) (srs : List (List String)) : Val :=
  srs.foldl (fun acc p => unsetSeg acc p) d

/-- Segment-level update application: assignments, then removals in reverse
emission order. -/
def segApply (d : Val) (sas : List (List String × Val)) (srs : List (List String)) : Val :=
  applyRemSegF (applySetsSeg d sas) srs.reverse

/-- The change records of one diff run with the default filter. -/
def cs0 (a b : Val) : List Change :=
  diffVal filterUpdatedProperties [] a b

theorem shiftC_editChange (p q : List String) (a b : Val) :
    shiftC p (editChange q a b) = editChange (p ++ q) a b := rfl

theorem shiftC_newChange (p q : List String) (w : Val) :
    shiftC p (newChange q w) = newChange (p ++ q) w := rfl

theorem shiftC_delChange (p q : List String) (v : Val) :
    shiftC p (delChange q v) = delChange (p ++ q) v := rfl

theorem shiftC_arrAddChange (p q : List String) (i : Nat) (w : Val) :
    shiftC p (arrAddChange q i w) = arrAddChange (p ++ q) i w := rfl

theorem shiftC_arrDelChange (p q : List String) (i : Nat) (v : Val) :
    shiftC p (arrDelChange q i v) = arrDelChange (p ++ q) i v := rfl

theorem diffObjDel_shift (f : DiffFilter) (hf : ∀ p1 p2 k, f p1 k = f p2 k)
    (p q : List String) (l r : List (String × Val)) :
    diffObjDel f (p ++ q) l r = (diffObjDel f q l r).map (shiftC p) := by
  induction l with
  | nil => rfl
  | cons hd t ih =>
    obtain ⟨k, v⟩ := hd
    simp only [diffObjDel, List.map_append, ih]
    congr 1
    rw [hf (p ++ q) q k]
    cases f q k
    · cases lookupKey r k <;> simp [shiftC_delChange, List.append_assoc, delChange, shiftC]
    · simp

theorem diffArrDel_shift (p q : List String) (i : Nat) (l : List Val) :
    diffArrDel (p ++ q) i l = (diffArrDel q i l).map (shiftC p) := by
  induction l generalizing i with
  | nil => rfl
  | cons v t ih =>
    simp only [diffArrDel, List.map_cons, ih (i + 1), shiftC_arrDelChange]

mutual

theorem diffVal_shift : ∀ (p q : List String) (a b : Val),
    diffVal filterUpdatedProperties (p ++ q) a b =
      (diffVal filterUpdatedProperties q a b).map (shiftC p)
  | p, q, .obj l, .obj r => by
    simp only [diffVal, List.map_append]
    rw [diffObjAdd_shift p q l r,
      diffObjDel_shift filterUpdatedProperties (fun _ _ _ => rfl) p q l r]
  | p, q, .arr l, .arr r => by
    simp only [diffVal]
    exact diffArr_shift p q 0 l r
  | p, q, .prim a, .prim b => by
    simp only [diffVal]
    cases beqVal (Val.prim a) (Val.prim b) <;> simp [shiftC_editChange]
  | p, q, .prim a, .date b => by
    simp only [diffVal]
    cases beqVal (Val.prim a) (Val.date b) <;> simp [shiftC_editChange]
  | p, q, .prim a, .arr b => by
    simp only [diffVal]
    cases beqVal (Val.prim a) (Val.arr b) <;> simp [shiftC_editChange]
  | p, q, .prim a, .obj b => by
    simp only [diffVal]
    cases beqVal (Val.prim a) (Val.obj b) <;> simp [shiftC_editChange]
  | p, q, .date a, .prim b => by
    simp only [diffVal]
    cases beqVal (Val.date a) (Val.prim b) <;> simp [shiftC_editChange]
  | p, q, .date a, .date b => by
    simp only [diffVal]
    cases beqVal (Val.date a) (Val.date b) <;> simp [shiftC_editChange]
  | p, q, .date a, .arr b => by
    simp only [diffVal]
    cases beqVal (Val.date a) (Val.arr b) <;> simp [shiftC_editChange]
  | p, q, .date a, .obj b => by
    simp only [diffVal]
    cases beqVal (Val.date a) (Val.obj b) <;> simp [shiftC_editChange]
  | p, q, .arr a, .prim b => by
    simp only [diffVal]
    cases beqVal (Val.arr a) (Val.prim b) <;> simp [shiftC_editChange]
  | p, q, .arr a, .date b => by
    simp only [diffVal]
    cases beqVal (Val.arr a) (Val.date b) <;> simp [shiftC_editChange]
  | p, q, .arr a, .obj b => by
    simp only [diffVal]
    cases beqVal (Val.arr a) (Val.obj b) <;> simp [shiftC_editChange]
  | p, q, .obj a, .prim b => by
    simp only [diffVal]
    cases beqVal (Val.obj a) (Val.prim b) <;> simp [shiftC_editChange]
  | p, q, .obj a, .date b => by
    simp only [diffVal]
    cases beqVal (Val.obj a) (Val.date b) <;> simp [shiftC_editChange]
  | p, q, .obj a, .arr b => by
    simp only [diffVal]
    cases beqVal (Val.obj a) (Val.arr b) <;> simp [shiftC_editChange]

theorem diffObjAdd_shift : ∀ (p q : List String) (l : List (String × Val))
    (r : List (String × Val)),
    diffObjAdd filterUpdatedProperties (p ++ q) l r =
      (diffObjAdd filterUpdatedProperties q l r).map (shiftC p)
  | _, _, _, [] => rfl
  | p, q, l, (k, w) :: rest => by
    simp only [diffObjAdd, List.map_append, diffObjAdd_shift p q l rest, filterUpdatedProperties]
    congr 1
    cases hlk : lookupKey l k with
    | some v =>
      simp only [Bool.false_eq_true, if_false]
      rw [show (p ++ q) ++ [k] = p ++ (q ++ [k]) from List.append_assoc p q [k]]
      exact diffVal_shift p (q ++ [k]) v w
    | none =>
      simp [shiftC_newChange, List.append_assoc]

theorem diffArr_shift : ∀ (p q : List String) (i : Nat) (l r : List Val),
    diffArr filterUpdatedProperties (p ++ q) i l r =
      (diffArr filterUpdatedProperties q i l r).map (shiftC p)
  | _, _, _, [], [] => rfl
  | p, q, i, v :: l, w :: r => by
    simp only [diffArr, List.map_append, diffArr_shift p q (i + 1) l r,
      filterUpdatedProperties, Bool.false_eq_true, if_false]
    congr 1
    rw [show (p ++ q) ++ [decStr i] = p ++ (q ++ [decStr i]) from List.append_assoc p q _]
    exact diffVal_shift p (q ++ [decStr i]) v w
  | p, q, i, [], w :: r => by
    simp only [diffArr, List.map_cons, diffArr_shift p q (i + 1) [] r, shiftC_arrAddChange]
  | p, q, i, v :: l, [] => by
    simp only [diffArr]
    exact diffArrDel_shift p q i (v :: l)

end

theorem segAssign_newChange (p : List String) (w : Val) :
    segAssign (newChange p w) = some (p, w) := rfl

theorem segAssign_editChange (p : List String) (a b : Val) :
    segAssign (editChange p a b) = some (p, b) := rfl

theorem segAssign_delChange (p : List String) (v : Val) :
    segAssign (delChange p v) = none := rfl

theorem segAssign_arrAddChange (p : List String) (i : Nat) (w : Val) :
    segAssign (arrAddChange p i w) = some (p ++ [decStr i], w) := rfl

theorem segAssign_arrDelChange (p : List String) (i : Nat) (v : Val) :
    segAssign (arrDelChange p i v) = none := rfl

theorem segRemove_newChange (p : List String) (w : Val) :
    segRemove (newChange p w) = none := rfl

theorem segRemove_editChange (p : List String) (a b : Val) :
    segRemove (editChange p a b) = none := rfl

theorem segRemove_delChange (p : List String) (v : Val) :
    segRemove (delChange p v) = some p := rfl

theorem segRemove_arrAddChange (p : List String) (i : Nat) (w : Val) :
    segRemove (arrAddChange p i w) = none := rfl

theorem segRemove_arrDelChange (p : List String) (i : Nat) (v : Val) :
    segRemove (arrDelChange p i v) = some (p ++ [decStr i]) := rfl

theorem fullSeg_shiftC (p : List String) (c : Change) :
    fullSeg (shiftC p c) = p ++ fullSeg c := by
  obtain ⟨kind, path, lhs, rhs, index, item⟩ := c
  cases kind <;> cases index <;> simp [fullSeg, shiftC, List.append_assoc]

theorem segAssign_shiftC (p : List String) (c : Change) :
    segAssign (shiftC p c) = (segAssign c).map (fun pv => (p ++ pv.1, pv.2)) := by
  obtain ⟨kind, path, lhs, rhs, index, item⟩ := c
  cases kind <;> cases index <;>
    simp only [segAssign, shiftC, fullSeg, Option.map_some', Option.map_none'] <;>
    first
      | rfl
      | (split <;> simp [List.append_assoc])

theorem segRemove_shiftC (p : List String) (c : Change) :
    segRemove (shiftC p c) = (segRemove c).map (fun q => p ++ q) := by
  obtain ⟨kind, path, lhs, rhs, index, item⟩ := c
  cases kind <;> cases index <;>
    simp only [segRemove, shiftC, fullSeg, Option.map_some', Option.map_none'] <;>
    first
      | rfl
      | (split <;> simp [List.append_assoc])

theorem segAssignments_append (cs ds : List Change) :
    segAssignments (cs ++ ds) = segAssignments cs ++ segAssignments ds :=
  List.filterMap_append cs ds segAssign

theorem segRemovals_append (cs ds : List Change) :
    segRemovals (cs ++ ds) = segRemovals cs ++ segRemovals ds :=
  List.filterMap_append cs ds segRemove

theorem segAssignments_shift (p : List String) (cs : List Change) :
    segAssignments (cs.map (shiftC p)) =
      (segAssignments cs).map (fun pv => (p ++ pv.1, pv.2)) := by
  simp only [segAssignments, List.filterMap_map]
  have hfn : (segAssign ∘ shiftC p) =
      fun c => (segAssign c).map (fun pv => (p ++ pv.1, pv.2)) := by
    funext c
    exact segAssign_shiftC p c
  rw [hfn, ← List.map_filterMap]

theorem segRemovals_shift (p : List String) (cs : List Change) :
    segRemovals (cs.map (shiftC p)) = (segRemovals cs).map (fun q => p ++ q) := by
  simp only [segRemovals, List.filterMap_map]
  have hfn : (segRemove ∘ shiftC p) = fun c => (segRemove c).map (fun q => p ++ q) := by
    funext c
    exact segRemove_shiftC p c
  rw [hfn, ← List.map_filterMap]

/-! ### Localization of update application: frames for one key or one index -/

/-- Modify the value stored at a key, in place; no-op for an absent key. -/
def objMapAt (l : List (String × Val)) (k : String) (g : Val → Val) : List (String × Val) :=
  match l with
  | [] => []
  | (k1, w) :: t => if k = k1 then (k1, g w) :: t else (k1, w) :: objMapAt t k g

/-- Modify the element at an index, in place; no-op past the end. -/
def listMapAt : List Val → Nat → (Val → Val) → List Val
  | [], _, _ => []
  | w :: t, 0, g => g w :: t
  | w :: t, n + 1, g => w :: listMapAt t n g

theorem objMapAt_id (l : List (String × Val)) (k : String) :
    objMapAt l k (fun u => u) = l := by
  induction l with
  | nil => rfl
  | cons hd t ih =>
    obtain ⟨k1, w⟩ := hd
    by_cases hk : k = k1 <;> simp [objMapAt, hk, ih]

theorem objMapAt_objMapAt (l : List (String × Val)) (k : String) (g h : Val → Val) :
    objMapAt (objMapAt l k g) k h = objMapAt l k (fun u => h (g u)) := by
  induction l with
  | nil => rfl
  | cons hd t ih =>
    obtain ⟨k1, w⟩ := hd
    by_cases hk : k = k1 <;> simp [objMapAt, hk, ih]

theorem keysOf_objMapAt (l : List (String × Val)) (k : String) (g : Val → Val) :
    keysOf (objMapAt l k g) = keysOf l := by
  induction l with
  | nil => rfl
  | cons hd t ih =>
    obtain ⟨k1, w⟩ := hd
    by_cases hk : k = k1 <;> simp [objMapAt, hk, keysOf] <;> simpa [keysOf] using ih

theorem lookupKey_objMapAt_self (l : List (String × Val)) (k : String) (g : Val → Val) :
    lookupKey (objMapAt l k g) k = (lookupKey l k).map g := by
  induction l with
  | nil => rfl
  | cons hd t ih =>
    obtain ⟨k1, w⟩ := hd
    by_cases hk : k = k1 <;> simp [objMapAt, lookupKey, hk, ih]

theorem lookupKey_objMapAt_ne (l : List (String × Val)) (k k2 : String) (g : Val → Val)
    (h : k2 ≠ k) : lookupKey (objMapAt l k g) k2 = lookupKey l k2 := by
  induction l with
  | nil => rfl
  | cons hd t ih =>
    obtain ⟨k1, w⟩ := hd
    by_cases hk : k = k1
    · subst hk
      simp [objMapAt, lookupKey, h]
    · by_cases hk2 : k2 = k1 <;> simp [objMapAt, lookupKey, hk, hk2, ih]

theorem listMapAt_id (l : List Val) (i : Nat) : listMapAt l i (fun u => u) = l := by
  induction l generalizing i with
  | nil => rfl
  | cons w t ih => cases i <;> simp [listMapAt, ih]

theorem listMapAt_listMapAt (l : List Val) (i : Nat) (g h : Val → Val) :
    listMapAt (listMapAt l i g) i h = listMapAt l i (fun u => h (g u)) := by
  induction l generalizing i with
  | nil => rfl
  | cons w t ih => cases i <;> simp [listMapAt, ih]

theorem length_listMapAt (l : List Val) (i : Nat) (g : Val → Val) :
    (listMapAt l i g).length = l.length := by
  induction l generalizing i with
  | nil => rfl
  | cons w t ih => cases i <;> simp [listMapAt, ih]

theorem listMapAt_append_mid (xs l : List Val) (u : Val) (g : Val → Val) :
    listMapAt (xs ++ u :: l) xs.length g = xs ++ g u :: l := by
  induction xs with
  | nil => rfl
  | cons w t ih => simp [listMapAt, ih]

/-- `objSetPath` on a present key is an in-place modification. -/
theorem objSetPath_mem (l : List (String × Val)) (k : String) (rest : List String) (v : Val)
    (h : k ∈ keysOf l) :
    objSetPath l k rest v = objMapAt l k (fun w => setSeg w rest v) := by
  induction l with
  | nil => simp [keysOf] at h
  | cons hd t ih =>
    obtain ⟨k1, w⟩ := hd
    by_cases hk : k = k1
    · simp [objSetPath, objMapAt, hk]
    · simp only [keysOf, List.map_cons, List.mem_cons] at h
      rcases h with h | h
      · exact absurd h hk
      · simp [objSetPath, objMapAt, hk, ih h]

/-- `objSetPath` on an absent key appends the freshly built entry. -/
theorem objSetPath_not_mem (l : List (String × Val)) (k : String) (rest : List String) (v : Val)
    (h : k ∉ keysOf l) :
    objSetPath l k rest v = l ++ [(k, mkPath rest v)] := by
  induction l with
  | nil => rfl
  | cons hd t ih =>
    obtain ⟨k1, w⟩ := hd
    simp only [keysOf, List.map_cons, List.mem_cons, not_or] at h
    simp [objSetPath, h.1, ih h.2]

/-- `objUnsetPath` is always an in-place modification. -/
theorem objUnsetPath_eq (l : List (String × Val)) (k : String) (rest : List String) :
    objUnsetPath l k rest = objMapAt l k (fun w => unsetSeg w rest) := by
  induction l with
  | nil => rfl
  | cons hd t ih =>
    obtain ⟨k1, w⟩ := hd
    by_cases hk : k = k1 <;> simp [objUnsetPath, objMapAt, hk, ih]

/-- `arrSetPath` below the length is an in-place modification. -/
theorem arrSetPath_lt (l : List Val) (i : Nat) (rest : List String) (v : Val)
    (h : i < l.length) :
    arrSetPath l i rest v = listMapAt l i (fun w => setSeg w rest v) := by
  induction l generalizing i with
  | nil => simp at h
  | cons w t ih =>
    cases i with
    | zero => rfl
    | succ n =>
      simp only [List.length_cons, Nat.succ_lt_succ_iff] at h
      simp [arrSetPath, listMapAt, ih n h]

/-- `arrSetPath` at exactly the length appends. -/
theorem arrSetPath_len (l : List Val) (v : Val) :
    arrSetPath l l.length [] v = l ++ [v] := by
  induction l with
  | nil => simp [arrSetPath, mkPath]
  | cons w t ih => simp [arrSetPath, ih]

/-- `arrUnsetPath` is always an in-place modification. -/
theorem arrUnsetPath_eq (l : List Val) (i : Nat) (rest : List String) :
    arrUnsetPath l i rest = listMapAt l i (fun w => unsetSeg w rest) := by
  induction l generalizing i with
  | nil => rfl
  | cons w t ih => cases i <;> simp [arrUnsetPath, listMapAt, ih]

theorem eraseIdx_append_last (xs : List Val) (v : Val) :
    (xs ++ [v]).eraseIdx xs.length = xs := by
  induction xs with
  | nil => rfl
  | cons w t ih => simp [List.eraseIdx, ih]

/-! ### Single-step localizations -/

theorem setSeg_obj_cons (l : List (String × Val)) (k : String) (rest : List String) (v : Val) :
    setSeg (.obj l) (k :: rest) v = .obj (objSetPath l k rest v) := rfl

theorem setSeg_arr_idx (l : List Val) (i : Nat) (rest : List String) (v : Val) :
    setSeg (.arr l) (decStr i :: rest) v = .arr (arrSetPath l i rest v) := by
  simp only [setSeg, parseIdx_decStr]

theorem unsetSeg_obj_single (l : List (String × Val)) (k : String) :
    unsetSeg (.obj l) [k] = .obj (objRemove l k) := rfl

theorem unsetSeg_obj_cons (l : List (String × Val)) (k k2 : String) (rest : List String) :
    unsetSeg (.obj l) (k :: k2 :: rest) = .obj (objUnsetPath l k (k2 :: rest)) := rfl

theorem unsetSeg_arr_single (l : List Val) (i : Nat) :
    unsetSeg (.arr l) [decStr i] = .arr (l.eraseIdx i) := by
  simp only [unsetSeg, parseIdx_decStr]

theorem unsetSeg_arr_cons (l : List Val) (i : Nat) (k2 : String) (rest : List String) :
    unsetSeg (.arr l) (decStr i :: k2 :: rest) = .arr (arrUnsetPath l i (k2 :: rest)) := by
  simp only [unsetSeg, parseIdx_decStr]

/-! ### Fold frames -/

theorem applySetsSeg_cons (d : Val) (pv : List String × Val) (sas : List (List String × Val)) :
    applySetsSeg d (pv :: sas) = applySetsSeg (setSeg d pv.1 pv.2) sas := rfl

theorem applySetsSeg_append (d : Val) (s1 s2 : List (List String × Val)) :
    applySetsSeg d (s1 ++ s2) = applySetsSeg (applySetsSeg d s1) s2 :=
  List.foldl_append _ _ _ _

theorem applyRemSegF_cons (d : Val) (p : List String) (srs : List (List String)) :
    applyRemSegF d (p :: srs) = applyRemSegF (unsetSeg d p) srs := rfl

theorem applyRemSegF_append (d : Val) (s1 s2 : List (List String)) :
    applyRemSegF d (s1 ++ s2) = applyRemSegF (applyRemSegF d s1) s2 :=
  List.foldl_append _ _ _ _

/-- Assignments below one object key localize to that key. -/
theorem applySetsSeg_obj_key (k : String) :
    ∀ (sas : List (List String × Val)) (m : List (String × Val)), k ∈ keysOf m →
    applySetsSeg (.obj m) (sas.map (fun pv => (k :: pv.1, pv.2))) =
      .obj (objMapAt m k (fun u => applySetsSeg u sas)) := by
  intro sas
  induction sas with
  | nil =>
    intro m _
    simp [applySetsSeg, objMapAt_id]
  | cons pv rest ih =>
    intro m hm
    obtain ⟨p, v⟩ := pv
    simp only [List.map_cons, applySetsSeg_cons]
    rw [setSeg_obj_cons, objSetPath_mem m k p v hm]
    rw [ih (objMapAt m k (fun w => setSeg w p v))
      (by rw [keysOf_objMapAt]; exact hm)]
    rw [objMapAt_objMapAt]

/-- Removals below one object key localize to that key (no key-presence
assumption: both sides are no-ops on an absent key). -/
theorem applyRemSegF_obj_key (k : String) :
    ∀ (srs : List (List String)) (m : List (String × Val)), (∀ p ∈ srs, p ≠ []) →
    applyRemSegF (.obj m) (srs.map (fun p => k :: p)) =
      .obj (objMapAt m k (fun u => applyRemSegF u srs)) := by
  intro srs
  induction srs with
  | nil =>
    intro m _
    simp [applyRemSegF, objMapAt_id]
  | cons p rest ih =>
    intro m hne
    cases p with
    | nil => exact absurd rfl (hne [] (List.mem_cons_self _ _))
    | cons s p2 =>
      simp only [List.map_cons, applyRemSegF_cons]
      rw [unsetSeg_obj_cons, objUnsetPath_eq]
      rw [ih (objMapAt m k (fun w => unsetSeg w (s :: p2)))
        (fun q hq => hne q (List.mem_cons_of_mem _ hq))]
      rw [objMapAt_objMapAt]

/-- Assignments below one array index localize to that index. -/
theorem applySetsSeg_arr_idx (i : Nat) :
    ∀ (sas : List (List String × Val)) (xs : List Val), i < xs.length →
    applySetsSeg (.arr xs) (sas.map (fun pv => (decStr i :: pv.1, pv.2))) =
      .arr (listMapAt xs i (fun u => applySetsSeg u sas)) := by
  intro sas
  induction sas with
  | nil =>
    intro xs _
    simp [applySetsSeg, listMapAt_id]
  | cons pv rest ih =>
    intro xs hi
    obtain ⟨p, v⟩ := pv
    simp only [List.map_cons, applySetsSeg_cons]
    rw [setSeg_arr_idx, arrSetPath_lt xs i p v hi]
    rw [ih (listMapAt xs i (fun w => setSeg w p v))
      (by rw [length_listMapAt]; exact hi)]
    rw [listMapAt_listMapAt]

/-- Removals below one array index localize to that index. -/
theorem applyRemSegF_arr_idx (i : Nat) :
    ∀ (srs : List (List String)) (xs : List Val), (∀ p ∈ srs, p ≠ []) →
    applyRemSegF (.arr xs) (srs.map (fun p => decStr i :: p)) =
      .arr (listMapAt xs i (fun u => applyRemSegF u srs)) := by
  intro srs
  induction srs with
  | nil =>
    intro xs _
    simp [applyRemSegF, listMapAt_id]
  | cons p rest ih =>
    intro xs hne
    cases p with
    | nil => exact absurd rfl (hne [] (List.mem_cons_self _ _))
    | cons s p2 =>
      simp only [List.map_cons, applyRemSegF_cons]
      rw [unsetSeg_arr_cons, arrUnsetPath_eq]
      rw [ih (listMapAt xs i (fun w => unsetSeg w (s :: p2)))
        (fun q hq => hne q (List.mem_cons_of_mem _ hq))]
      rw [listMapAt_listMapAt]

/-! ### Membership shape of diff outputs -/

theorem diffVal_shift_nil (p : List String) (a b : Val) :
    diffVal filterUpdatedProperties p a b =
      (diffVal filterUpdatedProperties [] a b).map (shiftC p) := by
  have := diffVal_shift p [] a b
  rwa [List.append_nil] at this

theorem mem_diffObjAdd {p : List String} {l : List (String × Val)} {c : Change} :
    ∀ {r : List (String × Val)}, c ∈ diffObjAdd filterUpdatedProperties p l r →
    ∃ k w, (k, w) ∈ r ∧
      ((lookupKey l k = none ∧ c = newChange (p ++ [k]) w) ∨
       (∃ v c', lookupKey l k = some v ∧ c' ∈ diffVal filterUpdatedProperties [] v w ∧
         c = shiftC (p ++ [k]) c')) := by
  intro r
  induction r with
  | nil => intro h; simp [diffObjAdd] at h
  | cons hd rest ih =>
    obtain ⟨k, w⟩ := hd
    intro h
    simp only [diffObjAdd, filterUpdatedProperties, Bool.false_eq_true, if_false,
      List.mem_append] at h
    rcases h with h | h
    · refine ⟨k, w, List.mem_cons_self _ _, ?_⟩
      cases hlk : lookupKey l k with
      | none =>
        simp only [hlk] at h
        simp only [List.mem_singleton] at h
        exact Or.inl ⟨rfl, h⟩
      | some v =>
        simp only [hlk] at h
        rw [diffVal_shift_nil (p ++ [k]) v w] at h
        obtain ⟨c', hc', rfl⟩ := List.mem_map.mp h
        exact Or.inr ⟨v, c', rfl, hc', rfl⟩
    · obtain ⟨k2, w2, hmem, hrest⟩ := ih h
      exact ⟨k2, w2, List.mem_cons_of_mem _ hmem, hrest⟩

theorem mem_diffObjDel {p : List String} {r : List (String × Val)} {c : Change} :
    ∀ {l : List (String × Val)}, c ∈ diffObjDel filterUpdatedProperties p l r →
    ∃ k v, (k, v) ∈ l ∧ lookupKey r k = none ∧ c = delChange (p ++ [k]) v := by
  intro l
  induction l with
  | nil => intro h; simp [diffObjDel] at h
  | cons hd rest ih =>
    obtain ⟨k, v⟩ := hd
    intro h
    simp only [diffObjDel, filterUpdatedProperties, Bool.false_eq_true, if_false,
      List.mem_append] at h
    rcases h with h | h
    · cases hlk : lookupKey r k with
      | none =>
        simp only [hlk] at h
        simp only [List.mem_singleton] at h
        exact ⟨k, v, List.mem_cons_self _ _, hlk, h⟩
      | some w =>
        simp only [hlk] at h
        simp at h
    · obtain ⟨k2, v2, hmem, hrest⟩ := ih h
      exact ⟨k2, v2, List.mem_cons_of_mem _ hmem, hrest⟩

theorem mem_diffArrDel {p : List String} {c : Change} :
    ∀ {l : List Val} {i : Nat}, c ∈ diffArrDel p i l →
    ∃ j v, i ≤ j ∧ j < i + l.length ∧ c = arrDelChange p j v := by
  intro l
  induction l with
  | nil => intro i h; simp [diffArrDel] at h
  | cons v rest ih =>
    intro i h
    simp only [diffArrDel, List.mem_cons] at h
    rcases h with rfl | h
    · exact ⟨i, v, le_rfl, by simp, rfl⟩
    · obtain ⟨j, v2, hij, hlt, rfl⟩ := ih h
      exact ⟨j, v2, by omega, by simp only [List.length_cons]; omega, rfl⟩

theorem mem_diffArr {p : List String} {c : Change} :
    ∀ {l r : List Val} {i : Nat}, c ∈ diffArr filterUpdatedProperties p i l r →
    (∃ j w, i ≤ j ∧ c = arrAddChange p j w) ∨
    (∃ j v, i ≤ j ∧ c = arrDelChange p j v) ∨
    (∃ j v w c', i ≤ j ∧ c' ∈ diffVal filterUpdatedProperties [] v w ∧
      c = shiftC (p ++ [decStr j]) c') := by
  intro l
  induction l with
  | nil =>
    intro r
    induction r with
    | nil => intro i h; simp [diffArr] at h
    | cons w rest ihr =>
      intro i h
      simp only [diffArr, List.mem_cons] at h
      rcases h with rfl | h
      · exact Or.inl ⟨i, w, le_rfl, rfl⟩
      · rcases ihr h with ⟨j, w2, hij, rfl⟩ | h2 | ⟨j, v2, w2, c', hij, hc', rfl⟩
        · exact Or.inl ⟨j, w2, by omega, rfl⟩
        · obtain ⟨j, v2, hij, rfl⟩ := h2
          exact Or.inr (Or.inl ⟨j, v2, by omega, rfl⟩)
        · exact Or.inr (Or.inr ⟨j, v2, w2, c', by omega, hc', rfl⟩)
  | cons v lrest ihl =>
    intro r
    cases r with
    | nil =>
      intro i h
      simp only [diffArr] at h
      obtain ⟨j, v2, hij, hlt, rfl⟩ := mem_diffArrDel h
      exact Or.inr (Or.inl ⟨j, v2, hij, rfl⟩)
    | cons w rrest =>
      intro i h
      simp only [diffArr, filterUpdatedProperties, Bool.false_eq_true, if_false,
        List.mem_append] at h
      rcases h with h | h
      · rw [diffVal_shift_nil (p ++ [decStr i]) v w] at h
        obtain ⟨c', hc', rfl⟩ := List.mem_map.mp h
        exact Or.inr (Or.inr ⟨i, v, w, c', le_rfl, hc', rfl⟩)
      · rcases ihl h with ⟨j, w2, hij, rfl⟩ | h2 | ⟨j, v2, w2, c', hij, hc', rfl⟩
        · exact Or.inl ⟨j, w2, by omega, rfl⟩
        · obtain ⟨j, v2, hij, rfl⟩ := h2
          exact Or.inr (Or.inl ⟨j, v2, by omega, rfl⟩)
        · exact Or.inr (Or.inr ⟨j, v2, w2, c', by omega, hc', rfl⟩)

theorem fullSeg_mk_N (path : List String) (lhs rhs : Option Val) (index : Option Nat)
    (item : Option AItem) : fullSeg ⟨.N, path, lhs, rhs, index, item⟩ = path := by
  cases index <;> rfl

theorem fullSeg_mk_E (path : List String) (lhs rhs : Option Val) (index : Option Nat)
    (item : Option AItem) : fullSeg ⟨.E, path, lhs, rhs, index, item⟩ = path := by
  cases index <;> rfl

theorem fullSeg_mk_D (path : List String) (lhs rhs : Option Val) (index : Option Nat)
    (item : Option AItem) : fullSeg ⟨.D, path, lhs, rhs, index, item⟩ = path := by
  cases index <;> rfl

/-- Both extractors address exactly the record's full segment path. -/
theorem segAssign_path {c : Change} {pv : List String × Val}
    (h : segAssign c = some pv) : pv.1 = fullSeg c := by
  obtain ⟨kind, path, lhs, rhs, index, item⟩ := c
  cases kind with
  | N =>
    simp only [segAssign] at h
    obtain rfl := Option.some_inj.mp h
    rw [fullSeg_mk_N]
  | E =>
    simp only [segAssign] at h
    obtain rfl := Option.some_inj.mp h
    rw [fullSeg_mk_E]
  | D => exact absurd h (by simp [segAssign])
  | A =>
    simp only [segAssign] at h
    split at h
    · obtain rfl := Option.some_inj.mp h
      rfl
    · exact absurd h (by simp)

theorem segRemove_path {c : Change} {q : List String}
    (h : segRemove c = some q) : q = fullSeg c := by
  obtain ⟨kind, path, lhs, rhs, index, item⟩ := c
  cases kind with
  | N => exact absurd h (by simp [segRemove])
  | E => exact absurd h (by simp [segRemove])
  | D =>
    simp only [segRemove] at h
    obtain rfl := Option.some_inj.mp h
    rw [fullSeg_mk_D]
  | A =>
    simp only [segRemove] at h
    split at h
    · exact absurd h (by simp)
    · obtain rfl := Option.some_inj.mp h
      rfl

theorem fullSeg_newChange (p : List String) (w : Val) : fullSeg (newChange p w) = p := rfl

theorem fullSeg_delChange (p : List String) (v : Val) : fullSeg (delChange p v) = p := rfl

theorem fullSeg_editChange (p : List String) (a b : Val) : fullSeg (editChange p a b) = p := rfl

theorem fullSeg_arrAddChange (p : List String) (i : Nat) (w : Val) :
    fullSeg (arrAddChange p i w) = p ++ [decStr i] := rfl

theorem fullSeg_arrDelChange (p : List String) (i : Nat) (v : Val) :
    fullSeg (arrDelChange p i v) = p ++ [decStr i] := rfl

/-- Every record of the updated-keys walk addresses a path below one of the
updated object's keys. -/
theorem head_diffObjAdd {p : List String} {l r : List (String × Val)} {c : Change}
    (h : c ∈ diffObjAdd filterUpdatedProperties p l r) :
    ∃ k, k ∈ keysOf r ∧ ∃ q, fullSeg c = p ++ k :: q := by
  obtain ⟨k, w, hmem, hcase⟩ := mem_diffObjAdd h
  refine ⟨k, List.mem_map.mpr ⟨(k, w), hmem, rfl⟩, ?_⟩
  rcases hcase with ⟨_, rfl⟩ | ⟨v, c', _, _, rfl⟩
  · exact ⟨[], by simp [fullSeg_newChange]⟩
  · refine ⟨fullSeg c', ?_⟩
    rw [fullSeg_shiftC, List.append_assoc]
    rfl

/-- Every deletion record addresses exactly one original-only key. -/
theorem head_diffObjDel {p : List String} {l r : List (String × Val)} {c : Change}
    (h : c ∈ diffObjDel filterUpdatedProperties p l r) :
    ∃ k, k ∈ keysOf l ∧ lookupKey r k = none ∧ fullSeg c = p ++ [k] := by
  obtain ⟨k, v, hmem, hlk, rfl⟩ := mem_diffObjDel h
  exact ⟨k, List.mem_map.mpr ⟨(k, v), hmem, rfl⟩, hlk, fullSeg_delChange _ _⟩

/-- Every record of an array walk addresses a path below a decimal index. -/
theorem head_diffArr {p : List String} {l r : List Val} {i : Nat} {c : Change}
    (h : c ∈ diffArr filterUpdatedProperties p i l r) :
    ∃ j, i ≤ j ∧ ∃ q, fullSeg c = p ++ decStr j :: q := by
  rcases mem_diffArr h with ⟨j, w, hij, rfl⟩ | ⟨j, v, hij, rfl⟩ | ⟨j, v, w, c', hij, _, rfl⟩
  · exact ⟨j, hij, [], by simp [fullSeg_arrAddChange]⟩
  · exact ⟨j, hij, [], by simp [fullSeg_arrDelChange]⟩
  · refine ⟨j, hij, fullSeg c', ?_⟩
    rw [fullSeg_shiftC, List.append_assoc]
    rfl

theorem sizeOf_val_lt_of_mem_list {v : Val} {l : List Val} (h : v ∈ l) :
    sizeOf v < sizeOf (Val.arr l) := by
  have h1 : sizeOf v < sizeOf l := List.sizeOf_lt_of_mem h
  have h2 : sizeOf (Val.arr l) = 1 + sizeOf l := by simp
  omega

theorem sizeOf_val_lt_of_mem_pairs {k : String} {v : Val} {l : List (String × Val)}
    (h : (k, v) ∈ l) : sizeOf v < sizeOf (Val.obj l) := by
  have h1 : sizeOf (k, v) < sizeOf l := List.sizeOf_lt_of_mem h
  have h2 : sizeOf (k, v) = 1 + sizeOf k + sizeOf v := by simp
  have h3 : sizeOf (Val.obj l) = 1 + sizeOf l := by simp
  omega

theorem wfVal_of_mem_list {v : Val} {l : List Val} (hl : wfValList l = true) (h : v ∈ l) :
    wfVal v = true := by
  induction l with
  | nil => simp at h
  | cons w t ih =>
    simp only [wfValList, Bool.and_eq_true] at hl
    rcases List.mem_cons.mp h with rfl | h2
    · exact hl.1
    · exact ih hl.2 h2

theorem wfVal_of_mem_pairs {k : String} {v : Val} {l : List (String × Val)}
    (hl : wfValPairs l = true) (h : (k, v) ∈ l) : wfVal v = true := by
  induction l with
  | nil => simp at h
  | cons hd t ih =>
    obtain ⟨k1, w⟩ := hd
    simp only [wfValPairs, Bool.and_eq_true] at hl
    rcases List.mem_cons.mp h with heq | h2
    · rw [Prod.mk.injEq] at heq
      rw [heq.2]
      exact hl.1
    · exact ih hl.2 h2

theorem listNodupStr_iff_nodup {l : List String} : listNodupStr l = true ↔ l.Nodup := by
  induction l with
  | nil => simp [listNodupStr]
  | cons k t ih =>
    simp only [listNodupStr, Bool.and_eq_true, Bool.not_eq_true', List.nodup_cons, ih]
    constructor
    · rintro ⟨h1, h2⟩
      exact ⟨contains_false_not_mem h1, h2⟩
    · rintro ⟨h1, h2⟩
      exact ⟨contains_eq_false_of_not_mem h1, h2⟩

theorem sizeOf_val_pos (v : Val) : 1 ≤ sizeOf v := by
  cases v <;> simp <;> omega

/-- Any diff pair falling into the differencer's catch-all produces zero or
one record, whose paths are trivially distinct. -/
theorem nodup_catchall (a b : Val)
    (h : diffVal filterUpdatedProperties [] a b =
      (if beqVal a b then [] else [editChange [] a b])) :
    ((cs0 a b).map fullSeg).Nodup := by
  unfold cs0
  rw [h]
  cases beqVal a b <;> simp

theorem nodup_fullSeg_arrDel (p : List String) :
    ∀ (l : List Val) (i : Nat), ((diffArrDel p i l).map fullSeg).Nodup := by
  intro l
  induction l with
  | nil => intro i; simp [diffArrDel]
  | cons v t ih =>
    intro i
    simp only [diffArrDel, List.map_cons, List.nodup_cons]
    refine ⟨?_, ih (i + 1)⟩
    intro hmem
    obtain ⟨c2, hc2, heq⟩ := List.mem_map.mp hmem
    obtain ⟨j, v2, hij, _, rfl⟩ := mem_diffArrDel hc2
    rw [fullSeg_arrDelChange, fullSeg_arrDelChange] at heq
    have hj : decStr j = decStr i := by
      have := List.append_cancel_left heq
      simpa using this
    have := decStr_injective hj
    omega

theorem nodup_fullSeg_objDel (p : List String) (r : List (String × Val)) :
    ∀ (l : List (String × Val)), (keysOf l).Nodup →
    ((diffObjDel filterUpdatedProperties p l r).map fullSeg).Nodup := by
  intro l
  induction l with
  | nil => simp [diffObjDel]
  | cons hd t ih =>
    obtain ⟨k, v⟩ := hd
    intro hnd
    simp only [keysOf, List.map_cons, List.nodup_cons] at hnd
    simp only [diffObjDel, filterUpdatedProperties, Bool.false_eq_true, if_false]
    rw [List.map_append, List.nodup_append]
    refine ⟨?_, ih hnd.2, ?_⟩
    · cases hlk : lookupKey r k <;> simp
    · intro x hx hx2
      obtain ⟨c, hc, rfl⟩ := List.mem_map.mp hx
      obtain ⟨c2, hc2, heq⟩ := List.mem_map.mp hx2
      obtain ⟨k2, hk2, _, hfq2⟩ := head_diffObjDel hc2
      have hck : fullSeg c = p ++ [k] := by
        cases hlk : lookupKey r k with
        | none =>
          simp only [hlk] at hc
          simp only [List.mem_singleton] at hc
          rw [hc, fullSeg_delChange]
        | some w =>
          simp only [hlk] at hc
          simp at hc
      rw [hfq2, hck] at heq
      have := List.append_cancel_left heq
      injection this with hkk _
      exact hnd.1 (hkk ▸ hk2)

theorem nodup_fullSeg_objAdd (p : List String) (l : List (String × Val)) :
    ∀ (r : List (String × Val)), (keysOf r).Nodup →
    (∀ k v w, lookupKey l k = some v → (k, w) ∈ r → ((cs0 v w).map fullSeg).Nodup) →
    ((diffObjAdd filterUpdatedProperties p l r).map fullSeg).Nodup := by
  intro r
  induction r with
  | nil => intro _ _; simp [diffObjAdd]
  | cons hd rest ihr =>
    obtain ⟨k, w⟩ := hd
    intro hnd REC
    simp only [keysOf, List.map_cons, List.nodup_cons] at hnd
    simp only [diffObjAdd, filterUpdatedProperties, Bool.false_eq_true, if_false]
    rw [List.map_append, List.nodup_append]
    refine ⟨?_,
      ihr hnd.2 (fun k2 v2 w2 hl2 hm2 => REC k2 v2 w2 hl2 (List.mem_cons_of_mem _ hm2)), ?_⟩
    · cases hlk : lookupKey l k with
      | none => simp
      | some v =>
        show ((diffVal filterUpdatedProperties (p ++ [k]) v w).map fullSeg).Nodup
        rw [diffVal_shift_nil (p ++ [k]) v w, List.map_map]
        have hcomp : (fullSeg ∘ shiftC (p ++ [k])) =
            (fun q => (p ++ [k]) ++ q) ∘ fullSeg := by
          funext c
          exact fullSeg_shiftC _ c
        rw [hcomp, ← List.map_map]
        apply List.Nodup.map
        · intro x y hxy
          exact List.append_cancel_left hxy
        · exact REC k v w hlk (List.mem_cons_self _ _)
    · intro x hx hx2
      obtain ⟨c, hc, rfl⟩ := List.mem_map.mp hx
      obtain ⟨c2, hc2, heq⟩ := List.mem_map.mp hx2
      obtain ⟨k2, hk2, q2, hfq2⟩ := head_diffObjAdd hc2
      have hhead : ∃ q, fullSeg c = p ++ k :: q := by
        cases hlk : lookupKey l k with
        | none =>
          simp only [hlk] at hc
          simp only [List.mem_singleton] at hc
          exact ⟨[], by rw [hc, fullSeg_newChange]⟩
        | some v =>
          simp only [hlk] at hc
          rw [diffVal_shift_nil (p ++ [k]) v w] at hc
          obtain ⟨c', hc', rfl⟩ := List.mem_map.mp hc
          refine ⟨fullSeg c', ?_⟩
          rw [fullSeg_shiftC, List.append_assoc]
          rfl
      obtain ⟨q, hq⟩ := hhead
      rw [hfq2, hq] at heq
      have := List.append_cancel_left heq
      injection this with hkk _
      exact hnd.1 (hkk ▸ hk2)

theorem nodup_fullSeg_arr (p : List String) :
    ∀ (l r : List Val) (i : Nat),
    (∀ v w, v ∈ l → w ∈ r → ((cs0 v w).map fullSeg).Nodup) →
    ((diffArr filterUpdatedProperties p i l r).map fullSeg).Nodup := by
  intro l
  induction l with
  | nil =>
    intro r
    induction r with
    | nil => intro i _; simp [diffArr]
    | cons w rest ihr =>
      intro i REC
      simp only [diffArr, List.map_cons, List.nodup_cons]
      refine ⟨?_, ihr (i + 1) (fun v w2 hv _ => absurd hv (by simp))⟩
      intro hmem
      obtain ⟨c2, hc2, heq⟩ := List.mem_map.mp hmem
      obtain ⟨j, hij, q2, hfq⟩ := head_diffArr hc2
      rw [hfq, fullSeg_arrAddChange] at heq
      have h2 := List.append_cancel_left heq
      injection h2 with hdd _
      have := decStr_injective hdd
      omega
  | cons v lrest ihl =>
    intro r
    cases r with
    | nil =>
      intro i _
      exact nodup_fullSeg_arrDel p (v :: lrest) i
    | cons w rest =>
      intro i REC
      simp only [diffArr, filterUpdatedProperties, Bool.false_eq_true, if_false]
      rw [List.map_append, List.nodup_append]
      refine ⟨?_, ihl rest (i + 1)
        (fun v2 w2 hv hw => REC v2 w2 (List.mem_cons_of_mem _ hv) (List.mem_cons_of_mem _ hw)), ?_⟩
      · rw [diffVal_shift_nil (p ++ [decStr i]) v w, List.map_map]
        have hcomp : (fullSeg ∘ shiftC (p ++ [decStr i])) =
            (fun q => (p ++ [decStr i]) ++ q) ∘ fullSeg := by
          funext c
          exact fullSeg_shiftC _ c
        rw [hcomp, ← List.map_map]
        apply List.Nodup.map
        · intro x y hxy
          exact List.append_cancel_left hxy
        · exact REC v w (List.mem_cons_self _ _) (List.mem_cons_self _ _)
      · intro x hx hx2
        obtain ⟨c, hc, rfl⟩ := List.mem_map.mp hx
        obtain ⟨c2, hc2, heq⟩ := List.mem_map.mp hx2
        obtain ⟨j, hij, q2, hfq2⟩ := head_diffArr hc2
        rw [diffVal_shift_nil (p ++ [decStr i]) v w] at hc
        obtain ⟨c', hc', rfl⟩ := List.mem_map.mp hc
        have hq : fullSeg (shiftC (p ++ [decStr i]) c') = p ++ decStr i :: fullSeg c' := by
          rw [fullSeg_shiftC, List.append_assoc]
          rfl
        rw [hfq2, hq] at heq
        have h2 := List.append_cancel_left heq
        injection h2 with hdd _
        have := decStr_injective hdd
        omega

/-- All full segment paths of one diff run are pairwise distinct. -/
theorem nodup_fullSeg_cs0 : ∀ (n : Nat) (a b : Val), sizeOf a + sizeOf b ≤ n →
    wfVal a = true → wfVal b = true → ((cs0 a b).map fullSeg).Nodup := by
  intro n
  induction n with
  | zero =>
    intro a b h _ _
    have h1 := sizeOf_val_pos a
    have h2 := sizeOf_val_pos b
    omega
  | succ n ih =>
    intro a b hsz hwa hwb
    cases a with
    | prim s => cases b <;> exact nodup_catchall _ _ rfl
    | date s => cases b <;> exact nodup_catchall _ _ rfl
    | arr l =>
      cases b with
      | prim t => exact nodup_catchall _ _ rfl
      | date t => exact nodup_catchall _ _ rfl
      | obj r => exact nodup_catchall _ _ rfl
      | arr r =>
        show ((diffArr filterUpdatedProperties [] 0 l r).map fullSeg).Nodup
        apply nodup_fullSeg_arr
        intro v w hv hw
        have hsv := sizeOf_val_lt_of_mem_list hv
        have hsw := sizeOf_val_lt_of_mem_list hw
        exact ih v w (by omega) (wfVal_of_mem_list (by simpa [wfVal] using hwa) hv)
          (wfVal_of_mem_list (by simpa [wfVal] using hwb) hw)
    | obj l =>
      cases b with
      | prim t => exact nodup_catchall _ _ rfl
      | date t => exact nodup_catchall _ _ rfl
      | arr r => exact nodup_catchall _ _ rfl
      | obj r =>
        simp only [wfVal, Bool.and_eq_true] at hwa hwb
        show (((diffObjAdd filterUpdatedProperties [] l r ++
          diffObjDel filterUpdatedProperties [] l r)).map fullSeg).Nodup
        rw [List.map_append, List.nodup_append]
        refine ⟨?_, nodup_fullSeg_objDel [] r l (listNodupStr_iff_nodup.mp hwa.1), ?_⟩
        · apply nodup_fullSeg_objAdd [] l r (listNodupStr_iff_nodup.mp hwb.1)
          intro k v w hlk hmem
          have hv : (k, v) ∈ l := mem_of_lookupKey hlk
          have hsv := sizeOf_val_lt_of_mem_pairs hv
          have hsw := sizeOf_val_lt_of_mem_pairs hmem
          exact ih v w (by omega) (wfVal_of_mem_pairs hwa.2 hv) (wfVal_of_mem_pairs hwb.2 hmem)
        · intro x hx hx2
          obtain ⟨c, hc, rfl⟩ := List.mem_map.mp hx
          obtain ⟨c2, hc2, heq⟩ := List.mem_map.mp hx2
          obtain ⟨k, hk, q, hfq⟩ := head_diffObjAdd hc
          obtain ⟨k2, _, hlk2, hfq2⟩ := head_diffObjDel hc2
          rw [hfq2, hfq] at heq
          have h2 := List.append_cancel_left heq
          injection h2 with hkk _
          rw [lookupKey_eq_none_iff] at hlk2
          exact hlk2 (hkk ▸ hk)

/-! ### Structure of the assignments and removals of one diff run -/

/-- The keys of the original object absent from the updated one. -/
def removedKeys (l r : List (String × Val)) : List String :=
  l.filterMap (fun kv => match lookupKey r kv.1 with | some _ => none | none => some kv.1)

theorem mem_removedKeys (r : List (String × Val)) (k : String) :
    ∀ (l : List (String × Val)),
    (k ∈ removedKeys l r ↔ (k ∈ keysOf l ∧ lookupKey r k = none)) := by
  intro l
  induction l with
  | nil => simp [removedKeys, keysOf]
  | cons hd t ih =>
    obtain ⟨k1, v⟩ := hd
    cases hlk : lookupKey r k1 with
    | none =>
      have hstep : removedKeys ((k1, v) :: t) r = k1 :: removedKeys t r := by
        simp [removedKeys, List.filterMap_cons, hlk]
      rw [hstep]
      simp only [List.mem_cons, keysOf, List.map_cons, ih]
      constructor
      · rintro (rfl | ⟨hm, hn⟩)
        · exact ⟨Or.inl rfl, hlk⟩
        · exact ⟨Or.inr hm, hn⟩
      · rintro ⟨(rfl | hm), hn⟩
        · exact Or.inl rfl
        · exact Or.inr ⟨hm, hn⟩
    | some w =>
      have hstep : removedKeys ((k1, v) :: t) r = removedKeys t r := by
        simp [removedKeys, List.filterMap_cons, hlk]
      rw [hstep, ih]
      simp only [keysOf, List.map_cons, List.mem_cons]
      constructor
      · rintro ⟨hm, hn⟩
        exact ⟨Or.inr hm, hn⟩
      · rintro ⟨(rfl | hm), hn⟩
        · rw [hn] at hlk
          cases hlk
        · exact ⟨hm, hn⟩

theorem segAssignments_objDel (p : List String) (l r : List (String × Val)) :
    segAssignments (diffObjDel filterUpdatedProperties p l r) = [] := by
  rw [segAssignments, List.filterMap_eq_nil_iff]
  intro c hc
  obtain ⟨k, v, _, _, rfl⟩ := mem_diffObjDel hc
  rfl

theorem segRemovals_objDel (p : List String) (r : List (String × Val)) :
    ∀ (l : List (String × Val)),
    segRemovals (diffObjDel filterUpdatedProperties p l r) =
      (removedKeys l r).map (fun k => p ++ [k]) := by
  intro l
  induction l with
  | nil => rfl
  | cons hd t ih =>
    obtain ⟨k1, v⟩ := hd
    cases hlk : lookupKey r k1 with
    | some w =>
      simp only [diffObjDel, filterUpdatedProperties, Bool.false_eq_true, if_false, hlk,
        List.nil_append]
      rw [ih]
      have hstep : removedKeys ((k1, v) :: t) r = removedKeys t r := by
        simp [removedKeys, List.filterMap_cons, hlk]
      rw [hstep]
    | none =>
      simp only [diffObjDel, filterUpdatedProperties, Bool.false_eq_true, if_false, hlk]
      rw [segRemovals_append, ih]
      have hstep : removedKeys ((k1, v) :: t) r = k1 :: removedKeys t r := by
        simp [removedKeys, List.filterMap_cons, hlk]
      rw [hstep, List.map_cons]
      rfl

theorem segAssignments_arrDel (p : List String) (i : Nat) (l : List Val) :
    segAssignments (diffArrDel p i l) = [] := by
  rw [segAssignments, List.filterMap_eq_nil_iff]
  intro c hc
  obtain ⟨j, v, _, _, rfl⟩ := mem_diffArrDel hc
  rfl

theorem segRemovals_arrDel (p : List String) :
    ∀ (l : List Val) (i : Nat),
    segRemovals (diffArrDel p i l) =
      (List.range l.length).map (fun j => p ++ [decStr (i + j)]) := by
  intro l
  induction l with
  | nil => intro i; rfl
  | cons v t ih =>
    intro i
    have h1 : segRemovals (diffArrDel p i (v :: t)) =
        (p ++ [decStr i]) :: segRemovals (diffArrDel p (i + 1) t) := rfl
    have hfn : ((fun j => p ++ [decStr (i + j)]) ∘ Nat.succ) =
        (fun j => p ++ [decStr (i + 1 + j)]) := by
      funext j
      show p ++ [decStr (i + Nat.succ j)] = p ++ [decStr (i + 1 + j)]
      have h2 : i + Nat.succ j = i + 1 + j := by omega
      rw [h2]
    rw [h1, ih (i + 1), List.length_cons, List.range_succ_eq_map, List.map_cons, List.map_map]
    rw [hfn]
    norm_num

theorem segRemovals_arrAdds (p : List String) :
    ∀ (r : List Val) (i : Nat),
    segRemovals (diffArr filterUpdatedProperties p i [] r) = [] := by
  intro r
  induction r with
  | nil => intro i; rfl
  | cons w t ih =>
    intro i
    show segRemovals (arrAddChange p i w :: diffArr filterUpdatedProperties p (i + 1) [] t) = []
    have h1 : segRemove (arrAddChange p i w) = none := rfl
    simp only [segRemovals, List.filterMap_cons, h1]
    exact ih (i + 1)

theorem segAssignments_objAdd_cons (l : List (String × Val)) (k : String) (w : Val)
    (rest : List (String × Val)) :
    segAssignments (diffObjAdd filterUpdatedProperties [] l ((k, w) :: rest)) =
      (match lookupKey l k with
       | some v => (segAssignments (cs0 v w)).map (fun pv => (k :: pv.1, pv.2))
       | none => [([k], w)]) ++
      segAssignments (diffObjAdd filterUpdatedProperties [] l rest) := by
  simp only [diffObjAdd, filterUpdatedProperties, Bool.false_eq_true, if_false]
  rw [segAssignments_append]
  congr 1
  cases hlk : lookupKey l k with
  | none => rfl
  | some v =>
    show segAssignments (diffVal filterUpdatedProperties ([] ++ [k]) v w) =
      (segAssignments (cs0 v w)).map (fun pv => (k :: pv.1, pv.2))
    rw [diffVal_shift_nil ([] ++ [k]) v w, segAssignments_shift]
    rfl

theorem segRemovals_objAdd_cons (l : List (String × Val)) (k : String) (w : Val)
    (rest : List (String × Val)) :
    segRemovals (diffObjAdd filterUpdatedProperties [] l ((k, w) :: rest)) =
      (match lookupKey l k with
       | some v => (segRemovals (cs0 v w)).map (fun q => k :: q)
       | none => []) ++
      segRemovals (diffObjAdd filterUpdatedProperties [] l rest) := by
  simp only [diffObjAdd, filterUpdatedProperties, Bool.false_eq_true, if_false]
  rw [segRemovals_append]
  congr 1
  cases hlk : lookupKey l k with
  | none => rfl
  | some v =>
    show segRemovals (diffVal filterUpdatedProperties ([] ++ [k]) v w) =
      (segRemovals (cs0 v w)).map (fun q => k :: q)
    rw [diffVal_shift_nil ([] ++ [k]) v w, segRemovals_shift]
    rfl

theorem segAssignments_arr_cons (i : Nat) (v w : Val) (l r : List Val) :
    segAssignments (diffArr filterUpdatedProperties [] i (v :: l) (w :: r)) =
      (segAssignments (cs0 v w)).map (fun pv => (decStr i :: pv.1, pv.2)) ++
      segAssignments (diffArr filterUpdatedProperties [] (i + 1) l r) := by
  simp only [diffArr, filterUpdatedProperties, Bool.false_eq_true, if_false]
  rw [segAssignments_append]
  congr 1
  rw [diffVal_shift_nil ([] ++ [decStr i]) v w, segAssignments_shift]
  rfl

theorem segRemovals_arr_cons (i : Nat) (v w : Val) (l r : List Val) :
    segRemovals (diffArr filterUpdatedProperties [] i (v :: l) (w :: r)) =
      (segRemovals (cs0 v w)).map (fun q => decStr i :: q) ++
      segRemovals (diffArr filterUpdatedProperties [] (i + 1) l r) := by
  simp only [diffArr, filterUpdatedProperties, Bool.false_eq_true, if_false]
  rw [segRemovals_append]
  congr 1
  rw [diffVal_shift_nil ([] ++ [decStr i]) v w, segRemovals_shift]
  rfl

theorem segAssignments_arr_add (i : Nat) (w : Val) (r : List Val) :
    segAssignments (diffArr filterUpdatedProperties [] i [] (w :: r)) =
      ([decStr i], w) :: segAssignments (diffArr filterUpdatedProperties [] (i + 1) [] r) := by
  show segAssignments (arrAddChange [] i w :: diffArr filterUpdatedProperties [] (i + 1) [] r) = _
  have h1 : segAssign (arrAddChange [] i w) = some ([decStr i], w) := rfl
  simp only [segAssignments, List.filterMap_cons, h1]

/-! ### Removing root keys: `objRemove` folds -/

theorem lookupKey_objRemove_ne {α : Type} (l : List (String × α)) (k k2 : String)
    (h : k2 ≠ k) : lookupKey (objRemove l k) k2 = lookupKey l k2 := by
  induction l with
  | nil => rfl
  | cons hd t ih =>
    obtain ⟨k1, w⟩ := hd
    by_cases hk : k = k1
    · subst hk
      simp [objRemove, lookupKey, h]
    · by_cases hk2 : k2 = k1 <;> simp [objRemove, lookupKey, hk, hk2, ih]

theorem lookupKey_objRemove_self {α : Type} (l : List (String × α)) (k : String)
    (hnd : (keysOf l).Nodup) : lookupKey (objRemove l k) k = none := by
  induction l with
  | nil => rfl
  | cons hd t ih =>
    obtain ⟨k1, w⟩ := hd
    simp only [keysOf, List.map_cons, List.nodup_cons] at hnd
    by_cases hk : k = k1
    · subst hk
      simp only [objRemove, if_true]
      exact lookupKey_eq_none_iff.mpr hnd.1
    · simp [objRemove, lookupKey, hk, ih hnd.2]

theorem keysOf_objRemove_sublist {α : Type} (l : List (String × α)) (k : String) :
    (keysOf (objRemove l k)).Sublist (keysOf l) := by
  induction l with
  | nil => simp [objRemove, keysOf]
  | cons hd t ih =>
    obtain ⟨k1, w⟩ := hd
    by_cases hk : k = k1
    · simp only [objRemove, hk, if_true, keysOf, List.map_cons]
      exact List.sublist_cons_self _ _
    · simp only [objRemove, hk, if_false, keysOf, List.map_cons]
      exact List.Sublist.cons₂ _ ih

theorem nodup_keysOf_objRemove {α : Type} (l : List (String × α)) (k : String)
    (h : (keysOf l).Nodup) : (keysOf (objRemove l k)).Nodup :=
  List.Nodup.sublist (keysOf_objRemove_sublist l k) h

theorem nodup_foldl_objRemove : ∀ (ks : List String) (m : List (String × Val)),
    (keysOf m).Nodup → (keysOf (ks.foldl objRemove m)).Nodup := by
  intro ks
  induction ks with
  | nil => intro m h; exact h
  | cons k t ih =>
    intro m h
    exact ih (objRemove m k) (nodup_keysOf_objRemove m k h)

theorem lookup_foldl_objRemove : ∀ (ks : List String) (m : List (String × Val)) (k : String),
    (keysOf m).Nodup →
    lookupKey (ks.foldl objRemove m) k = if k ∈ ks then none else lookupKey m k := by
  intro ks
  induction ks with
  | nil => intro m k _; simp
  | cons k1 t ih =>
    intro m k h
    rw [List.foldl_cons, ih (objRemove m k1) k (nodup_keysOf_objRemove m k1 h)]
    by_cases hk : k = k1
    · subst hk
      simp only [List.mem_cons, true_or, if_true]
      by_cases hmem : k ∈ t
      · simp [hmem]
      · simp [hmem, lookupKey_objRemove_self m k h]
    · simp only [List.mem_cons, hk, false_or]
      by_cases hmem : k ∈ t
      · simp [hmem]
      · simp [hmem, lookupKey_objRemove_ne m k1 k hk]

theorem applyRem_root_keys : ∀ (ks : List String) (m : List (String × Val)),
    applyRemSegF (.obj m) (ks.map (fun k => [k])) = .obj (ks.foldl objRemove m) := by
  intro ks
  induction ks with
  | nil => intro m; rfl
  | cons k t ih =>
    intro m
    rw [List.map_cons, applyRemSegF_cons, unsetSeg_obj_single, ih]
    rfl

theorem segAssignments_objAdd_cons_none (l : List (String × Val)) (k : String) (w : Val)
    (rest : List (String × Val)) (hlk : lookupKey l k = none) :
    segAssignments (diffObjAdd filterUpdatedProperties [] l ((k, w) :: rest)) =
      ([k], w) :: segAssignments (diffObjAdd filterUpdatedProperties [] l rest) := by
  rw [segAssignments_objAdd_cons, hlk]
  rfl

theorem segAssignments_objAdd_cons_some (l : List (String × Val)) (k : String) (w : Val)
    (rest : List (String × Val)) (v : Val) (hlk : lookupKey l k = some v) :
    segAssignments (diffObjAdd filterUpdatedProperties [] l ((k, w) :: rest)) =
      (segAssignments (cs0 v w)).map (fun pv => (k :: pv.1, pv.2)) ++
      segAssignments (diffObjAdd filterUpdatedProperties [] l rest) := by
  rw [segAssignments_objAdd_cons, hlk]

theorem segRemovals_objAdd_cons_none (l : List (String × Val)) (k : String) (w : Val)
    (rest : List (String × Val)) (hlk : lookupKey l k = none) :
    segRemovals (diffObjAdd filterUpdatedProperties [] l ((k, w) :: rest)) =
      segRemovals (diffObjAdd filterUpdatedProperties [] l rest) := by
  rw [segRemovals_objAdd_cons, hlk]
  rfl

theorem segRemovals_objAdd_cons_some (l : List (String × Val)) (k : String) (w : Val)
    (rest : List (String × Val)) (v : Val) (hlk : lookupKey l k = some v) :
    segRemovals (diffObjAdd filterUpdatedProperties [] l ((k, w) :: rest)) =
      (segRemovals (cs0 v w)).map (fun q => k :: q) ++
      segRemovals (diffObjAdd filterUpdatedProperties [] l rest) := by
  rw [segRemovals_objAdd_cons, hlk]

/-! ### Every removal path of a diff run is nonempty -/

theorem segRemove_catchall (a b : Val) {c : Change} {q : List String}
    (h : cs0 a b = (if beqVal a b then [] else [editChange [] a b]))
    (hc : c ∈ cs0 a b) (hq : segRemove c = some q) : False := by
  rw [h] at hc
  cases hbeq : beqVal a b with
  | true =>
    rw [hbeq] at hc
    simp at hc
  | false =>
    rw [hbeq] at hc
    simp only [Bool.false_eq_true, if_false, List.mem_singleton] at hc
    subst hc
    rw [segRemove_editChange] at hq
    cases hq

theorem segRemove_cs0_ne_nil (v w : Val) (c : Change) (q : List String)
    (hc : c ∈ cs0 v w) (hq : segRemove c = some q) : q ≠ [] := by
  have hfs : q = fullSeg c := segRemove_path hq
  subst hfs
  cases v with
  | prim s =>
    cases w with
    | prim t => exact (segRemove_catchall (.prim s) (.prim t) rfl hc hq).elim
    | date t => exact (segRemove_catchall (.prim s) (.date t) rfl hc hq).elim
    | arr t => exact (segRemove_catchall (.prim s) (.arr t) rfl hc hq).elim
    | obj t => exact (segRemove_catchall (.prim s) (.obj t) rfl hc hq).elim
  | date s =>
    cases w with
    | prim t => exact (segRemove_catchall (.date s) (.prim t) rfl hc hq).elim
    | date t => exact (segRemove_catchall (.date s) (.date t) rfl hc hq).elim
    | arr t => exact (segRemove_catchall (.date s) (.arr t) rfl hc hq).elim
    | obj t => exact (segRemove_catchall (.date s) (.obj t) rfl hc hq).elim
  | obj l =>
    cases w with
    | prim t => exact (segRemove_catchall (.obj l) (.prim t) rfl hc hq).elim
    | date t => exact (segRemove_catchall (.obj l) (.date t) rfl hc hq).elim
    | arr t => exact (segRemove_catchall (.obj l) (.arr t) rfl hc hq).elim
    | obj r =>
      have hc2 : c ∈ diffObjAdd filterUpdatedProperties [] l r ++
          diffObjDel filterUpdatedProperties [] l r := hc
      rcases List.mem_append.mp hc2 with h | h
      · obtain ⟨k, _, q2, hfq⟩ := head_diffObjAdd h
        rw [hfq]
        simp
      · obtain ⟨k, _, _, hfq⟩ := head_diffObjDel h
        rw [hfq]
        simp
  | arr l =>
    cases w with
    | prim t => exact (segRemove_catchall (.arr l) (.prim t) rfl hc hq).elim
    | date t => exact (segRemove_catchall (.arr l) (.date t) rfl hc hq).elim
    | obj t => exact (segRemove_catchall (.arr l) (.obj t) rfl hc hq).elim
    | arr r =>
      have hc2 : c ∈ diffArr filterUpdatedProperties [] 0 l r := hc
      obtain ⟨j, _, q2, hfq⟩ := head_diffArr hc2
      rw [hfq]
      simp

theorem segRemovals_cs0_ne_nil (v w : Val) : ∀ q ∈ segRemovals (cs0 v w), q ≠ [] := by
  intro q hq
  obtain ⟨c, hc, hqc⟩ := List.mem_filterMap.mp hq
  exact segRemove_cs0_ne_nil v w c q hc hqc

/-! ### The assignment phase on an object document -/

theorem phase1_obj (l : List (String × Val)) :
    ∀ (r m : List (String × Val)),
    (keysOf r).Nodup →
    (keysOf m).Nodup →
    (∀ k, k ∈ keysOf r → ((lookupKey m k).isSome = (lookupKey l k).isSome)) →
    ∃ m1 : List (String × Val),
      applySetsSeg (.obj m) (segAssignments (diffObjAdd filterUpdatedProperties [] l r)) =
        .obj m1 ∧
      (keysOf m1).Nodup ∧
      (∀ k, k ∉ keysOf r → lookupKey m1 k = lookupKey m k) ∧
      (∀ k w, (k, w) ∈ r → lookupKey l k = none → lookupKey m1 k = some w) ∧
      (∀ k w v, (k, w) ∈ r → lookupKey l k = some v →
        lookupKey m1 k = (lookupKey m k).map
          (fun u => applySetsSeg u (segAssignments (cs0 v w)))) := by
  intro r
  induction r with
  | nil =>
    intro m _ hndm _
    exact ⟨m, rfl, hndm, fun _ _ => rfl, fun k w h => absurd h (List.not_mem_nil _),
           fun k w v h => absurd h (List.not_mem_nil _)⟩
  | cons hd rest ih =>
    obtain ⟨k, w⟩ := hd
    intro m hndr hndm hpres
    simp only [keysOf, List.map_cons, List.nodup_cons] at hndr
    cases hlk : lookupKey l k with
    | none =>
      have hkm : k ∉ keysOf m := by
        intro hmem
        have h2 : (lookupKey m k).isSome = true := lookupKey_isSome_iff.mpr hmem
        have h3 := hpres k (List.mem_cons_self _ _)
        rw [hlk, h2] at h3
        simp at h3
      rw [segAssignments_objAdd_cons_none l k w rest hlk]
      have hstep : applySetsSeg (.obj m) [([k], w)] = .obj (m ++ [(k, w)]) := by
        show setSeg (Val.obj m) [k] w = Val.obj (m ++ [(k, w)])
        rw [setSeg_obj_cons, objSetPath_not_mem m k [] w hkm]
        rfl
      have hcons : applySetsSeg (Val.obj m)
          (([k], w) :: segAssignments (diffObjAdd filterUpdatedProperties [] l rest)) =
          applySetsSeg (.obj (m ++ [(k, w)]))
            (segAssignments (diffObjAdd filterUpdatedProperties [] l rest)) := by
        rw [applySetsSeg_cons]
        have : setSeg (Val.obj m) [k] w = Val.obj (m ++ [(k, w)]) := hstep
        rw [this]
      rw [hcons]
      have hndm' : (keysOf (m ++ [(k, w)])).Nodup := by
        have hkeq : keysOf (m ++ [(k, w)]) = keysOf m ++ [k] := by simp [keysOf]
        rw [hkeq, List.nodup_append]
        refine ⟨hndm, List.nodup_singleton _, ?_⟩
        intro a ha hb
        simp only [List.mem_singleton] at hb
        subst hb
        exact hkm ha
      have hpres' : ∀ k2, k2 ∈ keysOf rest →
          ((lookupKey (m ++ [(k, w)]) k2).isSome = (lookupKey l k2).isSome) := by
        intro k2 hk2
        have hne : k2 ≠ k := fun h => hndr.1 (h ▸ hk2)
        by_cases hmem : k2 ∈ keysOf m
        · rw [lookupKey_append_left hmem]
          exact hpres k2 (List.mem_cons_of_mem _ hk2)
        · rw [lookupKey_append_right hmem]
          have h1 : lookupKey [(k, w)] k2 = none := by simp [lookupKey, hne]
          rw [h1]
          have h2 : lookupKey m k2 = none := lookupKey_eq_none_iff.mpr hmem
          have h3 := hpres k2 (List.mem_cons_of_mem _ hk2)
          rw [h2] at h3
          exact h3
      obtain ⟨m1, heq, hnd1, hout1, hnew1, hcom1⟩ := ih (m ++ [(k, w)]) hndr.2 hndm' hpres'
      refine ⟨m1, heq, hnd1, ?_, ?_, ?_⟩
      · intro k2 hk2
        have hne : k2 ≠ k := fun h => hk2 (h ▸ List.mem_cons_self _ _)
        have hnr : k2 ∉ keysOf rest := fun h => hk2 (List.mem_cons_of_mem _ h)
        rw [hout1 k2 hnr]
        by_cases hmem : k2 ∈ keysOf m
        · rw [lookupKey_append_left hmem]
        · rw [lookupKey_append_right hmem, lookupKey_eq_none_iff.mpr hmem]
          simp [lookupKey, hne]
      · intro k2 w2 hmem hl2
        rcases List.mem_cons.mp hmem with heq2 | hmem2
        · rw [Prod.mk.injEq] at heq2
          obtain ⟨hk2, hw2⟩ := heq2
          subst hk2
          subst hw2
          rw [hout1 k2 hndr.1]
          rw [lookupKey_append_right hkm]
          simp [lookupKey]
        · exact hnew1 k2 w2 hmem2 hl2
      · intro k2 w2 v2 hmem hl2
        rcases List.mem_cons.mp hmem with heq2 | hmem2
        · rw [Prod.mk.injEq] at heq2
          rw [heq2.1] at hl2
          rw [hl2] at hlk
          cases hlk
        · have hne : k2 ≠ k := fun h => hndr.1 (h ▸ (List.mem_map.mpr ⟨(k2, w2), hmem2, rfl⟩))
          rw [hcom1 k2 w2 v2 hmem2 hl2]
          by_cases hmem3 : k2 ∈ keysOf m
          · rw [lookupKey_append_left hmem3]
          · rw [lookupKey_append_right hmem3, lookupKey_eq_none_iff.mpr hmem3]
            simp [lookupKey, hne]
    | some v =>
      have hkm : k ∈ keysOf m := by
        have h3 := hpres k (List.mem_cons_self _ _)
        rw [hlk] at h3
        exact lookupKey_isSome_iff.mp (by rw [h3]; rfl)
      rw [segAssignments_objAdd_cons_some l k w rest v hlk, applySetsSeg_append]
      rw [applySetsSeg_obj_key k (segAssignments (cs0 v w)) m hkm]
      have hndm' : (keysOf (objMapAt m k (fun u => applySetsSeg u (segAssignments (cs0 v w))))).Nodup := by
        rw [keysOf_objMapAt]
        exact hndm
      have hpres' : ∀ k2, k2 ∈ keysOf rest →
          ((lookupKey (objMapAt m k (fun u => applySetsSeg u (segAssignments (cs0 v w)))) k2).isSome =
            (lookupKey l k2).isSome) := by
        intro k2 hk2
        have hne : k2 ≠ k := fun h => hndr.1 (h ▸ hk2)
        rw [lookupKey_objMapAt_ne m k k2 _ hne]
        exact hpres k2 (List.mem_cons_of_mem _ hk2)
      obtain ⟨m1, heq, hnd1, hout1, hnew1, hcom1⟩ :=
        ih (objMapAt m k (fun u => applySetsSeg u (segAssignments (cs0 v w)))) hndr.2 hndm' hpres'
      refine ⟨m1, heq, hnd1, ?_, ?_, ?_⟩
      · intro k2 hk2
        have hne : k2 ≠ k := fun h => hk2 (h ▸ List.mem_cons_self _ _)
        have hnr : k2 ∉ keysOf rest := fun h => hk2 (List.mem_cons_of_mem _ h)
        rw [hout1 k2 hnr, lookupKey_objMapAt_ne m k k2 _ hne]
      · intro k2 w2 hmem hl2
        rcases List.mem_cons.mp hmem with heq2 | hmem2
        · rw [Prod.mk.injEq] at heq2
          rw [heq2.1] at hl2
          rw [hl2] at hlk
          cases hlk
        · exact hnew1 k2 w2 hmem2 hl2
      · intro k2 w2 v2 hmem hl2
        rcases List.mem_cons.mp hmem with heq2 | hmem2
        · rw [Prod.mk.injEq] at heq2
          obtain ⟨hk2, hw2⟩ := heq2
          subst hk2
          subst hw2
          have hv2 : v2 = v := by
            rw [hlk] at hl2
            exact (Option.some_inj.mp hl2).symm
          subst hv2
          rw [hout1 k2 hndr.1, lookupKey_objMapAt_self]
        · have hne : k2 ≠ k := fun h => hndr.1 (h ▸ (List.mem_map.mpr ⟨(k2, w2), hmem2, rfl⟩))
          rw [hcom1 k2 w2 v2 hmem2 hl2, lookupKey_objMapAt_ne m k k2 _ hne]

/-! ### The deep-removal phase on an object document -/

theorem phase3_obj (l : List (String × Val)) :
    ∀ (r m : List (String × Val)),
    (keysOf r).Nodup →
    ∃ m3 : List (String × Val),
      applyRemSegF (.obj m)
        ((segRemovals (diffObjAdd filterUpdatedProperties [] l r)).reverse) = .obj m3 ∧
      keysOf m3 = keysOf m ∧
      (∀ k, k ∉ keysOf r → lookupKey m3 k = lookupKey m k) ∧
      (∀ k, lookupKey l k = none → lookupKey m3 k = lookupKey m k) ∧
      (∀ k w v, (k, w) ∈ r → lookupKey l k = some v →
        lookupKey m3 k = (lookupKey m k).map
          (fun u => applyRemSegF u ((segRemovals (cs0 v w)).reverse))) := by
  intro r
  induction r with
  | nil =>
    exact fun m _ => ⟨m, rfl, rfl, fun _ _ => rfl, fun _ _ => rfl,
      fun k w v h => absurd h (List.not_mem_nil _)⟩
  | cons hd rest ih =>
    obtain ⟨k, w⟩ := hd
    intro m hndr
    simp only [keysOf, List.map_cons, List.nodup_cons] at hndr
    cases hlk : lookupKey l k with
    | none =>
      rw [segRemovals_objAdd_cons_none l k w rest hlk]
      obtain ⟨m3, heq, hkeys, hout, hnone, hcom⟩ := ih m hndr.2
      refine ⟨m3, heq, hkeys, ?_, hnone, ?_⟩
      · intro k2 hk2
        exact hout k2 (fun hmem => hk2 (List.mem_cons_of_mem _ hmem))
      · intro k2 w2 v2 hmem hl2
        rcases List.mem_cons.mp hmem with heq2 | hmem2
        · rw [Prod.mk.injEq] at heq2
          rw [heq2.1] at hl2
          rw [hl2] at hlk
          cases hlk
        · exact hcom k2 w2 v2 hmem2 hl2
    | some v =>
      rw [segRemovals_objAdd_cons_some l k w rest v hlk]
      rw [List.reverse_append, applyRemSegF_append]
      obtain ⟨m', heq', hkeys', hout', hnone', hcom'⟩ := ih m hndr.2
      rw [heq']
      have hrev : ((segRemovals (cs0 v w)).map (fun q => k :: q)).reverse =
          ((segRemovals (cs0 v w)).reverse).map (fun q => k :: q) := by
        rw [List.map_reverse]
      rw [hrev]
      rw [applyRemSegF_obj_key k ((segRemovals (cs0 v w)).reverse) m'
        (fun q hq => segRemovals_cs0_ne_nil v w q (List.mem_reverse.mp hq))]
      refine ⟨objMapAt m' k (fun u => applyRemSegF u ((segRemovals (cs0 v w)).reverse)),
        rfl, ?_, ?_, ?_, ?_⟩
      · rw [keysOf_objMapAt]
        exact hkeys'
      · intro k2 hk2
        have hne : k2 ≠ k := fun h => hk2 (h ▸ List.mem_cons_self _ _)
        have hnr : k2 ∉ keysOf rest := fun h => hk2 (List.mem_cons_of_mem _ h)
        rw [lookupKey_objMapAt_ne m' k k2 _ hne, hout' k2 hnr]
      · intro k2 hl2
        have hne : k2 ≠ k := by
          intro h
          rw [h] at hl2
          rw [hl2] at hlk
          cases hlk
        rw [lookupKey_objMapAt_ne m' k k2 _ hne, hnone' k2 hl2]
      · intro k2 w2 v2 hmem hl2
        rcases List.mem_cons.mp hmem with heq2 | hmem2
        · rw [Prod.mk.injEq] at heq2
          obtain ⟨hk2, hw2⟩ := heq2
          subst hk2
          subst hw2
          have hv2 : v2 = v := by
            rw [hlk] at hl2
            exact (Option.some_inj.mp hl2).symm
          subst hv2
          rw [lookupKey_objMapAt_self, hout' k2 hndr.1]
        · have hne : k2 ≠ k := fun h => hndr.1 (h ▸ (List.mem_map.mpr ⟨(k2, w2), hmem2, rfl⟩))
          rw [lookupKey_objMapAt_ne m' k k2 _ hne, hcom' k2 w2 v2 hmem2 hl2]

/-! ### The phases on an array document -/

/-- Per-index results of the assignment phase on an array document: elements at
common indices run their sub-diff's assignments, surplus updated elements are
appended as-is, surplus original elements are untouched. -/
def setPhaseList : List Val → List Val → List Val
  | v :: l, w :: r => applySetsSeg v (segAssignments (cs0 v w)) :: setPhaseList l r
  | [], r => r
  | l, [] => l

theorem setPhaseList_nil_left : ∀ r : List Val, setPhaseList [] r = r := by
  intro r
  cases r <;> rfl

theorem setPhaseList_nil_right : ∀ l : List Val, setPhaseList l [] = l := by
  intro l
  cases l <;> rfl

theorem setPhaseList_cons (v w : Val) (l r : List Val) :
    setPhaseList (v :: l) (w :: r) =
      applySetsSeg v (segAssignments (cs0 v w)) :: setPhaseList l r := rfl

theorem setPhaseList_length : ∀ (l r : List Val),
    (setPhaseList l r).length = max l.length r.length := by
  intro l
  induction l with
  | nil =>
    intro r
    rw [setPhaseList_nil_left]
    simp
  | cons v t ih =>
    intro r
    cases r with
    | nil =>
      rw [setPhaseList_nil_right]
      simp
    | cons w r' =>
      rw [setPhaseList_cons]
      simp only [List.length_cons, ih r']
      omega

theorem phase1_arr : ∀ (l r : List Val) (i : Nat) (xs : List Val), xs.length = i →
    applySetsSeg (.arr (xs ++ l)) (segAssignments (diffArr filterUpdatedProperties [] i l r)) =
      .arr (xs ++ setPhaseList l r) := by
  intro l
  induction l with
  | nil =>
    intro r
    induction r with
    | nil =>
      intro i xs _
      rfl
    | cons w r' ihr =>
      intro i xs hlen
      rw [segAssignments_arr_add, applySetsSeg_cons]
      have h1 : setSeg (.arr (xs ++ [])) [decStr i] w = .arr (xs ++ [w]) := by
        rw [List.append_nil, setSeg_arr_idx, ← hlen, arrSetPath_len]
      have hgoal : (([decStr i], w) : List String × Val).1 = [decStr i] := rfl
      rw [hgoal]
      have hgoal2 : (([decStr i], w) : List String × Val).2 = w := rfl
      rw [hgoal2, h1]
      have h2 := ihr (i + 1) (xs ++ [w]) (by simp [hlen])
      simp only [List.append_nil] at h2
      rw [h2, List.append_assoc]
      rw [setPhaseList_nil_left, setPhaseList_nil_left]
      rfl
  | cons v t ih =>
    intro r
    cases r with
    | nil =>
      intro i xs _
      show applySetsSeg (.arr (xs ++ v :: t)) (segAssignments (diffArrDel [] i (v :: t))) = _
      rw [segAssignments_arrDel, setPhaseList_nil_right]
      rfl
    | cons w r' =>
      intro i xs hlen
      rw [segAssignments_arr_cons, applySetsSeg_append]
      rw [applySetsSeg_arr_idx i (segAssignments (cs0 v w)) (xs ++ v :: t)
        (by simp only [List.length_append, List.length_cons]; omega)]
      rw [← hlen, listMapAt_append_mid]
      have h2 := ih r' (xs.length + 1)
        (xs ++ [applySetsSeg v (segAssignments (cs0 v w))]) (by simp)
      rw [show xs ++ applySetsSeg v (segAssignments (cs0 v w)) :: t =
          (xs ++ [applySetsSeg v (segAssignments (cs0 v w))]) ++ t from by
        rw [List.append_assoc]; rfl]
      rw [h2, setPhaseList_cons, List.append_assoc]
      rfl

/-- Deep removal paths below the common indices of an array walk. -/
def remCommon : List Val → List Val → Nat → List (List String)
  | v :: l, w :: r, i =>
    (segRemovals (cs0 v w)).map (fun q => decStr i :: q) ++ remCommon l r (i + 1)
  | _, _, _ => []

theorem remCommon_nil_left : ∀ (r : List Val) (i : Nat), remCommon [] r i = [] := by
  intro r i
  cases r <;> rfl

theorem remCommon_nil_right : ∀ (l : List Val) (i : Nat), remCommon l [] i = [] := by
  intro l i
  cases l <;> rfl

theorem remCommon_cons (v w : Val) (l r : List Val) (i : Nat) :
    remCommon (v :: l) (w :: r) i =
      (segRemovals (cs0 v w)).map (fun q => decStr i :: q) ++ remCommon l r (i + 1) := rfl

theorem segRemovals_diffArr : ∀ (l r : List Val) (i : Nat),
    segRemovals (diffArr filterUpdatedProperties [] i l r) =
      remCommon l r i ++
      (List.range (l.length - r.length)).map (fun j => [decStr (i + r.length + j)]) := by
  intro l
  induction l with
  | nil =>
    intro r i
    rw [segRemovals_arrAdds, remCommon_nil_left]
    simp
  | cons v t ih =>
    intro r i
    cases r with
    | nil =>
      show segRemovals (diffArrDel [] i (v :: t)) = _
      rw [segRemovals_arrDel, remCommon_nil_right, List.nil_append]
      simp only [List.nil_append, List.length_nil, Nat.sub_zero, Nat.add_zero]
    | cons w r' =>
      rw [segRemovals_arr_cons, ih r' (i + 1), remCommon_cons, List.append_assoc]
      have hfn : (fun j => [decStr (i + 1 + r'.length + j)]) =
          (fun j => [decStr (i + (w :: r').length + j)]) := by
        funext j
        have h2 : i + 1 + r'.length + j = i + (w :: r').length + j := by
          simp only [List.length_cons]
          omega
        rw [h2]
      rw [hfn]
      have hlen2 : t.length - r'.length = (v :: t).length - (w :: r').length := by
        simp only [List.length_cons]
        omega
      rw [hlen2]

theorem applyRem_arr_trunc : ∀ (d : Nat) (m : List Val) (c : Nat), m.length = c + d →
    applyRemSegF (.arr m) (((List.range d).map (fun j => [decStr (c + j)])).reverse) =
      .arr (m.take c) := by
  intro d
  induction d with
  | zero =>
    intro m c hlen
    show Val.arr m = .arr (m.take c)
    rw [List.take_of_length_le (by omega)]
  | succ d ih =>
    intro m c hlen
    rw [List.range_succ, List.map_append, List.reverse_append]
    have hsing : ((List.map (fun j => [decStr (c + j)]) [d]).reverse) = [[decStr (c + d)]] := rfl
    rw [hsing]
    have hcons : ([[decStr (c + d)]] ++ (List.map (fun j => [decStr (c + j)]) (List.range d)).reverse) =
        ([decStr (c + d)] :: (List.map (fun j => [decStr (c + j)]) (List.range d)).reverse) := rfl
    rw [hcons, applyRemSegF_cons, unsetSeg_arr_single]
    have h1 : m.eraseIdx (c + d) = m.take (c + d) := by
      rw [List.eraseIdx_eq_take_drop_succ]
      have h2 : m.drop (c + d + 1) = [] := List.drop_eq_nil_of_le (by omega)
      rw [h2, List.append_nil]
    rw [h1, ih (m.take (c + d)) c (by rw [List.length_take]; omega), List.take_take]
    rw [Nat.min_eq_left (by omega)]

/-- Per-index results of the deep-removal phase on an array document. -/
def remPhase : List Val → List Val → List Val → List Val
  | v :: l, w :: r, u :: ms =>
    applyRemSegF u ((segRemovals (cs0 v w)).reverse) :: remPhase l r ms
  | _, _, ms => ms

theorem remPhase_nil_left : ∀ (r ms : List Val), remPhase [] r ms = ms := by
  intro r ms
  cases r <;> cases ms <;> rfl

theorem remPhase_nil_mid : ∀ (l ms : List Val), remPhase l [] ms = ms := by
  intro l ms
  cases l <;> cases ms <;> rfl

theorem remPhase_cons (v w u : Val) (l r ms : List Val) :
    remPhase (v :: l) (w :: r) (u :: ms) =
      applyRemSegF u ((segRemovals (cs0 v w)).reverse) :: remPhase l r ms := rfl

theorem phase3_arr : ∀ (l r : List Val) (i : Nat) (xs ms : List Val),
    xs.length = i → min l.length r.length ≤ ms.length →
    applyRemSegF (.arr (xs ++ ms)) ((remCommon l r i).reverse) =
      .arr (xs ++ remPhase l r ms) := by
  intro l
  induction l with
  | nil =>
    intro r i xs ms _ _
    rw [remCommon_nil_left, remPhase_nil_left]
    rfl
  | cons v t ih =>
    intro r i xs ms hlen hmin
    cases r with
    | nil =>
      rw [remCommon_nil_right, remPhase_nil_mid]
      rfl
    | cons w r' =>
      cases ms with
      | nil =>
        simp only [List.length_cons, List.length_nil, Nat.le_zero] at hmin
        omega
      | cons u ms' =>
        rw [remCommon_cons, List.reverse_append, applyRemSegF_append]
        have h1 := ih r' (i + 1) (xs ++ [u]) ms' (by simp [hlen])
          (by simp only [List.length_cons] at hmin ⊢; omega)
        rw [show xs ++ u :: ms' = (xs ++ [u]) ++ ms' from by rw [List.append_assoc]; rfl]
        rw [h1]
        rw [show ((segRemovals (cs0 v w)).map (fun q => decStr i :: q)).reverse =
            ((segRemovals (cs0 v w)).reverse).map (fun q => decStr i :: q) from by
          rw [List.map_reverse]]
        rw [applyRemSegF_arr_idx i ((segRemovals (cs0 v w)).reverse)
          ((xs ++ [u]) ++ remPhase t r' ms')
          (fun q hq => segRemovals_cs0_ne_nil v w q (List.mem_reverse.mp hq))]
        rw [show (xs ++ [u]) ++ remPhase t r' ms' = xs ++ u :: remPhase t r' ms' from by
          rw [List.append_assoc]; rfl]
        rw [← hlen, listMapAt_append_mid, remPhase_cons]

theorem arr_roundtrip_list : ∀ (l r : List Val),
    wfValList r = true →
    (∀ v w, v ∈ l → w ∈ r →
      deepEq (segApply v (segAssignments (cs0 v w)) (segRemovals (cs0 v w))) w = true) →
    deepEqList (remPhase l r ((setPhaseList l r).take r.length)) r = true := by
  intro l
  induction l with
  | nil =>
    intro r hwf _
    rw [setPhaseList_nil_left, List.take_of_length_le (le_refl _), remPhase_nil_left]
    exact deepEqList_refl r hwf
  | cons v t ih =>
    intro r hwf REC
    cases r with
    | nil =>
      rw [setPhaseList_nil_right]
      rfl
    | cons w r' =>
      rw [setPhaseList_cons, List.length_cons, List.take_succ_cons, remPhase_cons]
      show (deepEq (applyRemSegF (applySetsSeg v (segAssignments (cs0 v w)))
        ((segRemovals (cs0 v w)).reverse)) w &&
        deepEqList (remPhase t r' ((setPhaseList t r').take r'.length)) r') = true
      simp only [wfValList, Bool.and_eq_true] at hwf
      rw [Bool.and_eq_true]
      exact ⟨REC v w (List.mem_cons_self _ _) (List.mem_cons_self _ _),
        ih r' hwf.2 (fun v2 w2 hv hw =>
          REC v2 w2 (List.mem_cons_of_mem _ hv) (List.mem_cons_of_mem _ hw))⟩

theorem deepEqSub_of_lookup (r : List (String × Val)) :
    ∀ (m : List (String × Val)),
    (∀ k v, (k, v) ∈ m → ∃ w, lookupKey r k = some w ∧ deepEq v w = true) →
    deepEqSub m r = true := by
  intro m
  induction m with
  | nil => intro _; rfl
  | cons hd t ih =>
    obtain ⟨k, v⟩ := hd
    intro h
    obtain ⟨w, hw, hdeep⟩ := h k v (List.mem_cons_self _ _)
    simp only [deepEqSub, hw, Bool.and_eq_true]
    exact ⟨hdeep, ih (fun k2 v2 hm => h k2 v2 (List.mem_cons_of_mem _ hm))⟩

theorem setSeg_nil (a v : Val) : setSeg a [] v = v := by
  cases a <;> rfl

/-- Catch-all pairs round-trip trivially: either no records, or one root edit. -/
theorem segApply_catchall (a b : Val) (hwb : wfVal b = true)
    (h : cs0 a b = (if beqVal a b then [] else [editChange [] a b])) :
    deepEq (segApply a (segAssignments (cs0 a b)) (segRemovals (cs0 a b))) b = true := by
  rw [h]
  cases hbeq : beqVal a b with
  | true =>
    simp only [if_true]
    show deepEq a b = true
    rw [eq_of_beqVal hbeq]
    exact deepEq_refl b hwb
  | false =>
    simp only [Bool.false_eq_true, if_false]
    show deepEq (applyRemSegF (applySetsSeg a [(([] : List String), b)]) []) b = true
    rw [show applySetsSeg a [(([] : List String), b)] = b from setSeg_nil a b]
    exact deepEq_refl b hwb

/-- Core round-trip at the segment level: applying the assignments and
removals compiled from one diff run to the original document yields a value
deep-equal to the updated one. Fuel `n` bounds the combined size. -/
theorem segApply_roundtrip : ∀ (n : Nat) (a b : Val), sizeOf a + sizeOf b ≤ n →
    wfVal a = true → wfVal b = true →
    deepEq (segApply a (segAssignments (cs0 a b)) (segRemovals (cs0 a b))) b = true := by
  intro n
  induction n with
  | zero =>
    intro a b h _ _
    have h1 := sizeOf_val_pos a
    have h2 := sizeOf_val_pos b
    omega
  | succ n ih =>
    intro a b hsz hwa hwb
    cases a with
    | prim s => cases b <;> exact segApply_catchall _ _ hwb rfl
    | date s => cases b <;> exact segApply_catchall _ _ hwb rfl
    | arr l =>
      cases b with
      | prim t => exact segApply_catchall _ _ hwb rfl
      | date t => exact segApply_catchall _ _ hwb rfl
      | obj r => exact segApply_catchall _ _ hwb rfl
      | arr r =>
        have REC : ∀ v w, v ∈ l → w ∈ r →
            deepEq (segApply v (segAssignments (cs0 v w)) (segRemovals (cs0 v w))) w = true := by
          intro v w hv hw
          have hsv := sizeOf_val_lt_of_mem_list hv
          have hsw := sizeOf_val_lt_of_mem_list hw
          exact ih v w (by omega) (wfVal_of_mem_list (by simpa [wfVal] using hwa) hv)
            (wfVal_of_mem_list (by simpa [wfVal] using hwb) hw)
        show deepEq (applyRemSegF
          (applySetsSeg (.arr l) (segAssignments (diffArr filterUpdatedProperties [] 0 l r)))
          ((segRemovals (diffArr filterUpdatedProperties [] 0 l r)).reverse)) (.arr r) = true
        have h1 := phase1_arr l r 0 [] rfl
        simp only [List.nil_append] at h1
        rw [h1, segRemovals_diffArr l r 0, List.reverse_append, applyRemSegF_append]
        have hlen1 : (setPhaseList l r).length = (0 + r.length) + (l.length - r.length) := by
          rw [setPhaseList_length]
          omega
        have h2 := applyRem_arr_trunc (l.length - r.length) (setPhaseList l r)
          (0 + r.length) hlen1
        rw [h2]
        have h3 := phase3_arr l r 0 [] ((setPhaseList l r).take (0 + r.length)) rfl
          (by rw [List.length_take, setPhaseList_length]; omega)
        simp only [List.nil_append] at h3
        rw [h3]
        show deepEqList (remPhase l r ((setPhaseList l r).take (0 + r.length))) r = true
        rw [Nat.zero_add]
        exact arr_roundtrip_list l r (by simpa [wfVal] using hwb) REC
    | obj l =>
      cases b with
      | prim t => exact segApply_catchall _ _ hwb rfl
      | date t => exact segApply_catchall _ _ hwb rfl
      | arr r => exact segApply_catchall _ _ hwb rfl
      | obj r =>
        have hwa2 : listNodupStr (keysOf l) = true ∧ wfValPairs l = true := by
          simpa [wfVal, Bool.and_eq_true] using hwa
        have hwb2 : listNodupStr (keysOf r) = true ∧ wfValPairs r = true := by
          simpa [wfVal, Bool.and_eq_true] using hwb
        have hndl : (keysOf l).Nodup := listNodupStr_iff_nodup.mp hwa2.1
        have hndr : (keysOf r).Nodup := listNodupStr_iff_nodup.mp hwb2.1
        show deepEq (applyRemSegF
          (applySetsSeg (.obj l) (segAssignments
            (diffObjAdd filterUpdatedProperties [] l r ++
             diffObjDel filterUpdatedProperties [] l r)))
          ((segRemovals (diffObjAdd filterUpdatedProperties [] l r ++
            diffObjDel filterUpdatedProperties [] l r)).reverse)) (.obj r) = true
        rw [segAssignments_append, segAssignments_objDel, List.append_nil]
        rw [segRemovals_append, List.reverse_append, applyRemSegF_append]
        obtain ⟨m1, heq1, hnd1, hout1, hnew1, hcom1⟩ :=
          phase1_obj l r l hndr hndl (fun k _ => rfl)
        rw [heq1, segRemovals_objDel [] r l]
        have hrmap : ((removedKeys l r).map (fun k => [] ++ [k])).reverse =
            ((removedKeys l r).reverse).map (fun k => [k]) := by
          rw [List.map_reverse]
          rfl
        rw [hrmap, applyRem_root_keys ((removedKeys l r).reverse) m1]
        obtain ⟨m3, heq3, hkeys3, hout3, hnone3, hcom3⟩ :=
          phase3_obj l r (((removedKeys l r).reverse).foldl objRemove m1) hndr
        rw [heq3]
        have hnd2 : (keysOf (((removedKeys l r).reverse).foldl objRemove m1)).Nodup :=
          nodup_foldl_objRemove _ m1 hnd1
        have hval : ∀ k w, lookupKey r k = some w →
            ∃ u2, lookupKey m3 k = some u2 ∧ deepEq u2 w = true := by
          intro k w hr
          have hmemr : (k, w) ∈ r := mem_of_lookupKey hr
          have hnotrem : k ∉ (removedKeys l r).reverse := by
            rw [List.mem_reverse, mem_removedKeys]
            rintro ⟨_, hcontra⟩
            rw [hr] at hcontra
            cases hcontra
          cases hl : lookupKey l k with
          | none =>
            have h5 : lookupKey m3 k =
                lookupKey (((removedKeys l r).reverse).foldl objRemove m1) k := hnone3 k hl
            rw [lookup_foldl_objRemove _ m1 k hnd1, if_neg hnotrem,
              hnew1 k w hmemr hl] at h5
            exact ⟨w, h5, deepEq_refl w (wfVal_of_mem_pairs hwb2.2 hmemr)⟩
          | some v =>
            have h5 : lookupKey m3 k =
                (lookupKey (((removedKeys l r).reverse).foldl objRemove m1) k).map
                  (fun u2 => applyRemSegF u2 ((segRemovals (cs0 v w)).reverse)) :=
              hcom3 k w v hmemr hl
            rw [lookup_foldl_objRemove _ m1 k hnd1, if_neg hnotrem,
              hcom1 k w v hmemr hl, hl] at h5
            simp only [Option.map_some'] at h5
            refine ⟨_, h5, ?_⟩
            have hsv := sizeOf_val_lt_of_mem_pairs (mem_of_lookupKey hl)
            have hsw := sizeOf_val_lt_of_mem_pairs hmemr
            exact ih v w (by omega) (wfVal_of_mem_pairs hwa2.2 (mem_of_lookupKey hl))
              (wfVal_of_mem_pairs hwb2.2 hmemr)
        have hnonelk : ∀ k, lookupKey r k = none → lookupKey m3 k = none := by
          intro k hr
          have h5 : lookupKey m3 k =
              lookupKey (((removedKeys l r).reverse).foldl objRemove m1) k :=
            hout3 k (lookupKey_eq_none_iff.mp hr)
          rw [lookup_foldl_objRemove _ m1 k hnd1] at h5
          by_cases hmem2 : k ∈ (removedKeys l r).reverse
          · rw [if_pos hmem2] at h5
            exact h5
          · rw [if_neg hmem2, hout1 k (lookupKey_eq_none_iff.mp hr)] at h5
            cases hl : lookupKey l k with
            | none =>
              rw [hl] at h5
              exact h5
            | some v =>
              have hm : k ∈ removedKeys l r := (mem_removedKeys r k l).mpr
                ⟨List.mem_map.mpr ⟨(k, v), mem_of_lookupKey hl, rfl⟩, hr⟩
              exact absurd (List.mem_reverse.mpr hm) hmem2
        show (deepEqSub m3 r && keysIncl r m3) = true
        rw [Bool.and_eq_true]
        constructor
        · apply deepEqSub_of_lookup
          intro k u hmem
          have hnd3 : (keysOf m3).Nodup := by
            rw [hkeys3]
            exact hnd2
          have hlk3 : lookupKey m3 k = some u :=
            lookupKey_of_mem_nodup (listNodupStr_iff_nodup.mpr hnd3) hmem
          cases hr : lookupKey r k with
          | none =>
            rw [hnonelk k hr] at hlk3
            cases hlk3
          | some w =>
            obtain ⟨u2, hu2, hdeep⟩ := hval k w hr
            rw [hu2] at hlk3
            have hueq : u2 = u := Option.some_inj.mp hlk3
            exact ⟨w, rfl, hueq ▸ hdeep⟩
        · rw [keysIncl, List.all_eq_true]
          intro k hk
          have hks : (lookupKey r k).isSome = true := lookupKey_isSome_iff.mpr hk
          obtain ⟨w, hw⟩ := Option.isSome_iff_exists.mp hks
          obtain ⟨u2, hu2, _⟩ := hval k w hw
          rw [hu2]
          rfl

/-! ### From segment paths to dotted string keys -/

theorem joinDotsChars_append_singleton : ∀ (ps : List (List Char)) (cs : List Char), ps ≠ [] →
    joinDotsChars (ps ++ [cs]) = joinDotsChars ps ++ '.' :: cs := by
  intro ps
  induction ps with
  | nil => intro cs h; exact absurd rfl h
  | cons p t ih =>
    intro cs _
    cases t with
    | nil => rfl
    | cons q t2 =>
      show p ++ '.' :: joinDotsChars ((q :: t2) ++ [cs]) =
        (p ++ '.' :: joinDotsChars (q :: t2)) ++ '.' :: cs
      rw [ih cs (by simp)]
      simp

theorem joinDots_append_singleton (p : List String) (s : String) (hp : p ≠ []) :
    joinDots (p ++ [s]) = joinDots p ++ "." ++ s := by
  simp only [joinDots]
  rw [List.map_append]
  show String.mk (joinDotsChars (p.map String.data ++ [s.data])) = _
  rw [joinDotsChars_append_singleton (p.map String.data) s.data (by simpa using hp)]
  have hassoc : joinDotsChars (p.map String.data) ++ '.' :: s.data =
      (joinDotsChars (p.map String.data) ++ ['.']) ++ s.data := by
    rw [List.append_assoc]
    rfl
  rw [hassoc]
  rfl

theorem fullSeg_ne_nil {c : Change} (h : c.path ≠ []) : fullSeg c ≠ [] := by
  obtain ⟨kind, path, lhs, rhs, index, item⟩ := c
  cases kind with
  | N => rw [fullSeg_mk_N]; exact h
  | E => rw [fullSeg_mk_E]; exact h
  | D => rw [fullSeg_mk_D]; exact h
  | A =>
    cases index with
    | none => exact h
    | some i => simp [fullSeg]

/-- The string key the compiler computes is the dotted join of the full
segment path, provided array-change records have a nonempty record path. -/
theorem chKey_eq_joinDots {c : Change} (hgood : c.kind = .A → c.path ≠ []) :
    chKey c = joinDots (fullSeg c) := by
  obtain ⟨kind, path, lhs, rhs, index, item⟩ := c
  cases kind with
  | N => rw [fullSeg_mk_N]; cases index <;> rfl
  | E => rw [fullSeg_mk_E]; cases index <;> rfl
  | D => rw [fullSeg_mk_D]; cases index <;> rfl
  | A =>
    cases index with
    | none => rfl
    | some i =>
      have hp : path ≠ [] := hgood rfl
      show joinDots path ++ "." ++ decStr i = joinDots (path ++ [decStr i])
      rw [joinDots_append_singleton path (decStr i) hp]

theorem objInsert_not_mem {α : Type} (l : List (String × α)) (k : String) (v : α)
    (h : k ∉ keysOf l) : objInsert l k v = l ++ [(k, v)] := by
  induction l with
  | nil => rfl
  | cons hd t ih =>
    obtain ⟨k1, w⟩ := hd
    simp only [keysOf, List.map_cons, List.mem_cons, not_or] at h
    simp [objInsert, h.1, ih h.2]

/-! ### Characterizing the `_makeUpdateSet` fold -/

/-- The `$set` mapping as the source builds it: dotted keys and values. -/
def strAssignments (cs : List Change) : List (String × Val) :=
  (segAssignments cs).map (fun pv => (joinDots pv.1, pv.2))

/-- The `$unset` mapping as the source builds it: dotted keys and marker 1. -/
def strRemovals (cs : List Change) : List (String × Nat) :=
  (segRemovals cs).map (fun q => (joinDots q, 1))

theorem strAssignments_cons_some {c : Change} {pv : List String × Val}
    (h : segAssign c = some pv) (rest : List Change) :
    strAssignments (c :: rest) = (joinDots pv.1, pv.2) :: strAssignments rest := by
  simp [strAssignments, segAssignments, List.filterMap_cons, h]

theorem strAssignments_cons_none {c : Change} (h : segAssign c = none) (rest : List Change) :
    strAssignments (c :: rest) = strAssignments rest := by
  simp [strAssignments, segAssignments, List.filterMap_cons, h]

theorem strRemovals_cons_some {c : Change} {q : List String}
    (h : segRemove c = some q) (rest : List Change) :
    strRemovals (c :: rest) = (joinDots q, 1) :: strRemovals rest := by
  simp [strRemovals, segRemovals, List.filterMap_cons, h]

theorem strRemovals_cons_none {c : Change} (h : segRemove c = none) (rest : List Change) :
    strRemovals (c :: rest) = strRemovals rest := by
  simp [strRemovals, segRemovals, List.filterMap_cons, h]

/-- The source's lazily-created `edited`/`removed` objects: absent while no
record of the kind was seen, else the accumulated entry list. -/
def optExtend {β : Type} :
    Option (List (String × β)) → List (String × β) → Option (List (String × β))
  | none, [] => none
  | o, xs => some (o.getD [] ++ xs)

theorem optExtend_none_nil {β : Type} :
    optExtend (none : Option (List (String × β))) [] = none := rfl

theorem optExtend_none_cons {β : Type} (x : String × β) (xs : List (String × β)) :
    optExtend none (x :: xs) = some (x :: xs) := rfl

theorem optExtend_some {β : Type} (m : List (String × β)) (xs : List (String × β)) :
    optExtend (some m) xs = some (m ++ xs) := by
  cases xs <;> rfl

theorem optExtend_push {β : Type} (o : Option (List (String × β))) (x : String × β)
    (xs : List (String × β)) :
    optExtend (some (o.getD [] ++ [x])) xs = optExtend o (x :: xs) := by
  cases o with
  | none =>
    rw [optExtend_some, optExtend_none_cons]
    rfl
  | some m =>
    rw [optExtend_some, optExtend_some, List.append_assoc]
    rfl

theorem optExtend_getD {β : Type} (xs : List (String × β)) :
    (optExtend (none : Option (List (String × β))) xs).getD [] = xs := by
  cases xs <;> rfl

theorem segRemove_none_of_segAssign_some {c : Change} {pv : List String × Val}
    (h : segAssign c = some pv) : segRemove c = none := by
  obtain ⟨kind, path, lhs, rhs, index, item⟩ := c
  cases kind with
  | N => rfl
  | E => rfl
  | D => exact absurd h (by simp [segAssign])
  | A =>
    simp only [segAssign] at h
    split at h
    · rename_i hcond
      simp only [segRemove]
      rw [if_pos hcond]
    · cases h

theorem segRemove_of_segAssign_none {c : Change} (h : segAssign c = none) :
    segRemove c = some (fullSeg c) := by
  obtain ⟨kind, path, lhs, rhs, index, item⟩ := c
  cases kind with
  | N => exact absurd h (by simp [segAssign])
  | E => exact absurd h (by simp [segAssign])
  | D =>
    rw [fullSeg_mk_D]
    rfl
  | A =>
    simp only [segAssign] at h
    split at h
    · cases h
    · rename_i hcond
      simp only [segRemove]
      rw [if_neg hcond]

theorem updStep_assign {c : Change} {pv : List String × Val}
    (hgood : c.kind = .A → c.path ≠ []) (hsa : segAssign c = some pv)
    (o1 : Option (List (String × Val))) (o2 : Option (List (String × Nat))) :
    updStep (o1, o2) c = (some (objInsert (o1.getD []) (joinDots pv.1) pv.2), o2) := by
  have hch : chKey c = joinDots (fullSeg c) := chKey_eq_joinDots hgood
  obtain ⟨kind, path, lhs, rhs, index, item⟩ := c
  cases kind with
  | N =>
    have hred : segAssign ⟨CKind.N, path, lhs, rhs, index, item⟩ =
        some (path, rhs.getD (Val.prim "undefined")) := rfl
    rw [hred] at hsa
    obtain rfl := (Option.some_inj.mp hsa).symm
    simp only [updStep]
    rw [hch, fullSeg_mk_N]
  | E =>
    have hred : segAssign ⟨CKind.E, path, lhs, rhs, index, item⟩ =
        some (path, rhs.getD (Val.prim "undefined")) := rfl
    rw [hred] at hsa
    obtain rfl := (Option.some_inj.mp hsa).symm
    simp only [updStep]
    rw [hch, fullSeg_mk_E]
  | D => exact absurd hsa (by simp [segAssign])
  | A =>
    simp only [segAssign] at hsa
    split at hsa
    · rename_i hcond
      obtain rfl := (Option.some_inj.mp hsa).symm
      simp only [updStep]
      rw [if_pos hcond, hch]
    · cases hsa

theorem updStep_remove {c : Change} {q : List String}
    (hgood : c.kind = .A → c.path ≠ []) (hsr : segRemove c = some q)
    (hna : segAssign c = none)
    (o1 : Option (List (String × Val))) (o2 : Option (List (String × Nat))) :
    updStep (o1, o2) c = (o1, some (objInsert (o2.getD []) (joinDots q) 1)) := by
  have hch : chKey c = joinDots (fullSeg c) := chKey_eq_joinDots hgood
  have hq : q = fullSeg c := segRemove_path hsr
  subst hq
  obtain ⟨kind, path, lhs, rhs, index, item⟩ := c
  cases kind with
  | N => exact absurd hna (by simp [segAssign])
  | E => exact absurd hna (by simp [segAssign])
  | D =>
    simp only [updStep]
    rw [hch]
  | A =>
    simp only [segAssign] at hna
    split at hna
    · cases hna
    · rename_i hcond
      simp only [updStep]
      rw [if_neg hcond, hch]

theorem strAssignments_nil : strAssignments [] = [] := rfl

theorem strRemovals_nil : strRemovals [] = [] := rfl

/-- The fold of `_makeUpdateSet`'s loop, under pairwise-distinct dotted keys:
the `$set` and `$unset` mappings are exactly the joined assignments and
removals, each `undefined` while empty. -/
theorem foldl_updStep_char : ∀ (cs : List Change)
    (o1 : Option (List (String × Val))) (o2 : Option (List (String × Nat))),
    (∀ c ∈ cs, c.kind = .A → c.path ≠ []) →
    (keysOf (o1.getD []) ++ keysOf (strAssignments cs)).Nodup →
    (keysOf (o2.getD []) ++ keysOf (strRemovals cs)).Nodup →
    cs.foldl updStep (o1, o2) =
      (optExtend o1 (strAssignments cs), optExtend o2 (strRemovals cs)) := by
  intro cs
  induction cs with
  | nil =>
    intro o1 o2 _ _ _
    show (o1, o2) = _
    rw [strAssignments_nil, strRemovals_nil]
    cases o1 <;> cases o2 <;> simp [optExtend_none_nil, optExtend_some]
  | cons c rest ih =>
    intro o1 o2 hgood hnd1 hnd2
    rw [List.foldl_cons]
    cases hsa : segAssign c with
    | some pv =>
      have hsr : segRemove c = none := segRemove_none_of_segAssign_some hsa
      rw [updStep_assign (hgood c (List.mem_cons_self _ _)) hsa o1 o2]
      rw [strAssignments_cons_some hsa rest] at hnd1 ⊢
      rw [strRemovals_cons_none hsr rest] at hnd2 ⊢
      have hfresh : joinDots pv.1 ∉ keysOf (o1.getD []) := by
        intro hmem
        rw [List.nodup_append] at hnd1
        exact hnd1.2.2 hmem (by simp [keysOf])
      rw [objInsert_not_mem _ _ _ hfresh]
      have hnd1' : (keysOf ((some (o1.getD [] ++ [(joinDots pv.1, pv.2)])).getD []) ++
          keysOf (strAssignments rest)).Nodup := by
        simp only [Option.getD_some]
        have hkeq : keysOf (o1.getD [] ++ [(joinDots pv.1, pv.2)]) =
            keysOf (o1.getD []) ++ [joinDots pv.1] := by
          simp [keysOf]
        rw [hkeq, List.append_assoc]
        exact hnd1
      rw [ih (some (o1.getD [] ++ [(joinDots pv.1, pv.2)])) o2
        (fun c2 hc2 => hgood c2 (List.mem_cons_of_mem _ hc2)) hnd1' hnd2]
      rw [optExtend_push]
    | none =>
      have hsr : segRemove c = some (fullSeg c) := segRemove_of_segAssign_none hsa
      rw [updStep_remove (hgood c (List.mem_cons_self _ _)) hsr hsa o1 o2]
      rw [strAssignments_cons_none hsa rest] at hnd1 ⊢
      rw [strRemovals_cons_some hsr rest] at hnd2 ⊢
      have hfresh : joinDots (fullSeg c) ∉ keysOf (o2.getD []) := by
        intro hmem
        rw [List.nodup_append] at hnd2
        exact hnd2.2.2 hmem (by simp [keysOf])
      rw [objInsert_not_mem _ _ _ hfresh]
      have hnd2' : (keysOf ((some (o2.getD [] ++ [(joinDots (fullSeg c), 1)])).getD []) ++
          keysOf (strRemovals rest)).Nodup := by
        simp only [Option.getD_some]
        have hkeq : keysOf (o2.getD [] ++ [(joinDots (fullSeg c), 1)]) =
            keysOf (o2.getD []) ++ [joinDots (fullSeg c)] := by
          simp [keysOf]
        rw [hkeq, List.append_assoc]
        exact hnd2
      rw [ih o1 (some (o2.getD [] ++ [(joinDots (fullSeg c), 1)]))
        (fun c2 hc2 => hgood c2 (List.mem_cons_of_mem _ hc2)) hnd1 hnd2']
      rw [optExtend_push]

/-! ### Paths of a root object diff: nonempty, dot-free segments -/

theorem path_ne_nil_cs0_obj {l r : List (String × Val)} {c : Change}
    (hc : c ∈ cs0 (.obj l) (.obj r)) : c.path ≠ [] := by
  have hc2 : c ∈ diffObjAdd filterUpdatedProperties [] l r ++
      diffObjDel filterUpdatedProperties [] l r := hc
  rcases List.mem_append.mp hc2 with h | h
  · obtain ⟨k, w, _, hcase⟩ := mem_diffObjAdd h
    rcases hcase with ⟨_, rfl⟩ | ⟨v, c', _, _, rfl⟩
    · simp [newChange]
    · show ([] ++ [k]) ++ c'.path ≠ []
      simp
  · obtain ⟨k, v, _, _, rfl⟩ := mem_diffObjDel h
    simp [delChange]

theorem dotFreeVal_of_mem_list {v : Val} {l : List Val} (hl : dotFreeValList l = true)
    (h : v ∈ l) : dotFreeVal v = true := by
  induction l with
  | nil => simp at h
  | cons w t ih =>
    simp only [dotFreeValList, Bool.and_eq_true] at hl
    rcases List.mem_cons.mp h with rfl | h2
    · exact hl.1
    · exact ih hl.2 h2

theorem dotFreeVal_of_mem_pairs {k : String} {v : Val} {l : List (String × Val)}
    (hl : dotFreeValPairs l = true) (h : (k, v) ∈ l) : dotFreeVal v = true := by
  induction l with
  | nil => simp at h
  | cons hd t ih =>
    obtain ⟨k1, w⟩ := hd
    simp only [dotFreeValPairs, Bool.and_eq_true] at hl
    rcases List.mem_cons.mp h with heq | h2
    · rw [Prod.mk.injEq] at heq
      rw [heq.2]
      exact hl.1
    · exact ih hl.2 h2

theorem dotFreeStr_key_of_mem {k : String} {v : Val} {l : List (String × Val)}
    (hl : (keysOf l).all dotFreeStr = true) (h : (k, v) ∈ l) : dotFreeStr k = true := by
  rw [List.all_eq_true] at hl
  exact hl k (List.mem_map.mpr ⟨(k, v), h, rfl⟩)

theorem dotFreeStr_decStr (n : Nat) : dotFreeStr (decStr n) = true :=
  decide_eq_true (decStr_dotFree n)

theorem mem_diffArrDel_mem {p : List String} {c : Change} :
    ∀ {l : List Val} {i : Nat}, c ∈ diffArrDel p i l →
    ∃ j v, v ∈ l ∧ c = arrDelChange p j v := by
  intro l
  induction l with
  | nil => intro i h; simp [diffArrDel] at h
  | cons v rest ih =>
    intro i h
    simp only [diffArrDel, List.mem_cons] at h
    rcases h with rfl | h
    · exact ⟨i, v, List.mem_cons_self _ _, rfl⟩
    · obtain ⟨j, v2, hmem, rfl⟩ := ih h
      exact ⟨j, v2, List.mem_cons_of_mem _ hmem, rfl⟩

theorem mem_diffArr_mem {p : List String} {c : Change} :
    ∀ {l r : List Val} {i : Nat}, c ∈ diffArr filterUpdatedProperties p i l r →
    (∃ j w, w ∈ r ∧ c = arrAddChange p j w) ∨
    (∃ j v, v ∈ l ∧ c = arrDelChange p j v) ∨
    (∃ j v w c', v ∈ l ∧ w ∈ r ∧ c' ∈ diffVal filterUpdatedProperties [] v w ∧
      c = shiftC (p ++ [decStr j]) c') := by
  intro l
  induction l with
  | nil =>
    intro r
    induction r with
    | nil => intro i h; simp [diffArr] at h
    | cons w rest ihr =>
      intro i h
      simp only [diffArr, List.mem_cons] at h
      rcases h with rfl | h
      · exact Or.inl ⟨i, w, List.mem_cons_self _ _, rfl⟩
      · rcases ihr h with ⟨j, w2, hm, rfl⟩ | h2 | ⟨j, v2, w2, c', hv, hw, hc', rfl⟩
        · exact Or.inl ⟨j, w2, List.mem_cons_of_mem _ hm, rfl⟩
        · obtain ⟨j, v2, hv, rfl⟩ := h2
          simp at hv
        · exact Or.inr (Or.inr ⟨j, v2, w2, c', hv, List.mem_cons_of_mem _ hw, hc', rfl⟩)
  | cons v lrest ihl =>
    intro r
    cases r with
    | nil =>
      intro i h
      simp only [diffArr] at h
      obtain ⟨j, v2, hmem, rfl⟩ := mem_diffArrDel_mem h
      exact Or.inr (Or.inl ⟨j, v2, hmem, rfl⟩)
    | cons w rrest =>
      intro i h
      simp only [diffArr, filterUpdatedProperties, Bool.false_eq_true, if_false,
        List.mem_append] at h
      rcases h with h | h
      · rw [diffVal_shift_nil (p ++ [decStr i]) v w] at h
        obtain ⟨c', hc', rfl⟩ := List.mem_map.mp h
        exact Or.inr (Or.inr ⟨i, v, w, c', List.mem_cons_self _ _,
          List.mem_cons_self _ _, hc', rfl⟩)
      · rcases ihl h with ⟨j, w2, hm, rfl⟩ | h2 | ⟨j, v2, w2, c', hv, hw, hc', rfl⟩
        · exact Or.inl ⟨j, w2, List.mem_cons_of_mem _ hm, rfl⟩
        · obtain ⟨j, v2, hv, rfl⟩ := h2
          exact Or.inr (Or.inl ⟨j, v2, List.mem_cons_of_mem _ hv, rfl⟩)
        · exact Or.inr (Or.inr ⟨j, v2, w2, c', List.mem_cons_of_mem _ hv,
            List.mem_cons_of_mem _ hw, hc', rfl⟩)

theorem fullSeg_catchall_empty (a b : Val) {c : Change}
    (h : cs0 a b = (if beqVal a b then [] else [editChange [] a b]))
    (hc : c ∈ cs0 a b) : fullSeg c = [] := by
  rw [h] at hc
  cases hbeq : beqVal a b with
  | true =>
    rw [hbeq] at hc
    simp at hc
  | false =>
    rw [hbeq] at hc
    simp only [Bool.false_eq_true, if_false, List.mem_singleton] at hc
    subst hc
    rfl

/-- Every segment of every full path of a diff over dot-free documents is
dot-free. -/
theorem fullSeg_dotFree_cs0 : ∀ (n : Nat) (a b : Val), sizeOf a + sizeOf b ≤ n →
    dotFreeVal a = true → dotFreeVal b = true →
    ∀ c ∈ cs0 a b, ∀ s ∈ fullSeg c, dotFreeStr s = true := by
  intro n
  induction n with
  | zero =>
    intro a b h _ _ c _ s _
    have h1 := sizeOf_val_pos a
    have h2 := sizeOf_val_pos b
    omega
  | succ n ih =>
    intro a b hsz hda hdb c hc s hs
    cases a with
    | prim t1 =>
      cases b with
      | prim t2 =>
        rw [fullSeg_catchall_empty (.prim t1) (.prim t2) rfl hc] at hs
        simp at hs
      | date t2 =>
        rw [fullSeg_catchall_empty (.prim t1) (.date t2) rfl hc] at hs
        simp at hs
      | arr t2 =>
        rw [fullSeg_catchall_empty (.prim t1) (.arr t2) rfl hc] at hs
        simp at hs
      | obj t2 =>
        rw [fullSeg_catchall_empty (.prim t1) (.obj t2) rfl hc] at hs
        simp at hs
    | date t1 =>
      cases b with
      | prim t2 =>
        rw [fullSeg_catchall_empty (.date t1) (.prim t2) rfl hc] at hs
        simp at hs
      | date t2 =>
        rw [fullSeg_catchall_empty (.date t1) (.date t2) rfl hc] at hs
        simp at hs
      | arr t2 =>
        rw [fullSeg_catchall_empty (.date t1) (.arr t2) rfl hc] at hs
        simp at hs
      | obj t2 =>
        rw [fullSeg_catchall_empty (.date t1) (.obj t2) rfl hc] at hs
        simp at hs
    | arr l =>
      cases b with
      | prim t2 =>
        rw [fullSeg_catchall_empty (.arr l) (.prim t2) rfl hc] at hs
        simp at hs
      | date t2 =>
        rw [fullSeg_catchall_empty (.arr l) (.date t2) rfl hc] at hs
        simp at hs
      | obj t2 =>
        rw [fullSeg_catchall_empty (.arr l) (.obj t2) rfl hc] at hs
        simp at hs
      | arr r =>
        have hc2 : c ∈ diffArr filterUpdatedProperties [] 0 l r := hc
        rcases mem_diffArr_mem hc2 with ⟨j, w, _, rfl⟩ | ⟨j, v, _, rfl⟩ |
          ⟨j, v, w, c', hv, hw, hc', rfl⟩
        · rw [fullSeg_arrAddChange] at hs
          simp only [List.nil_append, List.mem_singleton] at hs
          subst hs
          exact dotFreeStr_decStr j
        · rw [fullSeg_arrDelChange] at hs
          simp only [List.nil_append, List.mem_singleton] at hs
          subst hs
          exact dotFreeStr_decStr j
        · rw [fullSeg_shiftC] at hs
          simp only [List.nil_append, List.cons_append, List.mem_cons] at hs
          rcases hs with rfl | hs2
          · exact dotFreeStr_decStr j
          · have hsv := sizeOf_val_lt_of_mem_list hv
            have hsw := sizeOf_val_lt_of_mem_list hw
            exact ih v w (by omega) (dotFreeVal_of_mem_list (by simpa [dotFreeVal] using hda) hv)
              (dotFreeVal_of_mem_list (by simpa [dotFreeVal] using hdb) hw) c' hc' s hs2
    | obj l =>
      cases b with
      | prim t2 =>
        rw [fullSeg_catchall_empty (.obj l) (.prim t2) rfl hc] at hs
        simp at hs
      | date t2 =>
        rw [fullSeg_catchall_empty (.obj l) (.date t2) rfl hc] at hs
        simp at hs
      | arr t2 =>
        rw [fullSeg_catchall_empty (.obj l) (.arr t2) rfl hc] at hs
        simp at hs
      | obj r =>
        have hda2 : ((keysOf l).all dotFreeStr = true) ∧ dotFreeValPairs l = true := by
          simpa [dotFreeVal, Bool.and_eq_true] using hda
        have hdb2 : ((keysOf r).all dotFreeStr = true) ∧ dotFreeValPairs r = true := by
          simpa [dotFreeVal, Bool.and_eq_true] using hdb
        have hc2 : c ∈ diffObjAdd filterUpdatedProperties [] l r ++
            diffObjDel filterUpdatedProperties [] l r := hc
        rcases List.mem_append.mp hc2 with h | h
        · obtain ⟨k, w, hmem, hcase⟩ := mem_diffObjAdd h
          have hk : dotFreeStr k = true := dotFreeStr_key_of_mem hdb2.1 hmem
          rcases hcase with ⟨_, rfl⟩ | ⟨v, c', hlk, hc', rfl⟩
          · rw [fullSeg_newChange] at hs
            simp only [List.nil_append, List.mem_singleton] at hs
            subst hs
            exact hk
          · rw [fullSeg_shiftC] at hs
            simp only [List.nil_append, List.cons_append, List.mem_cons] at hs
            rcases hs with rfl | hs2
            · exact hk
            · have hsv := sizeOf_val_lt_of_mem_pairs (mem_of_lookupKey hlk)
              have hsw := sizeOf_val_lt_of_mem_pairs hmem
              exact ih v w (by omega)
                (dotFreeVal_of_mem_pairs hda2.2 (mem_of_lookupKey hlk))
                (dotFreeVal_of_mem_pairs hdb2.2 hmem) c' hc' s hs2
        · obtain ⟨k, v, hmem, _, rfl⟩ := mem_diffObjDel h
          rw [fullSeg_delChange] at hs
          simp only [List.nil_append, List.mem_singleton] at hs
          subst hs
          exact dotFreeStr_key_of_mem hda2.1 hmem

theorem segAssignments_paths_sublist : ∀ cs : List Change,
    ((segAssignments cs).map Prod.fst).Sublist (cs.map fullSeg) := by
  intro cs
  induction cs with
  | nil => simp [segAssignments]
  | cons c rest ih =>
    cases hsa : segAssign c with
    | some pv =>
      rw [show segAssignments (c :: rest) = pv :: segAssignments rest from by
        simp [segAssignments, List.filterMap_cons, hsa]]
      rw [List.map_cons, List.map_cons, segAssign_path hsa]
      exact List.Sublist.cons₂ _ ih
    | none =>
      rw [show segAssignments (c :: rest) = segAssignments rest from by
        simp [segAssignments, List.filterMap_cons, hsa]]
      rw [List.map_cons]
      exact List.Sublist.cons _ ih

theorem segRemovals_sublist : ∀ cs : List Change,
    (segRemovals cs).Sublist (cs.map fullSeg) := by
  intro cs
  induction cs with
  | nil => simp [segRemovals]
  | cons c rest ih =>
    cases hsr : segRemove c with
    | some q =>
      rw [show segRemovals (c :: rest) = q :: segRemovals rest from by
        simp [segRemovals, List.filterMap_cons, hsr]]
      rw [List.map_cons, segRemove_path hsr]
      exact List.Sublist.cons₂ _ ih
    | none =>
      rw [show segRemovals (c :: rest) = segRemovals rest from by
        simp [segRemovals, List.filterMap_cons, hsr]]
      rw [List.map_cons]
      exact List.Sublist.cons _ ih

/-- `_makeUpdateSet` on well-formed dot-free documents: the compiled `$set`
and `$unset` are exactly the joined assignment and removal paths of the diff,
each mapping absent when it collected nothing. -/
theorem makeUpdateSet_char (la lb : List (String × Val))
    (hwa : wfVal (.obj la) = true) (hwb : wfVal (.obj lb) = true)
    (hda : dotFreeVal (.obj la) = true) (hdb : dotFreeVal (.obj lb) = true) :
    makeUpdateSet (.obj la) (.obj lb) =
      ⟨optExtend none (strAssignments (cs0 (.obj la) (.obj lb))),
       optExtend none (strRemovals (cs0 (.obj la) (.obj lb)))⟩ := by
  have hndfs : ((cs0 (.obj la) (.obj lb)).map fullSeg).Nodup :=
    nodup_fullSeg_cs0 (sizeOf (Val.obj la) + sizeOf (Val.obj lb)) _ _ le_rfl hwa hwb
  have hgood2 : ∀ p ∈ (cs0 (.obj la) (.obj lb)).map fullSeg,
      p ≠ [] ∧ (∀ s ∈ p, dotFreeStr s = true) := by
    intro p hp
    obtain ⟨c, hc, rfl⟩ := List.mem_map.mp hp
    exact ⟨fullSeg_ne_nil (path_ne_nil_cs0_obj hc),
      fun s hs => fullSeg_dotFree_cs0 (sizeOf (Val.obj la) + sizeOf (Val.obj lb)) _ _
        le_rfl hda hdb c hc s hs⟩
  have hinj : ∀ p ∈ (cs0 (.obj la) (.obj lb)).map fullSeg,
      ∀ q ∈ (cs0 (.obj la) (.obj lb)).map fullSeg, joinDots p = joinDots q → p = q := by
    intro p hp q hq heq
    have h1 := hgood2 p hp
    have h2 := hgood2 q hq
    have h3 : splitPath (joinDots p) = splitPath (joinDots q) := by rw [heq]
    rw [splitPath_joinDots p h1.1 h1.2, splitPath_joinDots q h2.1 h2.2] at h3
    exact h3
  have hnd1 : (keysOf (strAssignments (cs0 (.obj la) (.obj lb)))).Nodup := by
    have he : keysOf (strAssignments (cs0 (.obj la) (.obj lb))) =
        ((segAssignments (cs0 (.obj la) (.obj lb))).map Prod.fst).map joinDots := by
      simp [keysOf, strAssignments, List.map_map]
    rw [he]
    apply List.Nodup.map_on
    · intro x hx y hy hxy
      exact hinj x (List.Sublist.subset (segAssignments_paths_sublist _) hx)
        y (List.Sublist.subset (segAssignments_paths_sublist _) hy) hxy
    · exact List.Nodup.sublist (segAssignments_paths_sublist _) hndfs
  have hnd2 : (keysOf (strRemovals (cs0 (.obj la) (.obj lb)))).Nodup := by
    have he : keysOf (strRemovals (cs0 (.obj la) (.obj lb))) =
        (segRemovals (cs0 (.obj la) (.obj lb))).map joinDots := by
      simp [keysOf, strRemovals, List.map_map]
    rw [he]
    apply List.Nodup.map_on
    · intro x hx y hy hxy
      exact hinj x (List.Sublist.subset (segRemovals_sublist _) hx)
        y (List.Sublist.subset (segRemovals_sublist _) hy) hxy
    · exact List.Nodup.sublist (segRemovals_sublist _) hndfs
  show (⟨((cs0 (.obj la) (.obj lb)).foldl updStep (none, none)).1,
         ((cs0 (.obj la) (.obj lb)).foldl updStep (none, none)).2⟩ : UpdateSet) = _
  rw [foldl_updStep_char (cs0 (.obj la) (.obj lb)) none none
    (fun c hc _ => path_ne_nil_cs0_obj hc) hnd1 hnd2]

theorem applySets_join : ∀ (sas : List (List String × Val)) (d : Val),
    (∀ pv ∈ sas, pv.1 ≠ [] ∧ ∀ s ∈ pv.1, dotFreeStr s = true) →
    applySets d (sas.map (fun pv => (joinDots pv.1, pv.2))) = applySetsSeg d sas := by
  intro sas
  induction sas with
  | nil => intro d _; rfl
  | cons pv rest ih =>
    intro d h
    rw [List.map_cons]
    show applySets (setSeg d (splitPath (joinDots pv.1)) pv.2)
      (rest.map (fun pv => (joinDots pv.1, pv.2))) = applySetsSeg d (pv :: rest)
    rw [splitPath_joinDots pv.1 (h pv (List.mem_cons_self _ _)).1
      (h pv (List.mem_cons_self _ _)).2]
    rw [ih (setSeg d pv.1 pv.2) (fun q hq => h q (List.mem_cons_of_mem _ hq))]
    rw [applySetsSeg_cons]

theorem applyUnsets_join (srs : List (List String))
    (h : ∀ q ∈ srs, q ≠ [] ∧ ∀ s ∈ q, dotFreeStr s = true) (d : Val) :
    applyUnsets d (srs.map (fun q => (joinDots q, 1))) = applyRemSegF d srs.reverse := by
  show ((srs.map (fun q => (joinDots q, (1 : Nat)))).reverse).foldl
      (fun acc kv => unsetSeg acc (splitPath kv.1)) d = _
  rw [show (srs.map (fun q => (joinDots q, (1 : Nat)))).reverse =
      (srs.reverse).map (fun q => (joinDots q, (1 : Nat))) from by rw [List.map_reverse]]
  have hgen : ∀ (qs : List (List String)) (d2 : Val),
      (∀ q ∈ qs, q ≠ [] ∧ ∀ s ∈ q, dotFreeStr s = true) →
      ((qs.map (fun q => (joinDots q, (1 : Nat)))).foldl
        (fun acc kv => unsetSeg acc (splitPath kv.1)) d2) = applyRemSegF d2 qs := by
    intro qs
    induction qs with
    | nil => intro d2 _; rfl
    | cons q rest ih =>
      intro d2 h2
      rw [List.map_cons, List.foldl_cons]
      show (rest.map (fun q => (joinDots q, (1 : Nat)))).foldl
          (fun acc kv => unsetSeg acc (splitPath kv.1))
          (unsetSeg d2 (splitPath (joinDots q))) = applyRemSegF d2 (q :: rest)
      rw [splitPath_joinDots q (h2 q (List.mem_cons_self _ _)).1
        (h2 q (List.mem_cons_self _ _)).2]
      rw [ih (unsetSeg d2 q) (fun p hp => h2 p (List.mem_cons_of_mem _ hp))]
      rw [applyRemSegF_cons]
  exact hgen srs.reverse d (fun q hq => h q (List.mem_reverse.mp hq))

/-- Applying the compiled update set coincides with the segment-level
application. -/
theorem applyUpdateSet_bridge (la lb : List (String × Val))
    (hwa : wfVal (.obj la) = true) (hwb : wfVal (.obj lb) = true)
    (hda : dotFreeVal (.obj la) = true) (hdb : dotFreeVal (.obj lb) = true) :
    applyUpdateSet (.obj la) (makeUpdateSet (.obj la) (.obj lb)) =
      segApply (.obj la) (segAssignments (cs0 (.obj la) (.obj lb)))
        (segRemovals (cs0 (.obj la) (.obj lb))) := by
  rw [makeUpdateSet_char la lb hwa hwb hda hdb]
  show applyUnsets (applySets (.obj la)
      ((optExtend none (strAssignments (cs0 (.obj la) (.obj lb)))).getD []))
    ((optExtend none (strRemovals (cs0 (.obj la) (.obj lb)))).getD []) = _
  rw [optExtend_getD, optExtend_getD]
  have hgoodseg : ∀ pv ∈ segAssignments (cs0 (.obj la) (.obj lb)),
      pv.1 ≠ [] ∧ ∀ s ∈ pv.1, dotFreeStr s = true := by
    intro pv hpv
    obtain ⟨c, hc, hpc⟩ := List.mem_filterMap.mp hpv
    rw [segAssign_path hpc]
    exact ⟨fullSeg_ne_nil (path_ne_nil_cs0_obj hc),
      fun s hs => fullSeg_dotFree_cs0 (sizeOf (Val.obj la) + sizeOf (Val.obj lb)) _ _
        le_rfl hda hdb c hc s hs⟩
  have hgoodrem : ∀ q ∈ segRemovals (cs0 (.obj la) (.obj lb)),
      q ≠ [] ∧ ∀ s ∈ q, dotFreeStr s = true := by
    intro q hq
    obtain ⟨c, hc, hqc⟩ := List.mem_filterMap.mp hq
    rw [segRemove_path hqc]
    exact ⟨fullSeg_ne_nil (path_ne_nil_cs0_obj hc),
      fun s hs => fullSeg_dotFree_cs0 (sizeOf (Val.obj la) + sizeOf (Val.obj lb)) _ _
        le_rfl hda hdb c hc s hs⟩
  rw [show strAssignments (cs0 (.obj la) (.obj lb)) =
      (segAssignments (cs0 (.obj la) (.obj lb))).map (fun pv => (joinDots pv.1, pv.2))
    from rfl]
  rw [applySets_join (segAssignments (cs0 (.obj la) (.obj lb))) (.obj la) hgoodseg]
  rw [show strRemovals (cs0 (.obj la) (.obj lb)) =
      (segRemovals (cs0 (.obj la) (.obj lb))).map (fun q => (joinDots q, 1)) from rfl]
  rw [applyUnsets_join (segRemovals (cs0 (.obj la) (.obj lb))) hgoodrem]
  rfl

/-! ### Claim C1 -/

/-- Counterexample pair for the claim as literally stated: a dotted field
name in the updated document. -/
def c1A : Val := .obj []

/-- The updated document of the counterexample: one field whose name
contains a dot. -/
def c1B : Val := .obj [("a.b", .prim "1")]

/-- Claim C1 (counterexample): for A = {} and B = {"a.b": "1"}, the update
set compiled by `_makeUpdateSet` assigns at the dotted key "a.b", which the
application semantics necessarily reads back as a nested path, producing
{a: {b: "1"}} - not deep-equal to B. The literal for-all-pairs round trip
fails. -/
theorem c1_counterexample :
    deepEq (applyUpdateSet c1A (makeUpdateSet c1A c1B)) c1B = false := by rfl

/-- Claim C1 (amended): for every pair of documents whose field names are
duplicate-free (well-formed JS objects) and dot-free, applying the update
set produced by `_makeUpdateSet(A, B)` to A - assigning to each path in the
`$set` mapping its value and removing each path in the `$unset` mapping -
yields a document deep-equal to B; the default `_filterUpdatedProperties`
hook excludes no paths, so the restriction to compared fields is vacuous. -/
theorem c1_roundtrip (la lb : List (String × Val))
    (hwa : wfVal (.obj la) = true) (hwb : wfVal (.obj lb) = true)
    (hda : dotFreeVal (.obj la) = true) (hdb : dotFreeVal (.obj lb) = true) :
    deepEq (applyUpdateSet (.obj la) (makeUpdateSet (.obj la) (.obj lb))) (.obj lb) = true := by
  rw [applyUpdateSet_bridge la lb hwa hwb hda hdb]
  exact segApply_roundtrip (sizeOf (Val.obj la) + sizeOf (Val.obj lb)) _ _ le_rfl hwa hwb

/-- Witness for the amended round trip, on the spec's own scenario pair. -/
theorem c1_roundtrip_witness :
    deepEq (applyUpdateSet scenarioOrig (makeUpdateSet scenarioOrig scenarioUpd))
      scenarioUpd = true :=
  c1_roundtrip
    [("_id", .prim "1"), ("a", .prim "num1"), ("arr", .arr [.prim "num1", .prim "num2"])]
    [("_id", .prim "1"), ("arr", .arr [.prim "num1", .prim "num2", .prim "num3"])]
    (by decide) (by decide) (by decide) (by decide)

end Mongorepo
